import Mathlib

/-!
The VFS worker-thread pool (`minix/servers/vfs/worker.c`).

A shallow embedding of the scheduling state of the worker pool and of the
operations of `worker.c`, followed by theorems about them.

Conventions of the embedding.

* The two tables `workers[NR_WTHREADS]` and `fproc[NR_PROCS]` are lists; a
  pointer into a table is the index of the entry and `NULL` is `none`.  The
  table sizes `NR_WTHREADS` and `NR_PROCS` are not defined in `worker.c`; they
  are the lengths of the two lists.
* `pending` and `busy` are `unsigned int`, values below `2^32`: every
  increment and decrement is taken modulo `2^32`, and `worker_available`
  converts the unsigned difference to `int`.
* `panic` and a failed `assert` end the run: an operation returns
  `Except (Fatal × State) State`, the error carrying the state at the moment of
  the failure.
* Waking a worker, calling a handler and printing a diagnostic are recorded
  as events appended to `State.trace`.
* Reply buffers (`w_drv_sendrec`, `w_sendrec` point to messages owned by the
  blocked call) live in the list `State.replies`.
-/

namespace VfsWorker

/-! ## Data model -/

/-- An IPC message: source, type and an uninterpreted payload. -/
structure message where
  m_source : Int
  m_type : Int
  m_payload : List Nat
deriving DecidableEq, Inhabited

/-- The fields of `struct fproc` that `worker.c` reads or writes. -/
structure fproc where
  fp_flags : Nat
  fp_worker : Option Nat
  fp_func : Option Nat
  fp_msg : message
  fp_pm_msg : message
deriving DecidableEq

/-- The fields of `struct worker_thread` that `worker.c` reads or writes. -/
structure worker_thread where
  w_fp : Option Nat
  w_next : Option Nat
  w_task : Int
  w_drv_sendrec : Option Nat
  w_sendrec : Option Nat
  w_err_code : Int
  w_m_in : message
deriving DecidableEq

instance : Inhabited fproc := ⟨⟨0, none, none, default, default⟩⟩

/-- Modelled from the spec: the endpoint value `NONE` ("none") is not defined
in `worker.c`; any fixed value serves, the theorems only compare with it. -/
def NONE : Int := 0x6ace

instance : Inhabited worker_thread := ⟨⟨none, none, NONE, none, none, 0, default⟩⟩

/-- Modelled from the spec: the flag bit PENDING of `fp_flags` (the constant is
not defined in `worker.c`). -/
def FP_PENDING : Nat := 0o10

/-- Modelled from the spec: the flag bit PM_WORK of `fp_flags` (the constant is
not defined in `worker.c`). -/
def FP_PM_WORK : Nat := 0o40

/-- Modelled from the spec: the I/O-error result injected by `worker_stop`
(the constant is not defined in `worker.c`). -/
def EIO : Int := -5

/-- The result code `OK`. -/
def OK : Int := 0

/-- The ways a run of the server ends: one constructor per `panic` of
`worker.c`, one for the failed precondition `assert(worker_idle())` of
`worker_cleanup`, one for any other failed `assert`. -/
inductive Fatal where
  | both_pending_and_active
  | two_calls
  | two_pm_calls
  | administration_error
  | pending_inconsistency
  | reply_storage
  | target_not_idle
  | assert_failed
  | not_idle
deriving DecidableEq

/-- Observable effects outside the scheduling state. -/
inductive Event where
  | wake (w : Nat)
  | lock_proc (p : Nat)
  | unlock_proc (p : Nat)
  | call_func (f : Nat) (w : Nat)
  | call_pm_postponed (w : Nat)
  | thread_cleanup (w : Nat)
  | stacktrace
deriving DecidableEq

/-- The state of the pool: the two tables, the three static variables of
`worker.c`, the ambient context (`self`, `fp`, `err_code`), the reply buffers
and the trace of events. -/
structure State where
  workers : List worker_thread
  fproc : List fproc
  pending : Nat
  busy : Nat
  block_all : Bool
  self : Option Nat
  fp : Option Nat
  err_code : Int
  replies : List message
  trace : List Event
deriving DecidableEq

/-- The outcome of an operation that may panic. -/
abbrev Result := Except (Fatal × State) State

/-- The number of worker threads. -/
def NR_WTHREADS (s : State) : Nat := s.workers.length

/-- The number of process slots. -/
def NR_PROCS (s : State) : Nat := s.fproc.length

/-- Read `fproc[p]`. -/
def get_fproc (s : State) (p : Nat) : fproc := s.fproc.getD p default

/-- Read `workers[w]`. -/
def get_worker (s : State) (w : Nat) : worker_thread := s.workers.getD w default

/-- Write `fproc[p]`. -/
def set_fproc (s : State) (p : Nat) (v : fproc) : State :=
  { s with fproc := s.fproc.set p v }

/-- Write `workers[w]`. -/
def set_worker (s : State) (w : Nat) (v : worker_thread) : State :=
  { s with workers := s.workers.set w v }

/-- Append an event to the trace. -/
def emit (s : State) (e : Event) : State := { s with trace := s.trace ++ [e] }

/-- The test `flags & mask`. -/
def has_flag (flags mask : Nat) : Bool := flags &&& mask != 0

/-- The update `flags |= mask`. -/
def set_flag (flags mask : Nat) : Nat := flags ||| mask

/-- The update `flags &= ~mask`. -/
def clear_flag (flags mask : Nat) : Nat := flags ^^^ (flags &&& mask)

/-- The increment `x++` of an `unsigned int`. -/
def uint_inc (x : Nat) : Nat := (x + 1) % 4294967296

/-- The decrement `x--` of an `unsigned int`. -/
def uint_dec (x : Nat) : Nat := (x + 4294967295) % 4294967296

/-- Conversion of an `unsigned int` to `int`. -/
def uint_to_int (x : Nat) : Int :=
  if x < 2147483648 then (x : Int) else (x : Int) - 4294967296

/-! ## Operations -/

/-- Wake a worker: `worker_wake` signals the worker's condition variable. -/
def worker_wake (s : State) (worker : Nat) : State := emit s (Event.wake worker)

/-- The state `worker_init` establishes: counters zero, admission enabled and
every worker marked not in use. The process table is not touched. -/
def worker_init (s : State) : State :=
  { s with
    pending := 0
    busy := 0
    block_all := false
    workers := s.workers.map (fun wp => { wp with w_fp := none, w_next := none, w_task := NONE })
    self := none }

/-- Whether all worker threads are idle. -/
def worker_idle (s : State) : Bool := s.pending == 0 && s.busy == 0

/-- The number of threads that are available, including the spare thread:
`NR_WTHREADS - busy`, computed in `unsigned int` and returned as `int`. -/
def worker_available (s : State) : Int :=
  uint_to_int ((NR_WTHREADS s % 4294967296 + 4294967296 - s.busy) % 4294967296)

/-- The search loop of `worker_assign` over the workers from index `i` on: the
index at which the loop leaves `worker`, that is the first worker with
`w_fp == NULL`, or the last worker visited when none is free. -/
def worker_assign_loop : List worker_thread → Nat → Nat
  | [], i => i - 1
  | worker :: rest, i => if worker.w_fp = none then i else worker_assign_loop rest (i + 1)

/-- The worker `worker_assign` selects. -/
def find_free_worker (s : State) : Nat := worker_assign_loop s.workers 0

/-- Assign the work for the given process to a free thread. With an empty
table the loop body never runs and `worker` is not a valid pointer. -/
def worker_assign (s : State) (rfp : Nat) : Result :=
  if NR_WTHREADS s = 0 then .error (Fatal.assert_failed, s)
  else
    let worker := find_free_worker s
    let s1 := set_fproc s rfp { get_fproc s rfp with fp_worker := some worker }
    let s2 := set_worker s1 worker { get_worker s1 worker with w_fp := some rfp }
    let s3 := { s2 with busy := uint_inc s2.busy }
    .ok (worker_wake s3 worker)

/-- Whether there is a free thread that may do pending work. -/
def worker_may_do_pending (s : State) : Bool :=
  decide (s.pending > 0) && decide (worker_available s > 1) && !s.block_all

/-- The scan of `worker_allow` over the remaining process slots. -/
def worker_allow_loop (s : State) : List Nat → Result
  | [] => .ok s
  | rfp :: rest =>
    if has_flag (get_fproc s rfp).fp_flags FP_PENDING then
      let s1 := set_fproc s rfp
        { get_fproc s rfp with fp_flags := clear_flag (get_fproc s rfp).fp_flags FP_PENDING }
      if s1.pending = 0 then .error (Fatal.assert_failed, s1)
      else
        let s2 := { s1 with pending := uint_dec s1.pending }
        match worker_assign s2 rfp with
        | .error e => .error e
        | .ok s3 =>
          if !worker_may_do_pending s3 then .ok s3
          else worker_allow_loop s3 rest
    else worker_allow_loop s rest

/-- Allow or disallow workers to process new work. -/
def worker_allow (s : State) (allow : Bool) : Result :=
  let s1 := { s with block_all := !allow }
  if !worker_may_do_pending s1 then .ok s1
  else worker_allow_loop s1 (List.range (NR_PROCS s1))

/-- The two ways `worker_get_work` proceeds before it may sleep: it claimed
pending work (and returns TRUE), or it parks in `worker_sleep`. -/
inductive GetWork where
  | claimed (s : State)
  | parked (s : State)
deriving DecidableEq

/-- The scan of `worker_get_work` for the first pending process. -/
def worker_get_work_loop (s : State) (self : Nat) : List Nat → Except (Fatal × State) GetWork
  | [] => .error (Fatal.pending_inconsistency, s)
  | rfp :: rest =>
    if has_flag (get_fproc s rfp).fp_flags FP_PENDING then
      let s1 := set_worker s self { get_worker s self with w_fp := some rfp }
      let s2 := set_fproc s1 rfp { get_fproc s1 rfp with fp_worker := some self }
      let s3 := { s2 with busy := uint_inc s2.busy }
      let s4 := set_fproc s3 rfp
        { get_fproc s3 rfp with fp_flags := clear_flag (get_fproc s3 rfp).fp_flags FP_PENDING }
      if s4.pending = 0 then .error (Fatal.assert_failed, s4)
      else .ok (GetWork.claimed { s4 with pending := uint_dec s4.pending })
    else worker_get_work_loop s self rest

/-- Find new work to do, up to the point where the thread would sleep. The
calling thread is `self`. -/
def worker_get_work (s : State) : Except (Fatal × State) GetWork :=
  match s.self with
  | none => .error (Fatal.assert_failed, s)
  | some self =>
    if (get_worker s self).w_fp ≠ none then .error (Fatal.assert_failed, s)
    else if worker_may_do_pending s then
      worker_get_work_loop s self (List.range (NR_PROCS s))
    else .ok (GetWork.parked s)

/-- The value `worker_get_work` returns after `worker_sleep` has returned in
the thread `self`. -/
def worker_get_work_wakeup (s : State) (self : Nat) : Bool :=
  (get_worker s self).w_fp.isSome

/-- First block of the `worker_main` loop body: perform normal work, if any.
The handler is recorded as an event; `fp_func` is unset after the call. -/
def worker_main_normal (s : State) (self fp : Nat) : State :=
  match (get_fproc s fp).fp_func with
  | some f =>
    let s1 := set_worker s self { get_worker s self with w_m_in := (get_fproc s fp).fp_msg }
    let s2 := { s1 with err_code := OK }
    let s3 := emit s2 (Event.call_func f self)
    set_fproc s3 fp { get_fproc s3 fp with fp_func := none }
  | none => s

/-- Second block of the `worker_main` loop body: perform postponed PM work, if
any. -/
def worker_main_postponed (s : State) (self fp : Nat) : State :=
  if has_flag (get_fproc s fp).fp_flags FP_PM_WORK then
    let s1 := set_worker s self { get_worker s self with w_m_in := (get_fproc s fp).fp_pm_msg }
    let s2 := emit s1 (Event.call_pm_postponed self)
    set_fproc s2 fp
      { get_fproc s2 fp with fp_flags := clear_flag (get_fproc s2 fp).fp_flags FP_PM_WORK }
  else s

/-- End of the `worker_main` loop body: cleanup actions, unlock, and release
of the binding. -/
def worker_main_unbind (s : State) (self fp : Nat) : Result :=
  let s1 := emit s (Event.thread_cleanup self)
  let s2 := emit s1 (Event.unlock_proc fp)
  let s3 := set_fproc s2 fp { get_fproc s2 fp with fp_worker := none }
  let s4 := set_worker s3 self { get_worker s3 self with w_fp := none }
  if s4.busy = 0 then .error (Fatal.assert_failed, s4)
  else .ok { s4 with busy := uint_dec s4.busy }

/-- One iteration of the `worker_main` loop body, run by the thread `self`
after `worker_get_work` returned TRUE. -/
def worker_main_body (s : State) (self : Nat) : Result :=
  match (get_worker s self).w_fp with
  | none => .error (Fatal.assert_failed, s)
  | some fp =>
    let s0 := { s with self := some self, fp := some fp }
    if (get_fproc s0 fp).fp_worker ≠ some self then .error (Fatal.assert_failed, s0)
    else
      let s1 := emit s0 (Event.lock_proc fp)
      let s2 := worker_main_normal s1 self fp
      let s3 := worker_main_postponed s2 self fp
      worker_main_unbind s3 self fp

/-- Return whether normal (non-PM) work can be started for the given
process. -/
def worker_can_start (s : State) (rfp : Nat) : Bool :=
  let is_pending := has_flag (get_fproc s rfp).fp_flags FP_PENDING
  let is_active := (get_fproc s rfp).fp_worker.isSome
  let has_normal_work := (get_fproc s rfp).fp_func.isSome
  if !is_pending && !is_active then true
  else if has_normal_work then false
  else if is_pending then true
  else false

/-- See if we can wake up a thread to do the work scheduled for the given
process. If not, mark the process as having pending work for later. -/
def worker_try_activate (s : State) (rfp : Nat) (use_spare : Bool) : Result :=
  let needed : Int := if use_spare then 1 else 2
  if needed ≤ worker_available s ∧ (!s.block_all || use_spare) = true then
    worker_assign s rfp
  else
    let s1 := set_fproc s rfp
      { get_fproc s rfp with fp_flags := set_flag (get_fproc s rfp).fp_flags FP_PENDING }
    .ok { s1 with pending := uint_inc s1.pending }

/-- The sanity checks of `worker_start`: the panic they end in, if any. -/
def worker_start_checks (s : State) (rfp : Nat) (func : Option Nat) : Option Fatal :=
  let is_pm_work := func.isNone
  let is_pending := has_flag (get_fproc s rfp).fp_flags FP_PENDING
  let is_active := (get_fproc s rfp).fp_worker.isSome
  let has_normal_work := (get_fproc s rfp).fp_func.isSome
  let has_pm_work := has_flag (get_fproc s rfp).fp_flags FP_PM_WORK
  if is_pending || is_active then
    if is_pending && is_active then some Fatal.both_pending_and_active
    else if !is_pm_work && has_normal_work then some Fatal.two_calls
    else if is_pm_work && has_pm_work then some Fatal.two_pm_calls
    else none
  else
    if has_normal_work || has_pm_work then some Fatal.administration_error
    else none

/-- The part of `worker_start` that saves the work to be performed. -/
def worker_start_save (s : State) (rfp : Nat) (func : Option Nat) (m_ptr : message) : State :=
  let is_pm_work := func.isNone
  if !is_pm_work then
    set_fproc s rfp { get_fproc s rfp with fp_msg := m_ptr, fp_func := func }
  else
    set_fproc s rfp
      { get_fproc s rfp with
        fp_pm_msg := m_ptr
        fp_flags := set_flag (get_fproc s rfp).fp_flags FP_PM_WORK }

/-- Schedule work to be done by a worker thread. `func = none` is the NULL
function pointer (postponed PM work). -/
def worker_start (s : State) (rfp : Nat) (func : Option Nat) (m_ptr : message)
    (use_spare : Bool) : Result :=
  let is_pending := has_flag (get_fproc s rfp).fp_flags FP_PENDING
  let is_active := (get_fproc s rfp).fp_worker.isSome
  match worker_start_checks s rfp func with
  | some e => .error (e, s)
  | none =>
    let s1 := worker_start_save s rfp func m_ptr
    if !is_pending && !is_active then worker_try_activate s1 rfp use_spare
    else .ok s1

/-- Force the outstanding reply of a worker to carry `EIO` and wake it. The
first test is `ASSERTW(worker)`: the pointer is one of the table. -/
def worker_stop (s : State) (worker : Nat) : Result :=
  if ¬ worker < NR_WTHREADS s then .error (Fatal.assert_failed, s)
  else if (get_worker s worker).w_task ≠ NONE then
    match (get_worker s worker).w_drv_sendrec with
    | some r =>
      let s1 := { s with replies := s.replies.set r { s.replies.getD r default with m_type := EIO } }
      let s2 := set_worker s1 worker { get_worker s1 worker with w_drv_sendrec := none }
      .ok (worker_wake s2 worker)
    | none =>
      match (get_worker s worker).w_sendrec with
      | some r =>
        let s1 := { s with replies := s.replies.set r { s.replies.getD r default with m_type := EIO } }
        let s2 := set_worker s1 worker { get_worker s1 worker with w_sendrec := none }
        .ok (worker_wake s2 worker)
      | none => .error (Fatal.reply_storage, s)
  else
    let s1 := emit s Event.stacktrace
    .ok (worker_wake s1 worker)

/-! ## Executions -/

/-- The calls and thread steps an execution of the pool is made of. A worker
cycle is either taken whole (`cycle`, one iteration of the `worker_main` loop
body) or in its three parts (`normal`, `postponed`, `unbind`), between which
other steps may come. -/
inductive Action where
  | start (rfp : Nat) (func : Option Nat) (m_ptr : message) (use_spare : Bool)
  | allow (allow : Bool)
  | claim (w : Nat)
  | cycle (w : Nat)
  | normal (w : Nat)
  | postponed (w : Nat)
  | unbind (w : Nat)
deriving DecidableEq

/-- One step of an execution; `none` when the call is fatal or the step is
not enabled: `start` needs a process of the table, `claim` an idle worker
for which `worker_get_work` claims pending work, `cycle` a worker of the
table that completes an iteration of the `worker_main` loop body, and
`normal`, `postponed` and `unbind` a worker of the table that serves a
process. -/
def step (s : State) : Action → Option State
  | .start rfp func m_ptr use_spare =>
    if rfp < NR_PROCS s then
      match worker_start s rfp func m_ptr use_spare with
      | .ok s1 => some s1
      | .error _ => none
    else none
  | .allow allow =>
    match worker_allow s allow with
    | .ok s1 => some s1
    | .error _ => none
  | .claim w =>
    if w < NR_WTHREADS s then
      match worker_get_work { s with self := some w } with
      | .ok (GetWork.claimed s1) => some s1
      | _ => none
    else none
  | .cycle w =>
    if w < NR_WTHREADS s then
      match worker_main_body s w with
      | .ok s1 => some s1
      | .error _ => none
    else none
  | .normal w =>
    if w < NR_WTHREADS s then
      match (get_worker s w).w_fp with
      | some fp => some (worker_main_normal { s with self := some w, fp := some fp } w fp)
      | none => none
    else none
  | .postponed w =>
    if w < NR_WTHREADS s then
      match (get_worker s w).w_fp with
      | some fp => some (worker_main_postponed { s with self := some w, fp := some fp } w fp)
      | none => none
    else none
  | .unbind w =>
    if w < NR_WTHREADS s then
      match (get_worker s w).w_fp with
      | some fp =>
        match worker_main_unbind { s with self := some w, fp := some fp } w fp with
        | .ok s1 => some s1
        | .error _ => none
      | none => none
    else none

/-- Run a sequence of steps. -/
def run (s : State) : List Action → Option State
  | [] => some s
  | a :: rest =>
    match step s a with
    | some s1 => run s1 rest
    | none => none

/-- The process table carries no scheduling state: no process is flagged
pending and none has a worker. -/
def fproc_unscheduled (s : State) : Prop :=
  ∀ p, has_flag (get_fproc s p).fp_flags FP_PENDING = false ∧ (get_fproc s p).fp_worker = none

/-- The number of processes flagged FP_PENDING. -/
def count_pending (s : State) : Nat :=
  s.fproc.countP (fun rfp => has_flag rfp.fp_flags FP_PENDING)

/-- The number of workers with `w_fp != NULL`. -/
def count_busy (s : State) : Nat :=
  s.workers.countP (fun w => w.w_fp.isSome)

/-- The counter invariant. -/
def counters_ok (s : State) : Prop :=
  s.pending = count_pending s ∧ s.busy = count_busy s

/-- The binding is one-to-one in both directions. -/
def binding_ok (s : State) : Prop :=
  ∀ p w, (get_fproc s p).fp_worker = some w ↔ (get_worker s w).w_fp = some p

/-- No process is both pending and bound to a worker. -/
def exclusive_ok (s : State) : Prop :=
  ∀ p, ¬ (has_flag (get_fproc s p).fp_flags FP_PENDING = true ∧ (get_fproc s p).fp_worker ≠ none)

/-- The table sizes fit the `int` loop counters of `worker.c`. -/
def sizes_ok (s : State) : Prop :=
  NR_WTHREADS s < 2147483648 ∧ NR_PROCS s < 2147483648

/-- One round of the scan of `worker_allow` on a pending process: the flag is
cleared and the process uncounted. -/
def unpend (s : State) (rfp : Nat) : State :=
  { set_fproc s rfp
      { get_fproc s rfp with fp_flags := clear_flag (get_fproc s rfp).fp_flags FP_PENDING } with
    pending := uint_dec s.pending }

/-! ## Concrete pools -/

/-- An empty message. -/
def msg0 : message := ⟨0, 0, []⟩

/-- A process slot with no scheduling state and no stored work. -/
def idle_fproc : fproc := ⟨0, none, none, msg0, msg0⟩

/-- A worker as `worker_init` leaves it. -/
def idle_worker : worker_thread := ⟨none, none, NONE, none, none, 0, msg0⟩

/-- The all-idle pool with `n` workers and `m` process slots. -/
def pool (n m : Nat) : State :=
  { workers := List.replicate n idle_worker
    fproc := List.replicate m idle_fproc
    pending := 0
    busy := 0
    block_all := false
    self := none
    fp := none
    err_code := 0
    replies := []
    trace := [] }

/-- The state a run ends in, the starting state when the run is cut short. -/
def run_end (s : State) (acts : List Action) : State := (run s acts).getD s

/-- A short execution of a pool with three workers: two activations, one
submission left pending, a completed cycle and a claim of the pending work. -/
def demo_acts : List Action :=
  [Action.start 0 (some 7) msg0 false, Action.start 1 none msg0 false,
   Action.start 2 (some 9) msg0 false, Action.allow true, Action.cycle 0, Action.claim 0]

/-- A short execution of a pool with two workers: an activation, a submission
left pending, the cycle of worker 0 taken in its three parts, a claim of the
pending work by worker 1 and a submission that uses the spare thread. -/
def demo_parts : List Action :=
  [Action.start 0 (some 7) msg0 false, Action.start 1 none msg0 false,
   Action.normal 0, Action.postponed 0, Action.unbind 0, Action.claim 1,
   Action.start 0 (some 3) msg0 true]

/-- The process has no pending, active or stored work. -/
def no_work (s : State) (rfp : Nat) : Prop :=
  has_flag (get_fproc s rfp).fp_flags FP_PENDING = false ∧ (get_fproc s rfp).fp_worker = none ∧
    (get_fproc s rfp).fp_func = none ∧ has_flag (get_fproc s rfp).fp_flags FP_PM_WORK = false

/-- The step does not permit use of the spare thread: every `worker_start`
in it has `use_spare = FALSE`. -/
def Action.non_spare : Action → Bool
  | .start _ _ _ use_spare => !use_spare
  | _ => true

/-- A submission without spare permission: process, handler (`none` for
postponed PM work) and message. -/
def submit (r : Nat × Option Nat × message) : Action :=
  Action.start r.1 r.2.1 r.2.2 false

/-- The invariant of the pool: table sizes, counters, one-to-one binding and
exclusion of pending and active. -/
def Inv (s : State) : Prop :=
  sizes_ok s ∧ counters_ok s ∧ binding_ok s ∧ exclusive_ok s

/-- The pool after the processes `done` have been activated one after the
other from the all-idle state `si`: worker `j` serves the `j`-th of them,
the other workers are idle, nothing is pending and the other processes are
as in `si`. -/
def activated (si s : State) (done : List Nat) : Prop :=
  Inv s ∧ s.pending = 0 ∧ s.block_all = false ∧ s.busy = done.length ∧
    NR_WTHREADS s = NR_WTHREADS si ∧ NR_PROCS s = NR_PROCS si ∧
    (∀ j, (get_worker s j).w_fp = done[j]?) ∧
    (∀ q, q ∉ done → get_fproc s q = get_fproc si q)

/-- The state an operation ends in: the state returned, or the state at the
panic. -/
def Result.state : Result → State
  | .ok s => s
  | .error (_, s) => s

/-- A pool with one worker, busy on process 0 by a submission that used the
spare thread, with admission disabled afterwards. -/
def gated_full : State :=
  run_end (worker_init (pool 1 2)) [Action.start 0 (some 7) msg0 true, Action.allow false]

/-- A pool with two idle workers and admission disabled. -/
def gated_idle : State := run_end (worker_init (pool 2 3)) [Action.allow false]

/-- Whether the process is flagged FP_PENDING. -/
def is_pending (s : State) (p : Nat) : Bool := has_flag (get_fproc s p).fp_flags FP_PENDING

/-- The processes flagged FP_PENDING, in table order. -/
def pending_procs (s : State) : List Nat := (List.range (NR_PROCS s)).filter (is_pending s)

/-- A pool of three workers with admission disabled and two processes (slots
3 and 1) queued as pending. -/
def gated_queue : State :=
  run_end (worker_init (pool 3 5))
    [Action.allow false, Action.start 3 (some 7) msg0 false, Action.start 1 none msg0 false]

/-- A worker blocked on endpoint 42 with a driver-style reply buffer (slot 1
of the reply buffers) and a peer-server-style one (slot 0). -/
def blocked_worker : worker_thread :=
  { idle_worker with w_fp := some 0, w_task := 42, w_drv_sendrec := some 1, w_sendrec := some 0 }

/-- A pool of two workers serving processes 0 and 1: worker 0 is blocked on
a driver, worker 1 is marked as waiting on endpoint 42 with no reply buffer
recorded. -/
def blocked_pool : State :=
  { pool 2 2 with
    workers := [blocked_worker,
      { idle_worker with w_fp := some 1, w_task := 42 }]
    fproc := [{ idle_fproc with fp_worker := some 0, fp_func := some 7 },
      { idle_fproc with fp_worker := some 1, fp_func := some 7 }]
    busy := 2
    replies := [msg0, ⟨42, 0, [1]⟩, msg0] }

/-- The process slot `rfp` after a normal call has been stored in it. -/
def store_normal (s : State) (rfp f : Nat) (m : message) : State :=
  set_fproc s rfp { get_fproc s rfp with fp_msg := m, fp_func := some f }

/-- The process slot `rfp` after postponed PM work has been stored in it. -/
def store_pm (s : State) (rfp : Nat) (m : message) : State :=
  set_fproc s rfp
    { get_fproc s rfp with
      fp_pm_msg := m
      fp_flags := set_flag (get_fproc s rfp).fp_flags FP_PM_WORK }

/-! ## Further operations -/

/-- The loop of `worker_stop_by_endpt` over the remaining workers. -/
def worker_stop_by_endpt_loop (s : State) (proc_e : Int) : List Nat → Result
  | [] => .ok s
  | i :: rest =>
    if (get_worker s i).w_fp ≠ none ∧ (get_worker s i).w_task = proc_e then
      match worker_stop s i with
      | .error e => .error e
      | .ok s1 => worker_stop_by_endpt_loop s1 proc_e rest
    else worker_stop_by_endpt_loop s proc_e rest

/-- Stop every worker that serves a process and waits on the endpoint. -/
def worker_stop_by_endpt (s : State) (proc_e : Int) : Result :=
  if proc_e = NONE then .ok s
  else worker_stop_by_endpt_loop s proc_e (List.range (NR_WTHREADS s))

/-- Whether the worker serves a process and is recorded as waiting on the
endpoint. -/
def waits_on (s : State) (proc_e : Int) (w : Nat) : Bool :=
  (get_worker s w).w_fp.isSome && decide ((get_worker s w).w_task = proc_e)

/-- The workers that serve a process and wait on the endpoint, in ascending
index order. -/
def waiting_workers (s : State) (proc_e : Int) : List Nat :=
  (List.range (NR_WTHREADS s)).filter (waits_on s proc_e)

/-- Apply `worker_stop` to each worker of a list in turn, ending at the
first panic. -/
def stop_each (s : State) : List Nat → Result
  | [] => .ok s
  | w :: rest =>
    match worker_stop s w with
    | .error e => .error e
    | .ok s1 => stop_each s1 rest

/-- The reply slot `worker_stop` injects the error in: the driver-style
slot if it is set, otherwise the peer-server-style slot. -/
def reply_slot (s : State) (w : Nat) : Option Nat :=
  match (get_worker s w).w_drv_sendrec with
  | some r => some r
  | none => (get_worker s w).w_sendrec

/-- A worker entry after `memset(workers, 0, sizeof(workers))`. -/
def zero_worker : worker_thread := ⟨none, none, 0, none, none, 0, ⟨0, 0, []⟩⟩

/-- The first loop of `worker_cleanup`: every worker must be idle and is
woken with no `w_fp`, which makes its thread exit. -/
def worker_cleanup_loop (s : State) : List Nat → Result
  | [] => .ok s
  | i :: rest =>
    if (get_worker s i).w_fp ≠ none then .error (Fatal.assert_failed, s)
    else worker_cleanup_loop (worker_wake s i) rest

/-- Clean up the worker threads. The thread library calls (yield, join,
destruction of the mutexes, condition variables and attribute) are taken to
succeed; what is left of them is `self = NULL` after `worker_yield` and the
zeroed worker table. -/
def worker_cleanup (s : State) : Result :=
  if !worker_idle s then .error (Fatal.not_idle, s)
  else
    match worker_cleanup_loop s (List.range (NR_WTHREADS s)) with
    | .error e => .error e
    | .ok s1 =>
      let s2 := { s1 with self := none }
      .ok { s2 with workers := s2.workers.map (fun _ => zero_worker) }

/-- Suspend the current thread, saving `err_code`; returns the state and the
pointer to the caller's worker structure. -/
def worker_suspend (s : State) : Except (Fatal × State) (State × Nat) :=
  match s.self with
  | none => .error (Fatal.assert_failed, s)
  | some self =>
    if ¬ self < NR_WTHREADS s then .error (Fatal.assert_failed, s)
    else
      match s.fp with
      | none => .error (Fatal.assert_failed, s)
      | some fp =>
        if (get_worker s self).w_fp ≠ some fp then .error (Fatal.assert_failed, s)
        else if (get_fproc s fp).fp_worker ≠ some self then .error (Fatal.assert_failed, s)
        else
          .ok (set_worker s self { get_worker s self with w_err_code := s.err_code }, self)

/-- Resume the current thread after suspension, restoring `self`, `fp` and
`err_code`. -/
def worker_resume (s : State) (org_self : Nat) : Result :=
  if ¬ org_self < NR_WTHREADS s then .error (Fatal.assert_failed, s)
  else
    let s1 := { s with self := some org_self }
    let s2 := { s1 with fp := (get_worker s1 org_self).w_fp }
    if s2.fp = none then .error (Fatal.assert_failed, s2)
    else .ok { s2 with err_code := (get_worker s2 org_self).w_err_code }

/-- Change the current working thread's process context to another process.
With `fp` or `self` NULL the writes through them are not defined. -/
def worker_set_proc (s : State) (rfp : Nat) : Result :=
  if s.fp = some rfp then .ok s
  else if (get_fproc s rfp).fp_worker ≠ none then .error (Fatal.target_not_idle, s)
  else
    match s.fp, s.self with
    | some fp, some self =>
      let s1 := set_fproc s fp { get_fproc s fp with fp_worker := none }
      let s2 := { s1 with fp := some rfp }
      let s3 := set_worker s2 self { get_worker s2 self with w_fp := some rfp }
      .ok (set_fproc s3 rfp { get_fproc s3 rfp with fp_worker := some self })
    | _, _ => .error (Fatal.assert_failed, s)

/-- A pool of four workers: workers 0 and 2 serve processes and wait on
endpoint 42 (with a driver-style reply in buffer 1 and a peer-server-style
reply in buffer 2), worker 1 is idle, worker 3 serves a process and waits on
endpoint 43 with its reply in buffer 0. -/
def waiting_pool : State :=
  { pool 4 3 with
    workers := [blocked_worker, idle_worker,
      { idle_worker with w_fp := some 1, w_task := 42, w_sendrec := some 2 },
      { idle_worker with w_fp := some 2, w_task := 43, w_sendrec := some 0 }]
    fproc := [{ idle_fproc with fp_worker := some 0, fp_func := some 7 },
      { idle_fproc with fp_worker := some 2, fp_func := some 7 },
      { idle_fproc with fp_worker := some 3, fp_func := some 7 }]
    busy := 3
    replies := [msg0, ⟨42, 0, [1]⟩, ⟨42, 0, [2]⟩] }

/-- A pool of two workers in which worker 0 serves process 0 and runs with
the ambient context `self = 0`, `fp = 0`, `err_code = -11`. -/
def running_ctx : State :=
  { run_end (worker_init (pool 2 3)) [Action.start 0 (some 7) msg0 false, Action.normal 0] with
    err_code := -11 }

/-- A pool of three workers in which workers 0 and 1 serve processes 0 and 1
and worker 0 runs (`self = 0`, `fp = 0`). -/
def running_two : State :=
  run_end (worker_init (pool 3 4))
    [Action.start 0 (some 7) msg0 false, Action.start 1 (some 8) msg0 false, Action.normal 0]

/-- The state in which `worker_get_work` returns TRUE after the thread `self`
has claimed the pending process `rfp`. -/
def claimed_state (s : State) (self rfp : Nat) : State :=
  let s1 := set_worker s self { get_worker s self with w_fp := some rfp }
  let s2 := set_fproc s1 rfp { get_fproc s1 rfp with fp_worker := some self }
  let s3 := { s2 with busy := uint_inc s2.busy }
  let s4 := set_fproc s3 rfp
    { get_fproc s3 rfp with fp_flags := clear_flag (get_fproc s3 rfp).fp_flags FP_PENDING }
  { s4 with pending := uint_dec s4.pending }

/-- The state after the worker `self` has entered the loop body for the
process `fp` and locked it. -/
def after_lock (s : State) (self fp : Nat) : State :=
  emit { s with self := some self, fp := some fp } (Event.lock_proc fp)

/-- Whether the worker has no process bound. -/
def is_free (s : State) (w : Nat) : Bool := (get_worker s w).w_fp.isNone

/-- The workers with `w_fp == NULL`, in index order. -/
def free_workers (s : State) : List Nat := (List.range (NR_WTHREADS s)).filter (is_free s)

/-- A pool of four workers, two of them busy (workers 0 and 2), with three
processes queued as pending (slots 5, 1 and 4) and admission disabled. -/
def crowded_queue : State :=
  run_end (worker_init (pool 4 6))
    [Action.start 0 (some 7) msg0 false, Action.start 2 (some 7) msg0 false,
     Action.start 3 (some 7) msg0 false, Action.cycle 1, Action.allow false,
     Action.start 5 (some 7) msg0 false, Action.start 1 none msg0 false,
     Action.start 4 (some 7) msg0 false]

/-- The number of pending processes the pool can admit: `min(p, max(a - 1, 0))`
for `p = pending` and `a = NR_WTHREADS - busy`. -/
def drain_count (s : State) : Nat := min s.pending (NR_WTHREADS s - s.busy - 1)

/-! ## Executions in program order -/

/-- A pool state together with the place of every worker in its cycle: 0
before the normal-work block of the loop body (and while idle), 1 after the
normal-work block, 2 after the postponed-work block. -/
structure Sched where
  st : State
  pc : Nat → Nat

/-- Move one worker to another place of its cycle. -/
def Sched.goto (c : Sched) (s : State) (w v : Nat) : Sched :=
  ⟨s, fun j => if j = w then v else c.pc j⟩

/-- Whether a `worker_start` arrives in time to be served: for a process
that has a worker, a normal call arrives before that worker has completed
the normal-work block of its cycle, and postponed work before it has
completed the postponed-work block. -/
def timely (c : Sched) (rfp : Nat) (func : Option Nat) : Bool :=
  match (get_fproc c.st rfp).fp_worker with
  | none => true
  | some w => if func.isSome then decide (c.pc w = 0) else decide (c.pc w ≤ 1)

/-- One step of an execution in program order: as `step`, but the three
parts of a worker cycle come in order (`cycle` is the three of them at once).
With `only_timely`, a `worker_start` that is not timely is not taken. -/
def cstep (only_timely : Bool) (c : Sched) : Action → Option Sched
  | .start rfp func m_ptr use_spare =>
    if only_timely = true ∧ timely c rfp func = false then none
    else (step c.st (.start rfp func m_ptr use_spare)).map (fun s1 => ⟨s1, c.pc⟩)
  | .allow allow => (step c.st (.allow allow)).map (fun s1 => ⟨s1, c.pc⟩)
  | .claim w => (step c.st (.claim w)).map (fun s1 => ⟨s1, c.pc⟩)
  | .cycle w =>
    if c.pc w = 0 then (step c.st (.cycle w)).map (fun s1 => ⟨s1, c.pc⟩) else none
  | .normal w =>
    if c.pc w = 0 then (step c.st (.normal w)).map (fun s1 => c.goto s1 w 1) else none
  | .postponed w =>
    if c.pc w = 1 then (step c.st (.postponed w)).map (fun s1 => c.goto s1 w 2) else none
  | .unbind w =>
    if c.pc w = 2 then (step c.st (.unbind w)).map (fun s1 => c.goto s1 w 0) else none

/-- Run a sequence of steps in program order. -/
def crun (only_timely : Bool) (c : Sched) : List Action → Option Sched
  | [] => some c
  | a :: rest =>
    match cstep only_timely c a with
    | some c1 => crun only_timely c1 rest
    | none => none

/-- The initial configuration: the state `worker_init` establishes, every
worker before its first cycle. -/
def Sched.init (s0 : State) : Sched := ⟨worker_init s0, fun _ => 0⟩

/-- The state a run in program order ends in, the starting state when the run
is cut short. -/
def crun_end (only_timely : Bool) (c : Sched) (acts : List Action) : State :=
  match crun only_timely c acts with
  | some c1 => c1.st
  | none => c.st

/-- A normal call arrives for process 0 after its worker has completed the
normal-work block, while it serves postponed work. -/
def late_normal : List Action :=
  [Action.start 0 none msg0 false, Action.normal 0, Action.start 0 (some 7) msg0 false,
   Action.postponed 0, Action.unbind 0]

/-- Postponed work arrives for process 0 after its worker has completed the
postponed-work block, before it releases the process. -/
def late_pm : List Action :=
  [Action.start 0 (some 7) msg0 false, Action.normal 0, Action.postponed 0,
   Action.start 0 none msg0 false, Action.unbind 0]

/-- Work of both kinds arrives in time for process 0, which is served and
released. -/
def timely_both : List Action :=
  [Action.start 0 none msg0 false, Action.start 0 (some 7) msg0 false, Action.normal 0,
   Action.start 1 (some 3) msg0 false, Action.postponed 0, Action.unbind 0,
   Action.start 0 (some 8) msg0 true]

/-- Whether the process has postponed PM work stored. -/
def has_pm_work (s : State) (p : Nat) : Bool := has_flag (get_fproc s p).fp_flags FP_PM_WORK

/-- The invariant of the executions in program order in which every
`worker_start` is timely: the pool invariant; an idle worker is before its
next cycle; the process of a worker that has completed the normal-work block
has no normal call stored, and the process of a worker that has completed
the postponed-work block has no postponed work stored; a process that is
neither pending nor active has no stored work. -/
def Served (c : Sched) : Prop :=
  Inv c.st ∧
  (∀ w, (get_worker c.st w).w_fp = none → c.pc w = 0) ∧
  (∀ w p, (get_worker c.st w).w_fp = some p → 1 ≤ c.pc w →
    (get_fproc c.st p).fp_func = none) ∧
  (∀ w p, (get_worker c.st w).w_fp = some p → 2 ≤ c.pc w → has_pm_work c.st p = false) ∧
  (∀ p, is_pending c.st p = false → (get_fproc c.st p).fp_worker = none →
    (get_fproc c.st p).fp_func = none ∧ has_pm_work c.st p = false)

/-- The change of state of an operation that only moves processes from
pending to active: a worker keeps its process or was idle, the stored work of
every process is unchanged, and a process that is neither pending nor active
afterwards was so before. -/
def binds (s s1 : State) : Prop :=
  (∀ j, (get_worker s1 j).w_fp = (get_worker s j).w_fp ∨ (get_worker s j).w_fp = none) ∧
  (∀ q, (get_fproc s1 q).fp_func = (get_fproc s q).fp_func ∧
    has_pm_work s1 q = has_pm_work s q) ∧
  (∀ q, is_pending s1 q = false → (get_fproc s1 q).fp_worker = none →
    is_pending s q = false ∧ (get_fproc s q).fp_worker = none)

/-! ## Flag bits -/

theorem has_flag_set_self (f m : Nat) (hm : m ≠ 0) : has_flag (set_flag f m) m = true := by
  have h : (f ||| m) &&& m = m := by
    apply Nat.eq_of_testBit_eq
    intro i
    simp only [Nat.testBit_and, Nat.testBit_or]
    cases f.testBit i <;> cases m.testBit i <;> rfl
  simp [has_flag, set_flag, h, hm]

theorem has_flag_clear_self (f m : Nat) : has_flag (clear_flag f m) m = false := by
  have h : (f ^^^ (f &&& m)) &&& m = 0 := by
    apply Nat.eq_of_testBit_eq
    intro i
    simp only [Nat.testBit_and, Nat.testBit_xor, Nat.zero_testBit]
    cases f.testBit i <;> cases m.testBit i <;> rfl
  simp [has_flag, clear_flag, h]

theorem has_flag_set_other (f m n : Nat) (hmn : m &&& n = 0) :
    has_flag (set_flag f m) n = has_flag f n := by
  have h : (f ||| m) &&& n = f &&& n := by
    apply Nat.eq_of_testBit_eq
    intro i
    have hi : (m &&& n).testBit i = false := by rw [hmn]; exact Nat.zero_testBit i
    simp only [Nat.testBit_and] at hi
    simp only [Nat.testBit_and, Nat.testBit_or]
    revert hi
    cases f.testBit i <;> cases m.testBit i <;> cases n.testBit i <;> simp
  simp [has_flag, set_flag, h]

theorem has_flag_clear_other (f m n : Nat) (hmn : m &&& n = 0) :
    has_flag (clear_flag f m) n = has_flag f n := by
  have h : (f ^^^ (f &&& m)) &&& n = f &&& n := by
    apply Nat.eq_of_testBit_eq
    intro i
    have hi : (m &&& n).testBit i = false := by rw [hmn]; exact Nat.zero_testBit i
    simp only [Nat.testBit_and] at hi
    simp only [Nat.testBit_and, Nat.testBit_xor]
    revert hi
    cases f.testBit i <;> cases m.testBit i <;> cases n.testBit i <;> simp
  simp [has_flag, clear_flag, h]

theorem pending_and_pm_work : FP_PENDING &&& FP_PM_WORK = 0 := by decide

theorem pm_work_and_pending : FP_PM_WORK &&& FP_PENDING = 0 := by decide

theorem pending_ne_zero : FP_PENDING ≠ 0 := by decide

theorem pm_work_ne_zero : FP_PM_WORK ≠ 0 := by decide

/-! ## Table updates -/

theorem countP_set {α : Type} (q : α → Bool) (l : List α) (i : Nat) (a d : α)
    (h : i < l.length) :
    (l.set i a).countP q + (if q (l.getD i d) then 1 else 0)
      = l.countP q + (if q a then 1 else 0) := by
  induction l generalizing i with
  | nil => simp at h
  | cons x xs ih =>
    cases i with
    | zero =>
      simp only [List.set_cons_zero, List.countP_cons, List.getD_cons_zero]
      omega
    | succ j =>
      have hj : j < xs.length := by simpa using h
      have := ih j hj
      simp only [List.set_cons_succ, List.countP_cons, List.getD_cons_succ]
      omega

theorem getD_set {α : Type} (l : List α) (i j : Nat) (a d : α) :
    (l.set i a).getD j d = if i = j ∧ i < l.length then a else l.getD j d := by
  simp only [List.getD_eq_getElem?_getD, List.getElem?_set]
  by_cases hij : i = j
  · subst hij
    by_cases hl : i < l.length
    · simp [hl]
    · have hn : l[i]? = none := List.getElem?_eq_none (by omega)
      simp [hl, hn]
  · simp [hij]

theorem countP_set_same {α : Type} (q : α → Bool) (l : List α) (i : Nat) (a d : α)
    (h : q a = q (l.getD i d)) : (l.set i a).countP q = l.countP q := by
  by_cases hi : i < l.length
  · have := countP_set q l i a d hi
    rw [h] at this
    omega
  · rw [List.set_eq_of_length_le (by omega)]

theorem get_fproc_of_set (s s1 : State) (p q : Nat) (v : fproc)
    (hF : s1.fproc = s.fproc.set p v) :
    get_fproc s1 q = if p = q ∧ p < NR_PROCS s then v else get_fproc s q := by
  simp only [get_fproc, hF, getD_set, NR_PROCS]

theorem get_worker_of_set (s s1 : State) (w u : Nat) (v : worker_thread)
    (hW : s1.workers = s.workers.set w v) :
    get_worker s1 u = if w = u ∧ w < NR_WTHREADS s then v else get_worker s u := by
  simp only [get_worker, hW, getD_set, NR_WTHREADS]

theorem count_busy_le (s : State) : count_busy s ≤ NR_WTHREADS s :=
  List.countP_le_length _

theorem count_pending_le (s : State) : count_pending s ≤ NR_PROCS s :=
  List.countP_le_length _

/-- Changing fields of one process and one worker other than the binding
and the pending bit keeps the invariant. -/
theorem inv_frame (s s1 : State) (p w : Nat) (v : fproc) (u : worker_thread)
    (hI : Inv s)
    (hF : s1.fproc = s.fproc.set p v) (hW : s1.workers = s.workers.set w u)
    (hv : v.fp_worker = (get_fproc s p).fp_worker)
    (hvf : has_flag v.fp_flags FP_PENDING = has_flag (get_fproc s p).fp_flags FP_PENDING)
    (hu : u.w_fp = (get_worker s w).w_fp)
    (hp : s1.pending = s.pending) (hb : s1.busy = s.busy) : Inv s1 := by
  obtain ⟨⟨hs1, hs2⟩, ⟨hc1, hc2⟩, hbind, hex⟩ := hI
  refine ⟨⟨?_, ?_⟩, ⟨?_, ?_⟩, ?_, ?_⟩
  · simpa [NR_WTHREADS, hW] using hs1
  · simpa [NR_PROCS, hF] using hs2
  · rw [hp, hc1]
    simp only [count_pending, hF]
    exact (countP_set_same (fun rfp => has_flag rfp.fp_flags FP_PENDING) s.fproc p v default
      hvf).symm
  · rw [hb, hc2]
    simp only [count_busy, hW]
    exact (countP_set_same (fun x => x.w_fp.isSome) s.workers w u default
      (by simp only [hu]; rfl)).symm
  · intro q x
    rw [get_fproc_of_set s s1 p q v hF, get_worker_of_set s s1 w x u hW]
    have := hbind q x
    by_cases h1 : p = q ∧ p < NR_PROCS s
    · by_cases h2 : w = x ∧ w < NR_WTHREADS s
      · rw [if_pos h1, if_pos h2, hv, hu, h1.1, h2.1]; exact this
      · rw [if_pos h1, if_neg h2, hv, h1.1]; exact this
    · by_cases h2 : w = x ∧ w < NR_WTHREADS s
      · rw [if_neg h1, if_pos h2, hu, h2.1]; exact this
      · rw [if_neg h1, if_neg h2]; exact this
  · intro q
    rw [get_fproc_of_set s s1 p q v hF]
    by_cases h1 : p = q ∧ p < NR_PROCS s
    · rw [if_pos h1, hv, hvf, h1.1]; exact hex q
    · rw [if_neg h1]; exact hex q

theorem get_fproc_of_ge (s : State) (p : Nat) (h : NR_PROCS s ≤ p) : get_fproc s p = default := by
  simp only [get_fproc, List.getD_eq_getElem?_getD]
  rw [List.getElem?_eq_none (by simpa [NR_PROCS] using h)]
  rfl

theorem get_worker_of_ge (s : State) (w : Nat) (h : NR_WTHREADS s ≤ w) :
    get_worker s w = default := by
  simp only [get_worker, List.getD_eq_getElem?_getD]
  rw [List.getElem?_eq_none (by simpa [NR_WTHREADS] using h)]
  rfl

theorem lt_of_pending (s : State) (p : Nat)
    (h : has_flag (get_fproc s p).fp_flags FP_PENDING = true) : p < NR_PROCS s := by
  by_contra hn
  rw [get_fproc_of_ge s p (by omega)] at h
  exact absurd h (by decide)

theorem lt_of_fp_worker (s : State) (p w : Nat)
    (h : (get_fproc s p).fp_worker = some w) : p < NR_PROCS s := by
  by_contra hn
  rw [get_fproc_of_ge s p (by omega)] at h
  exact absurd h (by simp [default])

theorem lt_of_w_fp (s : State) (p w : Nat)
    (h : (get_worker s w).w_fp = some p) : w < NR_WTHREADS s := by
  by_contra hn
  rw [get_worker_of_ge s w (by omega)] at h
  exact absurd h (by simp [default])

/-- Flagging an idle process pending and counting it keeps the invariant. -/
theorem inv_pend (s s1 : State) (p : Nat) (v : fproc) (hI : Inv s) (hlt : p < NR_PROCS s)
    (hF : s1.fproc = s.fproc.set p v) (hW : s1.workers = s.workers)
    (hold : has_flag (get_fproc s p).fp_flags FP_PENDING = false)
    (holdw : (get_fproc s p).fp_worker = none)
    (hv : v.fp_worker = none) (hvf : has_flag v.fp_flags FP_PENDING = true)
    (hp : s1.pending = uint_inc s.pending) (hb : s1.busy = s.busy) : Inv s1 := by
  obtain ⟨⟨hs1, hs2⟩, ⟨hc1, hc2⟩, hbind, hex⟩ := hI
  refine ⟨⟨?_, ?_⟩, ⟨?_, ?_⟩, ?_, ?_⟩
  · simpa [NR_WTHREADS, hW] using hs1
  · simpa [NR_PROCS, hF] using hs2
  · have h := countP_set (fun rfp => has_flag rfp.fp_flags FP_PENDING) s.fproc p v default hlt
    have hle := count_pending_le s
    simp only [get_fproc] at hold
    simp only [hold, hvf] at h
    simp only [NR_PROCS] at hs2 hle
    simp only [count_pending] at hc1 hle ⊢
    rw [hp, hF, uint_inc, hc1]
    simp at h
    omega
  · rw [hb, hc2]; simp only [count_busy, hW]
  · intro q x
    rw [get_fproc_of_set s s1 p q v hF]
    have hgw : get_worker s1 x = get_worker s x := by simp only [get_worker, hW]
    rw [hgw]
    have := hbind q x
    by_cases h1 : p = q ∧ p < NR_PROCS s
    · rw [if_pos h1, hv]
      obtain ⟨h1, -⟩ := h1
      subst h1
      rw [holdw] at this
      exact this
    · rw [if_neg h1]; exact this
  · intro q
    rw [get_fproc_of_set s s1 p q v hF]
    by_cases h1 : p = q ∧ p < NR_PROCS s
    · rw [if_pos h1, hv]; simp
    · rw [if_neg h1]; exact hex q

/-- Clearing the pending bit of a pending process and uncounting it keeps the
invariant. -/
theorem inv_unpend (s s1 : State) (p : Nat) (v : fproc) (hI : Inv s)
    (hF : s1.fproc = s.fproc.set p v) (hW : s1.workers = s.workers)
    (hold : has_flag (get_fproc s p).fp_flags FP_PENDING = true)
    (hv : v.fp_worker = (get_fproc s p).fp_worker)
    (hvf : has_flag v.fp_flags FP_PENDING = false)
    (hp : s1.pending = uint_dec s.pending) (hb : s1.busy = s.busy) : Inv s1 := by
  have hlt := lt_of_pending s p hold
  obtain ⟨⟨hs1, hs2⟩, ⟨hc1, hc2⟩, hbind, hex⟩ := hI
  refine ⟨⟨?_, ?_⟩, ⟨?_, ?_⟩, ?_, ?_⟩
  · simpa [NR_WTHREADS, hW] using hs1
  · simpa [NR_PROCS, hF] using hs2
  · have h := countP_set (fun rfp => has_flag rfp.fp_flags FP_PENDING) s.fproc p v default hlt
    have hle := count_pending_le s
    simp only [get_fproc] at hold
    simp only [hold, hvf] at h
    simp only [NR_PROCS] at hs2 hle
    simp only [count_pending] at hc1 hle ⊢
    rw [hp, hF, uint_dec, hc1]
    simp at h
    omega
  · rw [hb, hc2]; simp only [count_busy, hW]
  · intro q x
    rw [get_fproc_of_set s s1 p q v hF]
    have hgw : get_worker s1 x = get_worker s x := by simp only [get_worker, hW]
    rw [hgw]
    have := hbind q x
    by_cases h1 : p = q ∧ p < NR_PROCS s
    · rw [if_pos h1, hv, h1.1]; exact this
    · rw [if_neg h1]; exact this
  · intro q
    rw [get_fproc_of_set s s1 p q v hF]
    by_cases h1 : p = q ∧ p < NR_PROCS s
    · rw [if_pos h1, hvf]; simp
    · rw [if_neg h1]; exact hex q

/-- Binding a free worker to an idle process and counting it keeps the
invariant. -/
theorem inv_bind (s s1 : State) (p w : Nat) (v : fproc) (u : worker_thread) (hI : Inv s)
    (hlt : p < NR_PROCS s) (hwlt : w < NR_WTHREADS s)
    (hF : s1.fproc = s.fproc.set p v) (hW : s1.workers = s.workers.set w u)
    (hold : has_flag (get_fproc s p).fp_flags FP_PENDING = false)
    (holdw : (get_fproc s p).fp_worker = none)
    (hfree : (get_worker s w).w_fp = none)
    (hv : v.fp_worker = some w) (hvf : has_flag v.fp_flags FP_PENDING = false)
    (hu : u.w_fp = some p)
    (hp : s1.pending = s.pending) (hb : s1.busy = uint_inc s.busy) : Inv s1 := by
  obtain ⟨⟨hs1, hs2⟩, ⟨hc1, hc2⟩, hbind, hex⟩ := hI
  refine ⟨⟨?_, ?_⟩, ⟨?_, ?_⟩, ?_, ?_⟩
  · simpa [NR_WTHREADS, hW] using hs1
  · simpa [NR_PROCS, hF] using hs2
  · rw [hp, hc1]
    simp only [count_pending, hF]
    exact (countP_set_same (fun rfp => has_flag rfp.fp_flags FP_PENDING) s.fproc p v default
      (by simp only [hvf]; exact hold.symm)).symm
  · have h := countP_set (fun x => x.w_fp.isSome) s.workers w u default hwlt
    have hle := count_busy_le s
    simp only [get_worker] at hfree
    simp only [hfree, hu] at h
    simp only [NR_WTHREADS] at hs1 hle
    simp only [count_busy] at hc2 hle ⊢
    rw [hb, hW, uint_inc, hc2]
    simp at h
    omega
  · intro q x
    rw [get_fproc_of_set s s1 p q v hF, get_worker_of_set s s1 w x u hW]
    have := hbind q x
    by_cases h1 : p = q
    · by_cases h2 : w = x
      · subst h1; subst h2
        simp [hlt, hwlt, hv, hu]
      · subst h1
        rw [holdw] at this
        simp only [hlt, and_true, if_true, h2, false_and, if_false, hv, ← this]
        simp [h2]
    · by_cases h2 : w = x
      · subst h2
        rw [hfree] at this
        simp only [h1, false_and, if_false, hwlt, and_true, if_true, hu, this]
        simp [h1]
      · simp only [h1, h2, false_and, if_false]; exact this
  · intro q
    rw [get_fproc_of_set s s1 p q v hF]
    by_cases h1 : p = q ∧ p < NR_PROCS s
    · rw [if_pos h1, hvf]; simp
    · rw [if_neg h1]; exact hex q

/-- Releasing the binding of a worker and its process and uncounting it keeps
the invariant. -/
theorem inv_unbind (s s1 : State) (p w : Nat) (v : fproc) (u : worker_thread) (hI : Inv s)
    (hF : s1.fproc = s.fproc.set p v) (hW : s1.workers = s.workers.set w u)
    (hbound : (get_worker s w).w_fp = some p)
    (hv : v.fp_worker = none)
    (hvf : has_flag v.fp_flags FP_PENDING = has_flag (get_fproc s p).fp_flags FP_PENDING)
    (hu : u.w_fp = none)
    (hp : s1.pending = s.pending) (hb : s1.busy = uint_dec s.busy) : Inv s1 := by
  have hwlt := lt_of_w_fp s p w hbound
  obtain ⟨⟨hs1, hs2⟩, ⟨hc1, hc2⟩, hbind, hex⟩ := hI
  have hpw : (get_fproc s p).fp_worker = some w := (hbind p w).2 hbound
  have hlt := lt_of_fp_worker s p w hpw
  refine ⟨⟨?_, ?_⟩, ⟨?_, ?_⟩, ?_, ?_⟩
  · simpa [NR_WTHREADS, hW] using hs1
  · simpa [NR_PROCS, hF] using hs2
  · rw [hp, hc1]
    simp only [count_pending, hF]
    exact (countP_set_same (fun rfp => has_flag rfp.fp_flags FP_PENDING) s.fproc p v default
      hvf).symm
  · have h := countP_set (fun x => x.w_fp.isSome) s.workers w u default hwlt
    have hle := count_busy_le s
    simp only [get_worker] at hbound
    simp only [hbound, hu] at h
    simp only [NR_WTHREADS] at hs1 hle
    simp only [count_busy] at hc2 hle ⊢
    rw [hb, hW, uint_dec, hc2]
    simp at h
    omega
  · intro q x
    rw [get_fproc_of_set s s1 p q v hF, get_worker_of_set s s1 w x u hW]
    have := hbind q x
    by_cases h1 : p = q
    · by_cases h2 : w = x
      · subst h1; subst h2
        simp [hlt, hwlt, hv, hu]
      · subst h1
        rw [hpw] at this
        simp only [hlt, and_true, if_true, h2, false_and, if_false, hv, ← this]
        simp [h2]
    · by_cases h2 : w = x
      · subst h2
        rw [hbound] at this
        simp only [h1, false_and, if_false, hwlt, and_true, if_true, hu, this]
        simp [h1]
      · simp only [h1, h2, false_and, if_false]; exact this
  · intro q
    rw [get_fproc_of_set s s1 p q v hF]
    by_cases h1 : p = q ∧ p < NR_PROCS s
    · rw [if_pos h1, hv]; simp
    · rw [if_neg h1]; exact hex q

theorem set_getD_self {α : Type} (l : List α) (i : Nat) (d : α) : l.set i (l.getD i d) = l := by
  induction l generalizing i with
  | nil => rfl
  | cons x xs ih =>
    cases i with
    | zero => rfl
    | succ j => simp only [List.set_cons_succ, List.getD_cons_succ, ih]

/-- The invariant does not depend on fields other than the tables and the
counters. -/
theorem inv_congr (s s1 : State) (hI : Inv s) (hF : s1.fproc = s.fproc)
    (hW : s1.workers = s.workers) (hp : s1.pending = s.pending) (hb : s1.busy = s.busy) :
    Inv s1 :=
  inv_frame s s1 0 0 (get_fproc s 0) (get_worker s 0) hI
    (by rw [hF, get_fproc, set_getD_self]) (by rw [hW, get_worker, set_getD_self])
    rfl rfl rfl hp hb

/-! ## The search of `worker_assign` -/

theorem worker_assign_loop_spec (ws : List worker_thread) (i : Nat)
    (h : ws.countP (fun w => w.w_fp.isSome) < ws.length) :
    i ≤ worker_assign_loop ws i ∧ worker_assign_loop ws i < i + ws.length ∧
      (ws.getD (worker_assign_loop ws i - i) default).w_fp = none ∧
      ∀ j, j < worker_assign_loop ws i - i → (ws.getD j default).w_fp ≠ none := by
  induction ws generalizing i with
  | nil => simp at h
  | cons x xs ih =>
    by_cases hx : x.w_fp = none
    · simp [worker_assign_loop, hx]
    · have hx2 : x.w_fp.isSome = true := by
        cases hxx : x.w_fp with
        | none => exact absurd hxx hx
        | some v => rfl
      have hlt : xs.countP (fun w => w.w_fp.isSome) < xs.length := by
        simp only [List.countP_cons, hx2, if_true, List.length_cons] at h
        omega
      obtain ⟨h1, h2, h3, h4⟩ := ih (i + 1) hlt
      simp only [worker_assign_loop, hx, if_false, List.length_cons]
      have he : worker_assign_loop xs (i + 1) - i = (worker_assign_loop xs (i + 1) - (i + 1)) + 1 := by
        omega
      refine ⟨by omega, by omega, ?_, ?_⟩
      · rw [he, List.getD_cons_succ]; exact h3
      · intro j hj
        cases j with
        | zero => simpa using hx
        | succ k =>
          rw [List.getD_cons_succ]
          exact h4 k (by omega)

theorem find_free_worker_spec (s : State) (h : count_busy s < NR_WTHREADS s) :
    find_free_worker s < NR_WTHREADS s ∧ (get_worker s (find_free_worker s)).w_fp = none ∧
      ∀ j, j < find_free_worker s → (get_worker s j).w_fp ≠ none := by
  have := worker_assign_loop_spec s.workers 0 h
  simpa [find_free_worker, NR_WTHREADS, get_worker] using this

theorem worker_available_eq (s : State) (hs : NR_WTHREADS s < 2147483648)
    (hb : s.busy ≤ NR_WTHREADS s) : worker_available s = (NR_WTHREADS s : Int) - (s.busy : Int) := by
  unfold worker_available uint_to_int
  split <;> omega

/-- The fields of the state after a successful `worker_assign`. -/
theorem worker_assign_fields (s s1 : State) (rfp : Nat) (h : worker_assign s rfp = .ok s1) :
    s1.fproc = s.fproc.set rfp { get_fproc s rfp with fp_worker := some (find_free_worker s) } ∧
    s1.workers = s.workers.set (find_free_worker s)
      { get_worker s (find_free_worker s) with w_fp := some rfp } ∧
    s1.busy = uint_inc s.busy ∧ s1.pending = s.pending ∧ s1.block_all = s.block_all ∧
    s1.trace = s.trace ++ [Event.wake (find_free_worker s)] ∧ s1.replies = s.replies ∧
    s1.self = s.self ∧ s1.fp = s.fp ∧ s1.err_code = s.err_code := by
  unfold worker_assign at h
  split at h
  · cases h
  · injection h with h
    subst h
    simp [worker_wake, emit, set_worker, set_fproc, get_worker, find_free_worker]

theorem worker_assign_isOk (s : State) (rfp : Nat) (h : 0 < NR_WTHREADS s) :
    ∃ s1, worker_assign s rfp = .ok s1 := by
  unfold worker_assign
  rw [if_neg (by omega)]
  exact ⟨_, rfl⟩

/-- Under the invariant `worker_assign` on an idle process keeps the
invariant when some worker is free. -/
theorem inv_worker_assign (s s1 : State) (rfp : Nat) (hI : Inv s) (hlt : rfp < NR_PROCS s)
    (hold : has_flag (get_fproc s rfp).fp_flags FP_PENDING = false)
    (holdw : (get_fproc s rfp).fp_worker = none)
    (hfree : s.busy < NR_WTHREADS s)
    (h : worker_assign s rfp = .ok s1) : Inv s1 := by
  obtain ⟨hF, hW, hb, hp, -⟩ := worker_assign_fields s s1 rfp h
  have hc := hI.2.1.2
  obtain ⟨f1, f2, -⟩ := find_free_worker_spec s (by rw [← hc]; exact hfree)
  exact inv_bind s s1 rfp (find_free_worker s) _ _ hI hlt f1 hF hW hold holdw f2 rfl hold rfl hp hb

/-! ## Preservation of the invariant by the operations -/

/-- The fields of the state after the work has been saved. -/
theorem worker_start_save_fields (s : State) (rfp : Nat) (func : Option Nat) (m : message) :
    ∃ v : fproc, (worker_start_save s rfp func m).fproc = s.fproc.set rfp v ∧
      v.fp_worker = (get_fproc s rfp).fp_worker ∧
      has_flag v.fp_flags FP_PENDING = has_flag (get_fproc s rfp).fp_flags FP_PENDING ∧
      (worker_start_save s rfp func m).workers = s.workers ∧
      (worker_start_save s rfp func m).pending = s.pending ∧
      (worker_start_save s rfp func m).busy = s.busy ∧
      (worker_start_save s rfp func m).block_all = s.block_all ∧
      (worker_start_save s rfp func m).trace = s.trace := by
  unfold worker_start_save
  cases func with
  | none =>
    refine ⟨_, rfl, rfl, ?_, rfl, rfl, rfl, rfl, rfl⟩
    exact has_flag_set_other _ _ _ pm_work_and_pending
  | some f => exact ⟨_, rfl, rfl, rfl, rfl, rfl, rfl, rfl, rfl⟩

theorem NR_PROCS_save (s : State) (rfp : Nat) (func : Option Nat) (m : message) :
    NR_PROCS (worker_start_save s rfp func m) = NR_PROCS s := by
  obtain ⟨v, hF, -⟩ := worker_start_save_fields s rfp func m
  simp [NR_PROCS, hF]

theorem get_fproc_save (s : State) (rfp : Nat) (func : Option Nat) (m : message) :
    (get_fproc (worker_start_save s rfp func m) rfp).fp_worker = (get_fproc s rfp).fp_worker ∧
    has_flag (get_fproc (worker_start_save s rfp func m) rfp).fp_flags FP_PENDING
      = has_flag (get_fproc s rfp).fp_flags FP_PENDING := by
  obtain ⟨v, hF, h1, h2, -⟩ := worker_start_save_fields s rfp func m
  rw [get_fproc_of_set s _ rfp rfp v hF]
  by_cases h : rfp < NR_PROCS s
  · simp [h, h1, h2]
  · simp [h]

theorem inv_save (s : State) (rfp : Nat) (func : Option Nat) (m : message) (hI : Inv s) :
    Inv (worker_start_save s rfp func m) := by
  obtain ⟨v, hF, h1, h2, hW, hp, hb, -⟩ := worker_start_save_fields s rfp func m
  exact inv_frame s _ rfp 0 v (get_worker s 0) hI hF
    (by rw [hW, get_worker, set_getD_self]) h1 h2 rfl hp hb

theorem inv_busy_le (s : State) (hI : Inv s) : s.busy ≤ NR_WTHREADS s := by
  rw [hI.2.1.2]; exact count_busy_le s

/-- `worker_try_activate` on an idle process keeps the invariant, and leaves
a worker idle when the spare thread may not be used. -/
theorem inv_try_activate (s s1 : State) (rfp : Nat) (use_spare : Bool) (hI : Inv s)
    (hlt : rfp < NR_PROCS s)
    (hold : has_flag (get_fproc s rfp).fp_flags FP_PENDING = false)
    (holdw : (get_fproc s rfp).fp_worker = none)
    (h : worker_try_activate s rfp use_spare = .ok s1) :
    Inv s1 ∧ (use_spare = false → s.busy < NR_WTHREADS s → s1.busy < NR_WTHREADS s1) := by
  have hav := worker_available_eq s hI.1.1 (inv_busy_le s hI)
  unfold worker_try_activate at h
  simp only at h
  by_cases hc : (if use_spare = true then (1 : Int) else 2) ≤ worker_available s ∧
      (!s.block_all || use_spare) = true
  · rw [if_pos hc] at h
    have hfree : s.busy < NR_WTHREADS s := by
      have := hc.1
      rw [hav] at this
      cases use_spare <;> simp at this <;> omega
    have hI1 := inv_worker_assign s s1 rfp hI hlt hold holdw hfree h
    refine ⟨hI1, ?_⟩
    intro hs _
    obtain ⟨-, hW, hb, -⟩ := worker_assign_fields s s1 rfp h
    have := hc.1
    rw [hav, hs] at this
    have hs1 := hI.1.1
    simp only [NR_WTHREADS, hW, List.length_set, hb, uint_inc] at *
    simp at this
    omega
  · rw [if_neg hc] at h
    injection h with h
    subst h
    refine ⟨?_, ?_⟩
    · exact inv_pend s _ rfp _ hI hlt rfl rfl hold holdw holdw
        (has_flag_set_self _ _ pending_ne_zero) rfl rfl
    · intro _ hb
      exact hb

theorem inv_worker_start (s s1 : State) (rfp : Nat) (func : Option Nat) (m : message)
    (use_spare : Bool) (hI : Inv s) (hlt : rfp < NR_PROCS s)
    (h : worker_start s rfp func m use_spare = .ok s1) :
    Inv s1 ∧ (use_spare = false → s.busy < NR_WTHREADS s → s1.busy < NR_WTHREADS s1) := by
  unfold worker_start at h
  simp only at h
  split at h
  · cases h
  · obtain ⟨v, hF, h1, h2, hW, hp, hb, -⟩ := worker_start_save_fields s rfp func m
    split at h
    · rename_i hc
      simp only [Bool.and_eq_true, Bool.not_eq_true'] at hc
      have hw : (get_fproc s rfp).fp_worker = none := by
        cases hx : (get_fproc s rfp).fp_worker with
        | none => rfl
        | some x => rw [hx] at hc; simp at hc
      have hg := get_fproc_save s rfp func m
      have := inv_try_activate _ s1 rfp use_spare (inv_save s rfp func m hI)
        (by rw [NR_PROCS_save]; exact hlt) (by rw [hg.2]; exact hc.1) (by rw [hg.1]; exact hw) h
      refine ⟨this.1, ?_⟩
      intro hs hbl
      apply this.2 hs
      simpa [NR_WTHREADS, hW, hb] using hbl
    · injection h with h
      subst h
      refine ⟨inv_save s rfp func m hI, ?_⟩
      intro _ hbl
      simpa [NR_WTHREADS, hW, hb] using hbl

theorem worker_may_do_pending_iff (s : State) :
    worker_may_do_pending s = true ↔ 0 < s.pending ∧ 1 < worker_available s ∧ s.block_all = false := by
  simp [worker_may_do_pending, and_assoc]

theorem inv_unpend_state (s : State) (rfp : Nat) (hI : Inv s)
    (hold : has_flag (get_fproc s rfp).fp_flags FP_PENDING = true) : Inv (unpend s rfp) :=
  inv_unpend s _ rfp _ hI rfl rfl hold rfl (has_flag_clear_self _ _) rfl rfl

theorem get_fproc_unpend (s : State) (rfp : Nat) (hlt : rfp < NR_PROCS s) :
    get_fproc (unpend s rfp) rfp
      = { get_fproc s rfp with fp_flags := clear_flag (get_fproc s rfp).fp_flags FP_PENDING } := by
  rw [get_fproc_of_set s (unpend s rfp) rfp rfp _ rfl]
  simp [hlt]

theorem pending_pos_of_flag (s : State) (rfp : Nat) (hI : Inv s)
    (hold : has_flag (get_fproc s rfp).fp_flags FP_PENDING = true) : 0 < s.pending := by
  have hlt := lt_of_pending s rfp hold
  rw [hI.2.1.1, count_pending]
  apply List.countP_pos_iff.2
  refine ⟨get_fproc s rfp, ?_, hold⟩
  simp only [get_fproc, List.getD_eq_getElem?_getD]
  rw [List.getElem?_eq_getElem (by simpa [NR_PROCS] using hlt)]
  exact List.getElem_mem _

/-- The scan of `worker_allow` keeps the invariant and never assigns the last
idle worker. -/
theorem inv_allow_loop (l : List Nat) (s s1 : State) (hI : Inv s)
    (hav : 1 < worker_available s) (h : worker_allow_loop s l = .ok s1) :
    Inv s1 ∧ s1.busy < NR_WTHREADS s1 := by
  induction l generalizing s with
  | nil =>
    rw [worker_allow_loop] at h
    injection h with h
    subst h
    refine ⟨hI, ?_⟩
    rw [worker_available_eq s hI.1.1 (inv_busy_le s hI)] at hav
    omega
  | cons rfp rest ih =>
    rw [worker_allow_loop] at h
    by_cases hfl : has_flag (get_fproc s rfp).fp_flags FP_PENDING = true
    · rw [if_pos hfl] at h
      have hpos := pending_pos_of_flag s rfp hI hfl
      have hlt := lt_of_pending s rfp hfl
      simp only [set_fproc] at h
      rw [if_neg (by omega)] at h
      have hI2 := inv_unpend_state s rfp hI hfl
      have hw : (get_fproc s rfp).fp_worker = none := by
        by_contra hne
        exact hI.2.2.2 rfp ⟨hfl, hne⟩
      have hav0 := worker_available_eq s hI.1.1 (inv_busy_le s hI)
      change (match worker_assign (unpend s rfp) rfp with
        | Except.error e => (Except.error e : Result)
        | Except.ok s3 => if (!worker_may_do_pending s3) = true then Except.ok s3
            else worker_allow_loop s3 rest) = Except.ok s1 at h
      cases hwa : worker_assign (unpend s rfp) rfp with
      | error e => rw [hwa] at h; cases h
      | ok s3 =>
        rw [hwa] at h
        simp only at h
        have hg := get_fproc_unpend s rfp hlt
        have hI3 := inv_worker_assign (unpend s rfp) s3 rfp hI2
          (by simpa [NR_PROCS, unpend, set_fproc] using hlt)
          (by rw [hg]; exact has_flag_clear_self _ _) (by rw [hg]; exact hw)
          (by
            have : (unpend s rfp).busy = s.busy := rfl
            have hN : NR_WTHREADS (unpend s rfp) = NR_WTHREADS s := rfl
            rw [this, hN]
            rw [hav0] at hav
            omega) hwa
        by_cases hm : worker_may_do_pending s3 = true
        · rw [hm] at h
          simp only [Bool.not_true, Bool.false_eq_true, if_false] at h
          exact ih s3 hI3 ((worker_may_do_pending_iff s3).1 hm).2.1 h
        · have hm2 : worker_may_do_pending s3 = false := by simpa using hm
          rw [hm2] at h
          simp only [Bool.not_false, if_true] at h
          injection h with h
          subst h
          refine ⟨hI3, ?_⟩
          obtain ⟨-, hW, hb, -⟩ := worker_assign_fields _ _ rfp hwa
          have hs := hI.1.1
          have hble := inv_busy_le s hI
          have hb0 : (unpend s rfp).busy = s.busy := rfl
          have hW0 : (unpend s rfp).workers = s.workers := rfl
          rw [hav0] at hav
          simp only [NR_WTHREADS, hW, hb, hb0, hW0, List.length_set, uint_inc] at *
          omega
    · rw [if_neg hfl] at h
      exact ih s hI hav h

theorem inv_worker_allow (s s1 : State) (allow : Bool) (hI : Inv s)
    (h : worker_allow s allow = .ok s1) :
    Inv s1 ∧ (s.busy < NR_WTHREADS s → s1.busy < NR_WTHREADS s1) := by
  unfold worker_allow at h
  simp only at h
  have hI1 : Inv { s with block_all := !allow } := inv_congr s _ hI rfl rfl rfl rfl
  by_cases hm : worker_may_do_pending { s with block_all := !allow } = true
  · rw [hm] at h
    simp only [Bool.not_true, Bool.false_eq_true, if_false] at h
    have := inv_allow_loop _ _ s1 hI1 ((worker_may_do_pending_iff _).1 hm).2.1 h
    exact ⟨this.1, fun _ => this.2⟩
  · have hm2 : worker_may_do_pending { s with block_all := !allow } = false := by simpa using hm
    rw [hm2] at h
    simp only [Bool.not_false, if_true] at h
    injection h with h
    subst h
    exact ⟨hI1, fun hb => hb⟩

/-- The scan of `worker_get_work` keeps the invariant and never takes the
last idle worker. -/
theorem inv_get_work_loop (l : List Nat) (s s1 : State) (self : Nat) (hI : Inv s)
    (hself : self < NR_WTHREADS s) (hidle : (get_worker s self).w_fp = none)
    (hav : 1 < worker_available s)
    (h : worker_get_work_loop s self l = .ok (GetWork.claimed s1)) :
    Inv s1 ∧ s1.busy < NR_WTHREADS s1 := by
  induction l with
  | nil => rw [worker_get_work_loop] at h; cases h
  | cons rfp rest ih =>
    rw [worker_get_work_loop] at h
    by_cases hfl : has_flag (get_fproc s rfp).fp_flags FP_PENDING = true
    · rw [if_pos hfl] at h
      have hpos := pending_pos_of_flag s rfp hI hfl
      have hlt := lt_of_pending s rfp hfl
      have hlt2 : rfp < s.fproc.length := hlt
      simp only [set_fproc, set_worker] at h
      rw [if_neg (by omega)] at h
      injection h with h
      injection h with h
      have hI2 := inv_unpend_state s rfp hI hfl
      have hw : (get_fproc s rfp).fp_worker = none := by
        by_contra hne
        exact hI.2.2.2 rfp ⟨hfl, hne⟩
      have hav0 := worker_available_eq s hI.1.1 (inv_busy_le s hI)
      have hg := get_fproc_unpend s rfp hlt
      have hI3 : Inv s1 := by
        refine inv_bind (unpend s rfp) s1 rfp self
          { get_fproc s rfp with
            fp_flags := clear_flag (get_fproc s rfp).fp_flags FP_PENDING
            fp_worker := some self }
          { get_worker s self with w_fp := some rfp } hI2
          (by simpa [NR_PROCS, unpend, set_fproc] using hlt) hself ?_ ?_
          (by rw [hg]; exact has_flag_clear_self _ _) (by rw [hg]; exact hw) hidle rfl
          (has_flag_clear_self _ _) rfl ?_ ?_
        · rw [← h]
          simp [unpend, set_fproc, get_fproc, getD_set, hlt2, List.set_set]
        · rw [← h]; rfl
        · rw [← h]; rfl
        · rw [← h]; rfl
      refine ⟨hI3, ?_⟩
      have hs := hI.1.1
      have hble := inv_busy_le s hI
      rw [hav0] at hav
      rw [← h]
      simp only [NR_WTHREADS, List.length_set, uint_inc] at *
      omega
    · rw [if_neg hfl] at h
      exact ih h

theorem inv_claim (s s1 : State) (w : Nat) (hI : Inv s) (hw : w < NR_WTHREADS s)
    (h : worker_get_work { s with self := some w } = .ok (GetWork.claimed s1)) :
    Inv s1 ∧ s1.busy < NR_WTHREADS s1 := by
  have hI0 : Inv { s with self := some w } := inv_congr s _ hI rfl rfl rfl rfl
  unfold worker_get_work at h
  simp only at h
  by_cases hidle : (get_worker { s with self := some w } w).w_fp = none
  · rw [if_neg (by simpa using hidle)] at h
    by_cases hm : worker_may_do_pending { s with self := some w } = true
    · rw [if_pos hm] at h
      exact inv_get_work_loop _ _ s1 w hI0 hw hidle ((worker_may_do_pending_iff _).1 hm).2.1 h
    · rw [if_neg hm] at h
      cases h
  · rw [if_pos (by simpa using hidle)] at h
    cases h

theorem inv_main_normal (s : State) (self fp : Nat) (hI : Inv s) :
    Inv (worker_main_normal s self fp) ∧
      (get_worker (worker_main_normal s self fp) self).w_fp = (get_worker s self).w_fp ∧
      (worker_main_normal s self fp).busy = s.busy ∧
      NR_WTHREADS (worker_main_normal s self fp) = NR_WTHREADS s := by
  unfold worker_main_normal
  cases hf : (get_fproc s fp).fp_func with
  | none => exact ⟨hI, rfl, rfl, rfl⟩
  | some f =>
    simp only
    refine ⟨?_, ?_, rfl, ?_⟩
    · exact inv_frame s _ fp self _ _ hI rfl rfl rfl rfl rfl rfl rfl
    · rw [get_worker_of_set s _ self self _ rfl]
      by_cases h : self < NR_WTHREADS s <;> simp [h]
    · simp [NR_WTHREADS, set_fproc, emit, set_worker]

theorem inv_main_postponed (s : State) (self fp : Nat) (hI : Inv s) :
    Inv (worker_main_postponed s self fp) ∧
      (get_worker (worker_main_postponed s self fp) self).w_fp = (get_worker s self).w_fp ∧
      (worker_main_postponed s self fp).busy = s.busy ∧
      NR_WTHREADS (worker_main_postponed s self fp) = NR_WTHREADS s := by
  unfold worker_main_postponed
  by_cases hf : has_flag (get_fproc s fp).fp_flags FP_PM_WORK = true
  · rw [if_pos hf]
    simp only
    refine ⟨?_, ?_, rfl, ?_⟩
    · exact inv_frame s _ fp self _ _ hI rfl rfl rfl
        (has_flag_clear_other _ _ _ pm_work_and_pending) rfl rfl rfl
    · rw [get_worker_of_set s _ self self _ rfl]
      by_cases h : self < NR_WTHREADS s <;> simp [h]
    · simp [NR_WTHREADS, set_fproc, emit, set_worker]
  · rw [if_neg hf]
    exact ⟨hI, rfl, rfl, rfl⟩

theorem inv_main_unbind (s s1 : State) (self fp : Nat) (hI : Inv s)
    (hb : (get_worker s self).w_fp = some fp) (h : worker_main_unbind s self fp = .ok s1) :
    Inv s1 ∧ s1.busy < s.busy ∧ NR_WTHREADS s1 = NR_WTHREADS s := by
  unfold worker_main_unbind at h
  simp only at h
  split at h
  · cases h
  · rename_i hne
    injection h with h
    subst h
    refine ⟨?_, ?_, ?_⟩
    · exact inv_unbind s _ fp self _ _ hI rfl rfl hb rfl rfl rfl rfl rfl
    · simp only [set_worker, set_fproc, emit] at hne ⊢
      have := inv_busy_le s hI
      have := hI.1.1
      simp only [uint_dec]
      omega
    · simp [NR_WTHREADS, set_fproc, emit, set_worker]

theorem inv_cycle (s s1 : State) (w : Nat) (hI : Inv s) (h : worker_main_body s w = .ok s1) :
    Inv s1 ∧ s1.busy < s.busy ∧ NR_WTHREADS s1 = NR_WTHREADS s := by
  unfold worker_main_body at h
  cases hfp : (get_worker s w).w_fp with
  | none => rw [hfp] at h; cases h
  | some fp =>
    rw [hfp] at h
    simp only at h
    split at h
    · cases h
    · have hI0 : Inv (emit { s with self := some w, fp := some fp } (Event.lock_proc fp)) :=
        inv_congr s _ hI rfl rfl rfl rfl
      obtain ⟨hI1, hw1, hb1, hn1⟩ := inv_main_normal _ w fp hI0
      obtain ⟨hI2, hw2, hb2, hn2⟩ := inv_main_postponed _ w fp hI1
      obtain ⟨hI3, hb3, hn3⟩ := inv_main_unbind _ s1 w fp hI2 (by rw [hw2, hw1]; exact hfp) h
      refine ⟨hI3, ?_, ?_⟩
      · rw [hb2, hb1] at hb3; exact hb3
      · rw [hn3, hn2, hn1]; rfl

/-- Every enabled step keeps the invariant. -/
theorem inv_step (s s1 : State) (a : Action) (hI : Inv s) (h : step s a = some s1) : Inv s1 := by
  cases a with
  | start rfp func m use_spare =>
    simp only [step] at h
    split at h
    · rename_i hlt
      cases hs : worker_start s rfp func m use_spare with
      | error e => rw [hs] at h; cases h
      | ok s2 =>
        rw [hs] at h
        injection h with h
        subst h
        exact (inv_worker_start s s2 rfp func m use_spare hI hlt hs).1
    · cases h
  | allow al =>
    simp only [step] at h
    cases hs : worker_allow s al with
    | error e => rw [hs] at h; cases h
    | ok s2 =>
      rw [hs] at h
      injection h with h
      subst h
      exact (inv_worker_allow s s2 al hI hs).1
  | claim w =>
    simp only [step] at h
    split at h
    · rename_i hlt
      split at h
      · rename_i s2 hs
        injection h with h
        subst h
        exact (inv_claim s s2 w hI hlt hs).1
      · cases h
    · cases h
  | cycle w =>
    simp only [step] at h
    split at h
    · cases hs : worker_main_body s w with
      | error e => rw [hs] at h; cases h
      | ok s2 =>
        rw [hs] at h
        injection h with h
        subst h
        exact (inv_cycle s s2 w hI hs).1
    · cases h
  | normal w =>
    simp only [step] at h
    split at h
    · cases hfp : (get_worker s w).w_fp with
      | none => rw [hfp] at h; cases h
      | some fp =>
        rw [hfp] at h
        injection h with h
        subst h
        exact (inv_main_normal { s with self := some w, fp := some fp } w fp
          (inv_congr s _ hI rfl rfl rfl rfl)).1
    · cases h
  | postponed w =>
    simp only [step] at h
    split at h
    · cases hfp : (get_worker s w).w_fp with
      | none => rw [hfp] at h; cases h
      | some fp =>
        rw [hfp] at h
        injection h with h
        subst h
        exact (inv_main_postponed { s with self := some w, fp := some fp } w fp
          (inv_congr s _ hI rfl rfl rfl rfl)).1
    · cases h
  | unbind w =>
    simp only [step] at h
    split at h
    · cases hfp : (get_worker s w).w_fp with
      | none => rw [hfp] at h; cases h
      | some fp =>
        rw [hfp] at h
        simp only at h
        cases hs : worker_main_unbind { s with self := some w, fp := some fp } w fp with
        | error e => rw [hs] at h; cases h
        | ok s2 =>
          rw [hs] at h
          injection h with h
          subst h
          exact (inv_main_unbind { s with self := some w, fp := some fp } s2 w fp
            (inv_congr s _ hI rfl rfl rfl rfl) hfp hs).1
    · cases h

theorem inv_run (acts : List Action) (s s1 : State) (hI : Inv s) (h : run s acts = some s1) :
    Inv s1 := by
  induction acts generalizing s with
  | nil =>
    rw [run] at h
    injection h with h
    subst h
    exact hI
  | cons a rest ih =>
    rw [run] at h
    cases hs : step s a with
    | none => rw [hs] at h; cases h
    | some s2 =>
      rw [hs] at h
      exact ih s2 (inv_step s s2 a hI hs) h

theorem countP_eq_zero_of_forall {α : Type} (q : α → Bool) (l : List α)
    (h : ∀ a ∈ l, q a = false) : l.countP q = 0 := by
  rw [List.countP_eq_zero]
  intro a ha
  simp [h a ha]

/-- The state `worker_init` establishes satisfies the invariant when the
process table carries no scheduling state. -/
theorem inv_init (s0 : State) (hs : sizes_ok s0) (h0 : fproc_unscheduled s0) :
    Inv (worker_init s0) := by
  refine ⟨⟨?_, ?_⟩, ⟨?_, ?_⟩, ?_, ?_⟩
  · simpa [NR_WTHREADS, worker_init] using hs.1
  · simpa [NR_PROCS, worker_init] using hs.2
  · simp only [count_pending, worker_init]
    symm
    apply countP_eq_zero_of_forall
    intro a ha
    obtain ⟨i, hi, rfl⟩ := List.getElem_of_mem ha
    have := (h0 i).1
    simpa [get_fproc, List.getD_eq_getElem?_getD, List.getElem?_eq_getElem hi] using this
  · simp only [count_busy, worker_init]
    symm
    apply countP_eq_zero_of_forall
    intro a ha
    simp only [List.mem_map] at ha
    obtain ⟨b, -, rfl⟩ := ha
    rfl
  · intro p w
    have h1 : (get_fproc (worker_init s0) p).fp_worker = none := (h0 p).2
    have h2 : (get_worker (worker_init s0) w).w_fp = none := by
      simp only [get_worker, worker_init, List.getD_eq_getElem?_getD, List.getElem?_map]
      cases s0.workers[w]? <;> rfl
    rw [h1, h2]
    simp
  · intro p
    have h1 : (get_fproc (worker_init s0) p).fp_worker = none := (h0 p).2
    simp [h1]

/-! ## Counter consistency and mutual exclusion -/

theorem get_fproc_pool (n m p : Nat) : get_fproc (pool n m) p = idle_fproc := by
  simp only [get_fproc, pool, List.getD_eq_getElem?_getD, List.getElem?_replicate]
  split <;> rfl

theorem fproc_unscheduled_pool (n m : Nat) : fproc_unscheduled (pool n m) := by
  intro p
  rw [get_fproc_pool]
  exact ⟨rfl, rfl⟩

/-- C1. Counter consistency: in every state reached from the state
`worker_init` establishes (on a process table with no flagged and no bound
process) by non-fatal `worker_start` calls, `worker_allow` calls, claims of
pending work by idle workers and completed worker cycles (taken whole or in
their three parts), `pending` is the number of processes flagged FP_PENDING
and `busy` is the number of workers with `w_fp != NULL`, hence
`busy <= NR_WTHREADS`. The table sizes are below `2^31`. -/
theorem counter_consistency (s0 s : State) (acts : List Action) (hs : sizes_ok s0)
    (h0 : fproc_unscheduled s0) (h : run (worker_init s0) acts = some s) :
    s.pending = count_pending s ∧ s.busy = count_busy s ∧ s.busy ≤ NR_WTHREADS s := by
  have hI := inv_run acts _ s (inv_init s0 hs h0) h
  exact ⟨hI.2.1.1, hI.2.1.2, inv_busy_le s hI⟩

theorem counter_consistency_witness :
    run (worker_init (pool 3 4)) demo_acts = some (run_end (worker_init (pool 3 4)) demo_acts) ∧
    (run_end (worker_init (pool 3 4)) demo_acts).pending = 0 ∧
    (run_end (worker_init (pool 3 4)) demo_acts).busy = 2 ∧
    ((run_end (worker_init (pool 3 4)) demo_acts).pending
        = count_pending (run_end (worker_init (pool 3 4)) demo_acts) ∧
      (run_end (worker_init (pool 3 4)) demo_acts).busy
        = count_busy (run_end (worker_init (pool 3 4)) demo_acts) ∧
      (run_end (worker_init (pool 3 4)) demo_acts).busy
        ≤ NR_WTHREADS (run_end (worker_init (pool 3 4)) demo_acts)) :=
  ⟨by decide, by decide, by decide,
    counter_consistency (pool 3 4) _ demo_acts (by unfold sizes_ok; decide)
      (fproc_unscheduled_pool 3 4) (by decide)⟩

/-- C2. Mutual exclusion of states: in every state reached from the initial
state by non-fatal `worker_start` calls, `worker_allow` calls, claims of
pending work by idle workers and completed worker cycles (taken whole or in
their three parts), no process has
both FP_PENDING set and `fp_worker != NULL`, `rfp->fp_worker == w` holds
exactly when `w->w_fp == rfp` (both pointing into the tables), and so no
worker is bound to two processes and no process to two workers. -/
theorem mutual_exclusion (s0 s : State) (acts : List Action) (hs : sizes_ok s0)
    (h0 : fproc_unscheduled s0) (h : run (worker_init s0) acts = some s) :
    (∀ p, ¬ (has_flag (get_fproc s p).fp_flags FP_PENDING = true ∧
        (get_fproc s p).fp_worker ≠ none)) ∧
    (∀ p w, (get_fproc s p).fp_worker = some w ↔ (get_worker s w).w_fp = some p) ∧
    (∀ p w, (get_fproc s p).fp_worker = some w → p < NR_PROCS s ∧ w < NR_WTHREADS s) ∧
    (∀ p q w, (get_fproc s p).fp_worker = some w → (get_fproc s q).fp_worker = some w → p = q) ∧
    (∀ p w u, (get_worker s w).w_fp = some p → (get_worker s u).w_fp = some p → w = u) := by
  have hI := inv_run acts _ s (inv_init s0 hs h0) h
  obtain ⟨-, -, hb, he⟩ := hI
  refine ⟨he, hb, ?_, ?_, ?_⟩
  · intro p w hp
    exact ⟨lt_of_fp_worker s p w hp, lt_of_w_fp s p w ((hb p w).1 hp)⟩
  · intro p q w hp hq
    have h1 := (hb p w).1 hp
    have h2 := (hb q w).1 hq
    rw [h1] at h2
    injection h2
  · intro p w u hw hu
    have h1 := (hb p w).2 hw
    have h2 := (hb p u).2 hu
    rw [h1] at h2
    injection h2

theorem mutual_exclusion_witness :
    run (worker_init (pool 2 3)) demo_parts = some (run_end (worker_init (pool 2 3)) demo_parts) ∧
    (get_fproc (run_end (worker_init (pool 2 3)) demo_parts) 1).fp_worker = some 1 ∧
    (get_fproc (run_end (worker_init (pool 2 3)) demo_parts) 0).fp_worker = some 0 ∧
    (∀ p w, (get_fproc (run_end (worker_init (pool 2 3)) demo_parts) p).fp_worker = some w ↔
      (get_worker (run_end (worker_init (pool 2 3)) demo_parts) w).w_fp = some p) :=
  ⟨by decide, by decide, by decide,
    (mutual_exclusion (pool 2 3) _ demo_parts
      (by unfold sizes_ok; decide) (fproc_unscheduled_pool 2 3) (by decide)).2.1⟩

/-! ## The activation decision -/

theorem worker_start_of_no_work (s : State) (rfp : Nat) (func : Option Nat) (m : message)
    (use_spare : Bool) (h : no_work s rfp) :
    worker_start s rfp func m use_spare
      = worker_try_activate (worker_start_save s rfp func m) rfp use_spare := by
  obtain ⟨h1, h2, h3, h4⟩ := h
  simp [worker_start, worker_start_checks, h1, h2, h3, h4]

theorem worker_try_activate_assign (s : State) (rfp : Nat) (use_spare : Bool)
    (h : (if use_spare = true then (1 : Int) else 2) ≤ worker_available s ∧
      (s.block_all = false ∨ use_spare = true)) :
    worker_try_activate s rfp use_spare = worker_assign s rfp := by
  unfold worker_try_activate
  simp only
  rw [if_pos]
  refine ⟨h.1, ?_⟩
  rcases h.2 with hb | hu
  · simp [hb]
  · simp [hu]

theorem worker_try_activate_pend (s : State) (rfp : Nat) (use_spare : Bool)
    (h : ¬ ((if use_spare = true then (1 : Int) else 2) ≤ worker_available s ∧
      (s.block_all = false ∨ use_spare = true))) :
    worker_try_activate s rfp use_spare
      = .ok { set_fproc s rfp
                { get_fproc s rfp with
                  fp_flags := set_flag (get_fproc s rfp).fp_flags FP_PENDING } with
              pending := uint_inc s.pending } := by
  unfold worker_try_activate
  simp only
  rw [if_neg]
  · rfl
  · intro hc
    apply h
    refine ⟨hc.1, ?_⟩
    have := hc.2
    cases hb : s.block_all <;> cases hu : use_spare <;> simp [hb, hu] at this ⊢

theorem worker_try_activate_cases (s : State) (rfp : Nat) (use_spare : Bool) :
    worker_try_activate s rfp use_spare = worker_assign s rfp ∨
    worker_try_activate s rfp use_spare
      = .ok { set_fproc s rfp
                { get_fproc s rfp with
                  fp_flags := set_flag (get_fproc s rfp).fp_flags FP_PENDING } with
              pending := uint_inc s.pending } := by
  by_cases h : (if use_spare = true then (1 : Int) else 2) ≤ worker_available s ∧
      (s.block_all = false ∨ use_spare = true)
  · exact Or.inl (worker_try_activate_assign s rfp use_spare h)
  · exact Or.inr (worker_try_activate_pend s rfp use_spare h)

theorem worker_available_save (s : State) (rfp : Nat) (func : Option Nat) (m : message) :
    worker_available (worker_start_save s rfp func m) = worker_available s := by
  obtain ⟨v, -, -, -, hW, -, hb, -⟩ := worker_start_save_fields s rfp func m
  simp only [worker_available, NR_WTHREADS, hW, hb]

theorem find_free_worker_save (s : State) (rfp : Nat) (func : Option Nat) (m : message) :
    find_free_worker (worker_start_save s rfp func m) = find_free_worker s := by
  obtain ⟨v, -, -, -, hW, -⟩ := worker_start_save_fields s rfp func m
  simp only [find_free_worker, hW]

theorem get_worker_save (s : State) (rfp : Nat) (func : Option Nat) (m : message) (w : Nat) :
    get_worker (worker_start_save s rfp func m) w = get_worker s w := by
  obtain ⟨v, -, -, -, hW, -⟩ := worker_start_save_fields s rfp func m
  simp only [get_worker, hW]

/-- What a successful `worker_assign` leaves in the two entries it binds. -/
theorem worker_assign_binding (s s1 : State) (rfp : Nat) (hlt : rfp < NR_PROCS s)
    (hw : find_free_worker s < NR_WTHREADS s) (h : worker_assign s rfp = .ok s1) :
    (get_fproc s1 rfp).fp_worker = some (find_free_worker s) ∧
    (get_fproc s1 rfp).fp_flags = (get_fproc s rfp).fp_flags ∧
    (get_worker s1 (find_free_worker s)).w_fp = some rfp := by
  obtain ⟨hF, hW, -⟩ := worker_assign_fields s s1 rfp h
  rw [get_fproc_of_set s s1 rfp rfp _ hF, get_worker_of_set s s1 _ _ _ hW]
  simp [hlt, hw]

/-- When the activation test fails, `worker_start` on an idle process flags
it pending and touches no worker. -/
theorem worker_start_pend (s : State) (rfp : Nat) (func : Option Nat) (m : message)
    (use_spare : Bool) (hlt : rfp < NR_PROCS s) (hn : no_work s rfp)
    (hc : ¬ ((if use_spare = true then (1 : Int) else 2) ≤ worker_available s ∧
      (s.block_all = false ∨ use_spare = true))) :
    ∃ s1, worker_start s rfp func m use_spare = .ok s1 ∧
      has_flag (get_fproc s1 rfp).fp_flags FP_PENDING = true ∧
      (get_fproc s1 rfp).fp_worker = none ∧ s1.workers = s.workers ∧
      s1.pending = uint_inc s.pending ∧ s1.busy = s.busy := by
  have hg := get_fproc_save s rfp func m
  obtain ⟨v, hF0, -, -, hW0, hp0, hb0, hbl0, -⟩ := worker_start_save_fields s rfp func m
  rw [worker_start_of_no_work s rfp func m use_spare hn]
  rw [worker_try_activate_pend _ rfp use_spare (by rw [worker_available_save, hbl0]; exact hc)]
  refine ⟨_, rfl, ?_, ?_, hW0, ?_, hb0⟩
  · rw [get_fproc_of_set (worker_start_save s rfp func m) _ rfp rfp _ rfl]
    simp only [NR_PROCS_save, hlt, and_self, if_true]
    exact has_flag_set_self _ _ pending_ne_zero
  · rw [get_fproc_of_set (worker_start_save s rfp func m) _ rfp rfp _ rfl]
    simp only [NR_PROCS_save, hlt, and_self, if_true, hg.1, hn.2.1]
  · show uint_inc (worker_start_save s rfp func m).pending = uint_inc s.pending
    rw [hp0]

/-- C3. Activation decision: in a pool state satisfying the counter invariant,
`worker_start` on a process with no pending, active or stored work returns
normally and binds a worker to the process if and only if
`(use_spare ? 1 : 2) <= NR_WTHREADS - busy` and (`block_all` is false or
`use_spare` is true). In that case the bound worker is the lowest-indexed
worker whose `w_fp` was NULL, the binding is set both ways, `busy` grows by
one and `pending` is unchanged; otherwise FP_PENDING is set on the process,
`pending` grows by one, and `busy` and every worker are unchanged. -/
theorem activation_decision (s : State) (rfp : Nat) (func : Option Nat) (m : message)
    (use_spare : Bool) (hs : sizes_ok s) (hc : counters_ok s) (hlt : rfp < NR_PROCS s)
    (hn : no_work s rfp) :
    ∃ s1, worker_start s rfp func m use_spare = .ok s1 ∧
      ((get_fproc s1 rfp).fp_worker ≠ none ↔
        ((if use_spare = true then (1 : Int) else 2) ≤ (NR_WTHREADS s : Int) - (s.busy : Int) ∧
          (s.block_all = false ∨ use_spare = true))) ∧
      ((get_fproc s1 rfp).fp_worker ≠ none →
        ∃ w, w < NR_WTHREADS s ∧ (get_worker s w).w_fp = none ∧
          (∀ j, j < w → (get_worker s j).w_fp ≠ none) ∧
          (get_fproc s1 rfp).fp_worker = some w ∧ (get_worker s1 w).w_fp = some rfp ∧
          has_flag (get_fproc s1 rfp).fp_flags FP_PENDING = false ∧
          s1.busy = s.busy + 1 ∧ s1.pending = s.pending) ∧
      ((get_fproc s1 rfp).fp_worker = none →
        has_flag (get_fproc s1 rfp).fp_flags FP_PENDING = true ∧
          s1.pending = s.pending + 1 ∧ s1.busy = s.busy ∧ s1.workers = s.workers) := by
  have hble : s.busy ≤ NR_WTHREADS s := by rw [hc.2]; exact count_busy_le s
  have hav := worker_available_eq s hs.1 hble
  have hg := get_fproc_save s rfp func m
  obtain ⟨v, hF0, -, -, hW0, hp0, hb0, hbl0, -⟩ := worker_start_save_fields s rfp func m
  rw [worker_start_of_no_work s rfp func m use_spare hn]
  by_cases hcond : (if use_spare = true then (1 : Int) else 2) ≤ (NR_WTHREADS s : Int) - (s.busy : Int) ∧
      (s.block_all = false ∨ use_spare = true)
  · have hcond2 : (if use_spare = true then (1 : Int) else 2)
          ≤ worker_available (worker_start_save s rfp func m) ∧
        ((worker_start_save s rfp func m).block_all = false ∨ use_spare = true) := by
      rw [worker_available_save, hav, hbl0]; exact hcond
    rw [worker_try_activate_assign _ rfp use_spare hcond2]
    have hfree : s.busy < NR_WTHREADS s := by
      have := hcond.1
      cases use_spare <;> simp at this <;> omega
    obtain ⟨f1, f2, f3⟩ := find_free_worker_spec s (by rw [← hc.2]; exact hfree)
    obtain ⟨s1, h1⟩ := worker_assign_isOk (worker_start_save s rfp func m) rfp
      (by simp only [NR_WTHREADS, hW0]; exact Nat.lt_of_le_of_lt (Nat.zero_le _) hfree)
    obtain ⟨b1, b2, b3⟩ := worker_assign_binding _ s1 rfp (by rw [NR_PROCS_save]; exact hlt)
      (by rw [find_free_worker_save]; simpa [NR_WTHREADS, hW0] using f1) h1
    obtain ⟨-, -, hb, hp, -⟩ := worker_assign_fields _ s1 rfp h1
    rw [find_free_worker_save] at b1 b3
    have hbusy : s1.busy = s.busy + 1 := by
      have := hs.1
      rw [hb, hb0, uint_inc]; omega
    refine ⟨s1, h1, ?_, ?_, ?_⟩
    · simp only [b1, hcond]; simp
    · intro _
      refine ⟨find_free_worker s, f1, f2, f3, b1, b3, ?_, hbusy, by rw [hp, hp0]⟩
      rw [b2, hg.2]; exact hn.1
    · intro hnone
      rw [b1] at hnone
      cases hnone
  · have hcond2 : ¬ ((if use_spare = true then (1 : Int) else 2)
          ≤ worker_available (worker_start_save s rfp func m) ∧
        ((worker_start_save s rfp func m).block_all = false ∨ use_spare = true)) := by
      rw [worker_available_save, hav, hbl0]; exact hcond
    rw [worker_try_activate_pend _ rfp use_spare hcond2]
    refine ⟨_, rfl, ?_, ?_, ?_⟩
    · rw [get_fproc_of_set (worker_start_save s rfp func m) _ rfp rfp _ rfl]
      simp only [NR_PROCS_save, hlt, and_self, if_true, hg.1, hn.2.1, hcond]
      simp
    · intro hne
      rw [get_fproc_of_set (worker_start_save s rfp func m) _ rfp rfp _ rfl] at hne
      simp only [NR_PROCS_save, hlt, and_self, if_true, hg.1, hn.2.1] at hne
      exact absurd rfl hne
    · intro _
      refine ⟨?_, ?_, hb0, hW0⟩
      · rw [get_fproc_of_set (worker_start_save s rfp func m) _ rfp rfp _ rfl]
        simp only [NR_PROCS_save, hlt, and_self, if_true]
        exact has_flag_set_self _ _ pending_ne_zero
      · have h1 := hs.2
        have h2 := count_pending_le s
        have h3 := hc.1
        show uint_inc (worker_start_save s rfp func m).pending = s.pending + 1
        rw [hp0, uint_inc]
        omega

theorem activation_decision_witness :
    sizes_ok (run_end (worker_init (pool 3 4)) demo_acts) ∧
    counters_ok (run_end (worker_init (pool 3 4)) demo_acts) ∧
    no_work (run_end (worker_init (pool 3 4)) demo_acts) 3 ∧
    ∃ s1, worker_start (run_end (worker_init (pool 3 4)) demo_acts) 3 (some 5) msg0 true = .ok s1 ∧
      (get_fproc s1 3).fp_worker ≠ none ∧
      ∃ w, (get_fproc s1 3).fp_worker = some w ∧ (get_worker s1 w).w_fp = some 3 ∧
        s1.busy = 3 := by
  have hs : sizes_ok (run_end (worker_init (pool 3 4)) demo_acts) := by unfold sizes_ok; decide
  have hc : counters_ok (run_end (worker_init (pool 3 4)) demo_acts) := by
    unfold counters_ok; decide
  have hn : no_work (run_end (worker_init (pool 3 4)) demo_acts) 3 := by unfold no_work; decide
  obtain ⟨s1, h1, h2, h3, -⟩ := activation_decision (run_end (worker_init (pool 3 4)) demo_acts)
    3 (some 5) msg0 true hs hc (by decide) hn
  have hb : (get_fproc s1 3).fp_worker ≠ none := h2.2 (by decide)
  obtain ⟨w, -, -, -, h4, h5, -, h6, -⟩ := h3 hb
  exact ⟨hs, hc, hn, s1, h1, hb, w, h4, h5, h6⟩

/-! ## Spare-thread reservation -/

theorem non_spare_step (s s1 : State) (a : Action) (hI : Inv s) (hb : s.busy < NR_WTHREADS s)
    (ha : a.non_spare = true) (h : step s a = some s1) : s1.busy < NR_WTHREADS s1 := by
  cases a with
  | start rfp func m use_spare =>
    simp only [Action.non_spare, Bool.not_eq_true'] at ha
    simp only [step] at h
    split at h
    · rename_i hlt
      cases hs : worker_start s rfp func m use_spare with
      | error e => rw [hs] at h; cases h
      | ok s2 =>
        rw [hs] at h
        injection h with h
        subst h
        exact (inv_worker_start s s2 rfp func m use_spare hI hlt hs).2 ha hb
    · cases h
  | allow al =>
    simp only [step] at h
    cases hs : worker_allow s al with
    | error e => rw [hs] at h; cases h
    | ok s2 =>
      rw [hs] at h
      injection h with h
      subst h
      exact (inv_worker_allow s s2 al hI hs).2 hb
  | claim w =>
    simp only [step] at h
    split at h
    · rename_i hlt
      split at h
      · rename_i s2 hs
        injection h with h
        subst h
        exact (inv_claim s s2 w hI hlt hs).2
      · cases h
    · cases h
  | cycle w =>
    simp only [step] at h
    split at h
    · cases hs : worker_main_body s w with
      | error e => rw [hs] at h; cases h
      | ok s2 =>
        rw [hs] at h
        injection h with h
        subst h
        obtain ⟨-, h1, h2⟩ := inv_cycle s s2 w hI hs
        omega
    · cases h
  | normal w =>
    simp only [step] at h
    split at h
    · cases hfp : (get_worker s w).w_fp with
      | none => rw [hfp] at h; cases h
      | some fp =>
        rw [hfp] at h
        injection h with h
        subst h
        obtain ⟨-, -, h1, h2⟩ := inv_main_normal { s with self := some w, fp := some fp } w fp
          (inv_congr s _ hI rfl rfl rfl rfl)
        rw [h1, h2]
        exact hb
    · cases h
  | postponed w =>
    simp only [step] at h
    split at h
    · cases hfp : (get_worker s w).w_fp with
      | none => rw [hfp] at h; cases h
      | some fp =>
        rw [hfp] at h
        injection h with h
        subst h
        obtain ⟨-, -, h1, h2⟩ := inv_main_postponed { s with self := some w, fp := some fp } w fp
          (inv_congr s _ hI rfl rfl rfl rfl)
        rw [h1, h2]
        exact hb
    · cases h
  | unbind w =>
    simp only [step] at h
    split at h
    · cases hfp : (get_worker s w).w_fp with
      | none => rw [hfp] at h; cases h
      | some fp =>
        rw [hfp] at h
        simp only at h
        cases hs : worker_main_unbind { s with self := some w, fp := some fp } w fp with
        | error e => rw [hs] at h; cases h
        | ok s2 =>
          rw [hs] at h
          injection h with h
          subst h
          obtain ⟨-, h1, h2⟩ := inv_main_unbind { s with self := some w, fp := some fp } s2 w fp
            (inv_congr s _ hI rfl rfl rfl rfl) hfp hs
          have h3 : NR_WTHREADS { s with self := some w, fp := some fp } = NR_WTHREADS s := rfl
          have h4 : ({ s with self := some w, fp := some fp } : State).busy = s.busy := rfl
          omega
    · cases h

theorem non_spare_run (acts : List Action) (s s1 : State) (hI : Inv s)
    (hb : s.busy < NR_WTHREADS s) (ha : ∀ a ∈ acts, a.non_spare = true)
    (h : run s acts = some s1) : Inv s1 ∧ s1.busy < NR_WTHREADS s1 := by
  induction acts generalizing s with
  | nil =>
    rw [run] at h
    injection h with h
    subst h
    exact ⟨hI, hb⟩
  | cons a rest ih =>
    rw [run] at h
    cases hs : step s a with
    | none => rw [hs] at h; cases h
    | some s2 =>
      rw [hs] at h
      exact ih s2 (inv_step s s2 a hI hs)
        (non_spare_step s s2 a hI hb (ha a (List.mem_cons_self _ _)) hs)
        (fun b hb2 => ha b (List.mem_cons_of_mem _ hb2)) h

/-- A successful `worker_start` writes the process table only at the entry of
its process, and leaves the admission flag alone. -/
theorem worker_start_frame (s s1 : State) (rfp : Nat) (func : Option Nat) (m : message)
    (use_spare : Bool) (h : worker_start s rfp func m use_spare = .ok s1) :
    (∃ v, s1.fproc = s.fproc.set rfp v) ∧ s1.block_all = s.block_all := by
  obtain ⟨v, hF, -, -, -, -, -, hbl, -⟩ := worker_start_save_fields s rfp func m
  unfold worker_start at h
  simp only at h
  split at h
  · cases h
  · split at h
    · rcases worker_try_activate_cases (worker_start_save s rfp func m) rfp use_spare with hc | hc
      · rw [hc] at h
        obtain ⟨hF1, -, -, -, hbl1, -⟩ := worker_assign_fields _ s1 rfp h
        exact ⟨⟨_, by rw [hF1, hF, List.set_set]⟩, by rw [hbl1, hbl]⟩
      · rw [hc] at h
        injection h with h
        subst h
        refine ⟨⟨{ get_fproc (worker_start_save s rfp func m) rfp with
            fp_flags := set_flag (get_fproc (worker_start_save s rfp func m) rfp).fp_flags
              FP_PENDING }, ?_⟩, hbl⟩
        simp only [set_fproc, hF, List.set_set]
    · injection h with h
      subst h
      exact ⟨⟨v, hF⟩, hbl⟩

theorem get_fproc_frame (s s1 : State) (rfp q : Nat) (hq : q ≠ rfp)
    (h : ∃ v, s1.fproc = s.fproc.set rfp v) : get_fproc s1 q = get_fproc s q := by
  obtain ⟨v, hF⟩ := h
  rw [get_fproc_of_set s s1 rfp q v hF]
  simp [Ne.symm hq]

theorem find_free_worker_activated (si s : State) (done : List Nat) (hA : activated si s done)
    (hroom : done.length < NR_WTHREADS s) : find_free_worker s = done.length := by
  obtain ⟨hI, -, -, hb, -, -, hw, -⟩ := hA
  obtain ⟨f1, f2, f3⟩ := find_free_worker_spec s (by rw [← hI.2.1.2, hb]; exact hroom)
  rw [hw] at f2
  have h1 : done.length ≤ find_free_worker s := by
    by_contra hlt
    rw [List.getElem?_eq_getElem (by omega)] at f2
    cases f2
  by_contra hne
  have := f3 done.length (by omega)
  rw [hw, List.getElem?_eq_none (Nat.le_refl _)] at this
  exact this rfl

/-- While two workers are idle, a submission without spare permission on an
idle process is activated on the next worker. -/
theorem activated_step (si s : State) (done : List Nat) (p : Nat) (func : Option Nat)
    (m : message) (hA : activated si s done) (hp : p ∉ done) (hlt : p < NR_PROCS s)
    (hnw : no_work si p) (hroom : done.length + 2 ≤ NR_WTHREADS s) :
    ∃ s1, worker_start s p func m false = .ok s1 ∧ activated si s1 (done ++ [p]) := by
  have hk := find_free_worker_activated si s done hA (by omega)
  obtain ⟨hI, hpd, hbl, hb, hNW, hNP, hw, hfr⟩ := hA
  have hnw2 : no_work s p := by unfold no_work; rw [hfr p hp]; exact hnw
  have hble := inv_busy_le s hI
  have hav := worker_available_eq s hI.1.1 hble
  obtain ⟨v, hF0, -, -, hW0, hp0, hb0, hbl0, -⟩ := worker_start_save_fields s p func m
  have hst := worker_start_of_no_work s p func m false hnw2
  have hcond : (if false = true then (1 : Int) else 2)
        ≤ worker_available (worker_start_save s p func m) ∧
      ((worker_start_save s p func m).block_all = false ∨ false = true) := by
    rw [worker_available_save, hav, hbl0, hb]
    refine ⟨?_, Or.inl hbl⟩
    simp only [Bool.false_eq_true, if_false]
    omega
  rw [worker_try_activate_assign _ p false hcond] at hst
  obtain ⟨s1, h1⟩ := worker_assign_isOk (worker_start_save s p func m) p
    (by simp only [NR_WTHREADS, hW0] at hroom ⊢; omega)
  rw [h1] at hst
  obtain ⟨hF1, hW1, hb1, hp1, hbl1, -⟩ := worker_assign_fields _ s1 p h1
  rw [find_free_worker_save, hk] at hW1
  have hInv := (inv_worker_start s s1 p func m false hI hlt hst).1
  refine ⟨s1, hst, hInv, by rw [hp1, hp0, hpd], by rw [hbl1, hbl0, hbl], ?_, ?_, ?_, ?_, ?_⟩
  · have := hI.1.1
    rw [hb1, hb0, hb, uint_inc, List.length_append, List.length_singleton]
    omega
  · rw [← hNW]; simp [NR_WTHREADS, hW1, hW0]
  · rw [← hNP]; simp [NR_PROCS, hF1, hF0]
  · intro j
    rw [get_worker_of_set _ s1 _ j _ hW1]
    by_cases hj : done.length = j
    · subst hj
      rw [if_pos ⟨rfl, by simp only [NR_WTHREADS, hW0] at hroom ⊢; omega⟩]
      simp
    · rw [if_neg (fun hc => hj hc.1), get_worker_save, hw]
      by_cases hj2 : j < done.length
      · rw [List.getElem?_append_left hj2]
      · rw [List.getElem?_eq_none (by omega), List.getElem?_eq_none (by simp; omega)]
  · intro q hq
    simp only [List.mem_append, List.mem_singleton, not_or] at hq
    have hfrm := (worker_start_frame s s1 p func m false hst).1
    rw [get_fproc_frame s s1 p q hq.2 hfrm]
    exact hfr q hq.1

/-- With a single idle worker left, a submission without spare permission on
an idle process is flagged pending and no worker is bound. -/
theorem activated_last (si s : State) (done : List Nat) (p : Nat) (func : Option Nat)
    (m : message) (hA : activated si s done) (hp : p ∉ done) (hlt : p < NR_PROCS s)
    (hnw : no_work si p) (hfull : done.length + 1 = NR_WTHREADS s) :
    ∃ s1, worker_start s p func m false = .ok s1 ∧
      has_flag (get_fproc s1 p).fp_flags FP_PENDING = true ∧ (get_fproc s1 p).fp_worker = none ∧
      s1.workers = s.workers ∧ ∀ q, q ≠ p → get_fproc s1 q = get_fproc s q := by
  obtain ⟨hI, hpd, hbl, hb, hNW, hNP, hw, hfr⟩ := hA
  have hnw2 : no_work s p := by unfold no_work; rw [hfr p hp]; exact hnw
  have hav := worker_available_eq s hI.1.1 (inv_busy_le s hI)
  obtain ⟨s1, h1, h5, hnone, h6, -⟩ := worker_start_pend s p func m false hlt hnw2
    (by
      intro hc
      have := hc.1
      rw [hav] at this
      simp only [Bool.false_eq_true, if_false] at this
      omega)
  refine ⟨s1, h1, h5, hnone, h6, ?_⟩
  intro q hq
  exact get_fproc_frame s s1 p q hq (worker_start_frame s s1 p func m false h1).1

theorem run_append (a b : List Action) (s : State) :
    run s (a ++ b) = (run s a).bind (fun s1 => run s1 b) := by
  induction a generalizing s with
  | nil => rfl
  | cons x xs ih =>
    simp only [List.cons_append, run]
    cases step s x with
    | none => rfl
    | some s2 => exact ih s2

theorem step_submit (s s1 : State) (r : Nat × Option Nat × message) (hlt : r.1 < NR_PROCS s)
    (h : worker_start s r.1 r.2.1 r.2.2 false = .ok s1) : step s (submit r) = some s1 := by
  simp only [submit, step, hlt, if_true, h]

/-- Submissions without spare permission on distinct idle processes are all
activated, in order, as long as they leave one worker idle. -/
theorem activated_run (si : State) (reqs : List (Nat × Option Nat × message)) (done : List Nat)
    (s : State) (hA : activated si s done)
    (hnd : (done ++ reqs.map (fun r => r.1)).Nodup)
    (hr : ∀ r ∈ reqs, r.1 < NR_PROCS si ∧ no_work si r.1)
    (hroom : done.length + reqs.length + 1 ≤ NR_WTHREADS si) :
    ∃ s1, run s (reqs.map submit) = some s1 ∧ activated si s1 (done ++ reqs.map (fun r => r.1)) := by
  induction reqs generalizing done s with
  | nil => exact ⟨s, rfl, by simpa using hA⟩
  | cons r rest ih =>
    have hmem := hr r (List.mem_cons_self _ _)
    have hp : r.1 ∉ done := by
      intro hin
      have := List.disjoint_of_nodup_append hnd hin
      exact this (by simp)
    have hNP : NR_PROCS s = NR_PROCS si := hA.2.2.2.2.2.1
    have hNW : NR_WTHREADS s = NR_WTHREADS si := hA.2.2.2.2.1
    obtain ⟨s2, h2, hA2⟩ := activated_step si s done r.1 r.2.1 r.2.2 hA hp
      (by rw [hNP]; exact hmem.1) hmem.2
      (by rw [hNW]; simp only [List.length_cons] at hroom; omega)
    obtain ⟨s3, h3, hA3⟩ := ih (done ++ [r.1]) s2 hA2
      (by simpa [List.append_assoc] using hnd)
      (fun x hx => hr x (List.mem_cons_of_mem _ hx))
      (by
        simp only [List.length_cons, List.length_append, List.length_singleton,
          List.length_nil] at hroom ⊢
        omega)
    refine ⟨s3, ?_, by simpa [List.append_assoc] using hA3⟩
    simp only [List.map_cons, run]
    rw [step_submit s s2 r (by rw [hNP]; exact hmem.1) h2]
    exact h3

theorem activated_init (s0 : State) (hs : sizes_ok s0) (h0 : fproc_unscheduled s0) :
    activated (worker_init s0) (worker_init s0) [] := by
  refine ⟨inv_init s0 hs h0, rfl, rfl, rfl, rfl, rfl, ?_, fun _ _ => rfl⟩
  intro j
  simp only [get_worker, worker_init, List.getD_eq_getElem?_getD, List.getElem?_map]
  cases s0.workers[j]? <;> rfl

/-- C4. Spare-thread reservation: in every execution from the initial state
of a pool with at least one worker that consists only of `worker_start`
calls with `use_spare = FALSE`, `worker_allow` calls, claims of pending work
by idle workers and completed worker cycles (taken whole or in their three
parts), `worker_available() >= 1` and some worker has `w_fp == NULL` in every
state reached. In particular, from
the all-idle pool with admission enabled, `NR_WTHREADS` submissions without
spare permission on distinct idle processes, with no completion in between,
all return normally, bind the `i`-th of the first `NR_WTHREADS - 1`
processes to worker `i`, and leave the last one flagged FP_PENDING with no
worker bound. -/
theorem spare_reservation (s0 : State) (hs : sizes_ok s0) (h0 : fproc_unscheduled s0)
    (hN : 1 ≤ NR_WTHREADS s0) :
    (∀ acts s, (∀ a ∈ acts, Action.non_spare a = true) → run (worker_init s0) acts = some s →
      1 ≤ worker_available s ∧ ∃ w, w < NR_WTHREADS s ∧ (get_worker s w).w_fp = none) ∧
    (∀ (front : List (Nat × Option Nat × message)) (last : Nat × Option Nat × message),
      front.length + 1 = NR_WTHREADS s0 →
      ((front ++ [last]).map (fun r => r.1)).Nodup →
      (∀ r ∈ front ++ [last], r.1 < NR_PROCS s0 ∧ no_work s0 r.1) →
      ∃ s, run (worker_init s0) ((front ++ [last]).map submit) = some s ∧
        (∀ (i : Nat) (r : Nat × Option Nat × message), front[i]? = some r →
          (get_fproc s r.1).fp_worker = some i ∧ (get_worker s i).w_fp = some r.1 ∧
            has_flag (get_fproc s r.1).fp_flags FP_PENDING = false) ∧
        has_flag (get_fproc s last.1).fp_flags FP_PENDING = true ∧
        (get_fproc s last.1).fp_worker = none ∧
        (∀ w, (get_worker s w).w_fp ≠ some last.1)) := by
  have hI0 := inv_init s0 hs h0
  have hNW0 : NR_WTHREADS (worker_init s0) = NR_WTHREADS s0 := by simp [NR_WTHREADS, worker_init]
  constructor
  · intro acts s ha h
    obtain ⟨hI, hb⟩ := non_spare_run acts _ s hI0 (by rw [hNW0]; exact hN) ha h
    rw [worker_available_eq s hI.1.1 (inv_busy_le s hI)]
    refine ⟨by omega, ?_⟩
    obtain ⟨f1, f2, -⟩ := find_free_worker_spec s (by rw [← hI.2.1.2]; exact hb)
    exact ⟨_, f1, f2⟩
  · intro front last hlen hnd hr
    have hnd2 : ([] ++ front.map (fun (r : Nat × Option Nat × message) => r.1)).Nodup := by
      rw [List.map_append] at hnd
      simpa using (List.Nodup.of_append_left hnd)
    obtain ⟨s1, h1, hA1⟩ := activated_run (worker_init s0) front [] (worker_init s0)
      (activated_init s0 hs h0) hnd2
      (fun r hr2 => hr r (List.mem_append_left _ hr2))
      (by rw [hNW0]; simp only [List.length_nil]; omega)
    simp only [List.nil_append] at hA1
    have hlast := hr last (by simp)
    have hpl : last.1 ∉ front.map (fun (r : Nat × Option Nat × message) => r.1) := by
      rw [List.map_append] at hnd
      intro hin
      exact List.disjoint_of_nodup_append hnd hin (by simp)
    have hA1c := hA1
    obtain ⟨hI1, -, -, -, hNW1, hNP1, hw1, hfr1⟩ := hA1
    obtain ⟨s2, h2, h3, h4, h5, h6⟩ := activated_last (worker_init s0) s1
      (front.map (fun r => r.1)) last.1 last.2.1 last.2.2 hA1c hpl
      (by rw [hNP1]; exact hlast.1) hlast.2
      (by rw [hNW1, hNW0, List.length_map]; exact hlen)
    have hgw : ∀ w, get_worker s2 w = get_worker s1 w := by
      intro w; simp only [get_worker, h5]
    refine ⟨s2, ?_, ?_, h3, h4, ?_⟩
    · rw [List.map_append, run_append, h1]
      simp only [Option.bind, List.map_cons, List.map_nil, run]
      rw [step_submit s1 s2 last (by rw [hNP1]; exact hlast.1) h2]
    · intro i r hir
      have hwi : (get_worker s1 i).w_fp = some r.1 := by
        rw [hw1 i, List.getElem?_map, hir]; rfl
      have hne : r.1 ≠ last.1 := by
        intro he
        apply hpl
        rw [← he]
        exact List.mem_map.2 ⟨r, List.getElem?_mem hir, rfl⟩
      have hfi : (get_fproc s1 r.1).fp_worker = some i := (hI1.2.2.1 r.1 i).2 hwi
      rw [h6 r.1 hne, hgw i]
      refine ⟨hfi, hwi, ?_⟩
      by_contra hfl
      exact hI1.2.2.2 r.1 ⟨by simpa using hfl, by rw [hfi]; simp⟩
    · intro w hw
      rw [hgw w, hw1 w] at hw
      exact hpl (List.getElem?_mem hw)

theorem no_work_pool (n m p : Nat) : no_work (pool n m) p := by
  unfold no_work
  rw [get_fproc_pool]
  exact ⟨rfl, rfl, rfl, rfl⟩

theorem spare_reservation_witness :
    sizes_ok (pool 3 4) ∧ fproc_unscheduled (pool 3 4) ∧ 1 ≤ NR_WTHREADS (pool 3 4) ∧
    1 ≤ worker_available (run_end (worker_init (pool 3 4)) demo_acts) ∧
    ∃ s, run (worker_init (pool 3 4))
        (([(3, some 7, msg0), (0, none, msg0)] ++ [(2, some 9, msg0)]).map submit) = some s ∧
      (∀ (i : Nat) (r : Nat × Option Nat × message),
        [(3, some 7, msg0), (0, none, msg0)][i]? = some r →
          (get_fproc s r.1).fp_worker = some i ∧ (get_worker s i).w_fp = some r.1 ∧
            has_flag (get_fproc s r.1).fp_flags FP_PENDING = false) ∧
      has_flag (get_fproc s 2).fp_flags FP_PENDING = true ∧
      (get_fproc s 2).fp_worker = none ∧
      (∀ w, (get_worker s w).w_fp ≠ some 2) :=
  ⟨by unfold sizes_ok; decide, fproc_unscheduled_pool 3 4, by decide,
    ((spare_reservation (pool 3 4) (by unfold sizes_ok; decide) (fproc_unscheduled_pool 3 4)
      (by decide)).1 demo_acts (run_end (worker_init (pool 3 4)) demo_acts)
      (by decide) (by decide)).1,
    (spare_reservation (pool 3 4) (by unfold sizes_ok; decide) (fproc_unscheduled_pool 3 4)
      (by decide)).2 [(3, some 7, msg0), (0, none, msg0)] (2, some 9, msg0)
      (by decide) (by decide)
      (fun r hr => ⟨by
        simp only [List.cons_append, List.nil_append, List.mem_cons, List.mem_singleton,
          List.not_mem_nil, or_false] at hr
        rcases hr with rfl | rfl | rfl <;> decide, no_work_pool 3 4 r.1⟩)⟩

/-! ## Admission gating -/

theorem worker_assign_loop_lt (ws : List worker_thread) (i : Nat) (h : 0 < ws.length) :
    i ≤ worker_assign_loop ws i ∧ worker_assign_loop ws i < i + ws.length := by
  induction ws generalizing i with
  | nil => simp at h
  | cons x xs ih =>
    rw [worker_assign_loop]
    by_cases hx : x.w_fp = none
    · rw [if_pos hx]; simp
    · rw [if_neg hx]
      cases xs with
      | nil => simp [worker_assign_loop]
      | cons y ys =>
        have := ih (i + 1) (by simp)
        simp only [List.length_cons] at this ⊢
        omega

theorem find_free_worker_lt (s : State) (h : 0 < NR_WTHREADS s) :
    find_free_worker s < NR_WTHREADS s := by
  have := (worker_assign_loop_lt s.workers 0 h).2
  simpa [find_free_worker, NR_WTHREADS] using this

/-- C5, the part that holds as stated and the part that holds as amended.
With `block_all` true, in every pool state, `worker_start` on a process of the
table with no pending, active or stored work: with `use_spare = FALSE` it
flags the process FP_PENDING, binds no worker and leaves every worker
unchanged; with `use_spare = TRUE` it is activated at once when
`worker_available() >= 1` in a pool with at least one worker (a worker is
bound to the process, both ways, and FP_PENDING is not set), and when
`worker_available() < 1` it is flagged FP_PENDING like any other work, with
no worker bound. -/
theorem admission_gating (s : State) (rfp : Nat) (func : Option Nat) (m : message)
    (hb : s.block_all = true) (hlt : rfp < NR_PROCS s) (hn : no_work s rfp) :
    (∃ s1, worker_start s rfp func m false = .ok s1 ∧
      has_flag (get_fproc s1 rfp).fp_flags FP_PENDING = true ∧
      (get_fproc s1 rfp).fp_worker = none ∧ s1.workers = s.workers) ∧
    (1 ≤ worker_available s → 0 < NR_WTHREADS s →
      ∃ s1, worker_start s rfp func m true = .ok s1 ∧
        has_flag (get_fproc s1 rfp).fp_flags FP_PENDING = false ∧
        ∃ w, w < NR_WTHREADS s ∧ (get_fproc s1 rfp).fp_worker = some w ∧
          (get_worker s1 w).w_fp = some rfp) ∧
    (worker_available s < 1 →
      ∃ s1, worker_start s rfp func m true = .ok s1 ∧
        has_flag (get_fproc s1 rfp).fp_flags FP_PENDING = true ∧
        (get_fproc s1 rfp).fp_worker = none ∧ s1.workers = s.workers) := by
  have hg := get_fproc_save s rfp func m
  obtain ⟨v, hF0, -, -, hW0, hp0, hb0, hbl0, -⟩ := worker_start_save_fields s rfp func m
  have hpend : ∀ us, ¬ ((if us = true then (1 : Int) else 2) ≤ worker_available s ∧
      (s.block_all = false ∨ us = true)) →
      ∃ s1, worker_start s rfp func m us = .ok s1 ∧
        has_flag (get_fproc s1 rfp).fp_flags FP_PENDING = true ∧
        (get_fproc s1 rfp).fp_worker = none ∧ s1.workers = s.workers := by
    intro us hc
    obtain ⟨s1, h1, h2, h3, h4, -⟩ := worker_start_pend s rfp func m us hlt hn hc
    exact ⟨s1, h1, h2, h3, h4⟩
  refine ⟨hpend false (by simp [hb]), ?_, ?_⟩
  · intro hav hN
    rw [worker_start_of_no_work s rfp func m true hn]
    rw [worker_try_activate_assign _ rfp true
      (by rw [worker_available_save]; exact ⟨by simpa using hav, Or.inr rfl⟩)]
    obtain ⟨s1, h1⟩ := worker_assign_isOk (worker_start_save s rfp func m) rfp
      (by simpa [NR_WTHREADS, hW0] using hN)
    have hw := find_free_worker_lt s hN
    obtain ⟨b1, b2, b3⟩ := worker_assign_binding _ s1 rfp (by rw [NR_PROCS_save]; exact hlt)
      (by rw [find_free_worker_save]; simpa [NR_WTHREADS, hW0] using hw) h1
    rw [find_free_worker_save] at b1 b3
    refine ⟨s1, h1, ?_, find_free_worker s, hw, b1, b3⟩
    rw [b2, hg.2]; exact hn.1
  · intro hav
    apply hpend true
    intro hc
    have := hc.1
    simp only [if_true] at this
    omega

theorem admission_gating_witness :
    (gated_idle.block_all = true ∧ 1 < NR_PROCS gated_idle ∧ no_work gated_idle 1 ∧
      1 ≤ worker_available gated_idle ∧ 0 < NR_WTHREADS gated_idle ∧
      ∃ s1, worker_start gated_idle 1 (some 5) msg0 true = .ok s1 ∧
        has_flag (get_fproc s1 1).fp_flags FP_PENDING = false ∧
        ∃ w, w < NR_WTHREADS gated_idle ∧ (get_fproc s1 1).fp_worker = some w ∧
          (get_worker s1 w).w_fp = some 1) ∧
    (gated_full.block_all = true ∧ 1 < NR_PROCS gated_full ∧ no_work gated_full 1 ∧
      worker_available gated_full < 1 ∧
      ∃ s1, worker_start gated_full 1 (some 5) msg0 true = .ok s1 ∧
        has_flag (get_fproc s1 1).fp_flags FP_PENDING = true ∧
        (get_fproc s1 1).fp_worker = none ∧ s1.workers = gated_full.workers) :=
  ⟨⟨by decide, by decide, by unfold no_work; decide, by decide, by decide,
      (admission_gating gated_idle 1 (some 5) msg0 (by decide) (by decide)
        (by unfold no_work; decide)).2.1 (by decide) (by decide)⟩,
    ⟨by decide, by decide, by unfold no_work; decide, by decide,
      (admission_gating gated_full 1 (some 5) msg0 (by decide) (by decide)
        (by unfold no_work; decide)).2.2 (by decide)⟩⟩

/-- C5, the claim as stated fails: in a pool whose only worker is busy and
whose admission is disabled, `worker_start` with `use_spare = TRUE` on an
idle process returns normally with the process flagged FP_PENDING and no
worker bound to it. -/
theorem admission_gating_counterexample :
    gated_full.block_all = true ∧ no_work gated_full 1 ∧
    worker_start gated_full 1 (some 5) msg0 true
      = .ok (Result.state (worker_start gated_full 1 (some 5) msg0 true)) ∧
    has_flag (get_fproc (Result.state (worker_start gated_full 1 (some 5) msg0 true)) 1).fp_flags
      FP_PENDING = true ∧
    (get_fproc (Result.state (worker_start gated_full 1 (some 5) msg0 true)) 1).fp_worker = none :=
  ⟨by decide, by unfold no_work; decide, by rfl, by decide, by decide⟩

/-! ## Draining the pending work -/

theorem worker_assign_loop_eq (ws : List worker_thread) (i k : Nat) (hk : k < ws.length)
    (hlow : ∀ j, j < k → (ws.getD j default).w_fp ≠ none)
    (hfree : (ws.getD k default).w_fp = none) : worker_assign_loop ws i = i + k := by
  induction ws generalizing i k with
  | nil => simp at hk
  | cons x xs ih =>
    rw [worker_assign_loop]
    cases k with
    | zero =>
      rw [if_pos (by simpa using hfree)]
      rfl
    | succ n =>
      have hx : x.w_fp ≠ none := by simpa using hlow 0 (by omega)
      rw [if_neg hx]
      have := ih (i + 1) n (by simpa using hk)
        (fun j hj => by simpa using hlow (j + 1) (by omega)) (by simpa using hfree)
      omega

theorem find_free_worker_eq (s : State) (k : Nat) (hk : k < NR_WTHREADS s)
    (hlow : ∀ j, j < k → (get_worker s j).w_fp ≠ none)
    (hfree : (get_worker s k).w_fp = none) : find_free_worker s = k := by
  have := worker_assign_loop_eq s.workers 0 k hk hlow hfree
  simpa [find_free_worker] using this

/-- One round of the scan of `worker_allow` on a pending process, when worker
`k` is the lowest free one: the process is unflagged and uncounted, bound to
worker `k`, and nothing else changes. -/
theorem drain_round (s : State) (rfp k : Nat) (hlt : rfp < NR_PROCS s)
    (hk : k < NR_WTHREADS s) (hN : NR_WTHREADS s < 2147483648)
    (hlow : ∀ j, j < k → (get_worker s j).w_fp ≠ none)
    (hfree : (get_worker s k).w_fp = none)
    (hpos : 0 < s.pending) (hpb : s.pending < 4294967296) (hb : s.busy = k) :
    ∃ s3, worker_assign (unpend s rfp) rfp = .ok s3 ∧ s3.pending + 1 = s.pending ∧
      s3.busy = k + 1 ∧ s3.block_all = s.block_all ∧ NR_WTHREADS s3 = NR_WTHREADS s ∧
      NR_PROCS s3 = NR_PROCS s ∧
      (get_fproc s3 rfp).fp_worker = some k ∧ is_pending s3 rfp = false ∧
      (∀ q, q ≠ rfp → get_fproc s3 q = get_fproc s q) ∧
      (get_worker s3 k).w_fp = some rfp ∧
      (∀ j, j ≠ k → get_worker s3 j = get_worker s j) := by
  have hk2 : find_free_worker (unpend s rfp) = k := find_free_worker_eq _ k hk hlow hfree
  obtain ⟨s3, h3⟩ := worker_assign_isOk (unpend s rfp) rfp
    (show 0 < NR_WTHREADS s by omega)
  obtain ⟨hF, hW, hbz, hp, hbl, -⟩ := worker_assign_fields _ s3 rfp h3
  rw [hk2] at hF hW
  have hlt2 : rfp < NR_PROCS (unpend s rfp) := by simpa [NR_PROCS, unpend, set_fproc] using hlt
  have hgu := get_fproc_unpend s rfp hlt
  refine ⟨s3, h3, ?_, ?_, hbl, ?_, ?_, ?_, ?_, ?_, ?_, ?_⟩
  · rw [hp]
    show uint_dec s.pending + 1 = s.pending
    unfold uint_dec
    omega
  · rw [hbz]
    show uint_inc s.busy = k + 1
    unfold uint_inc
    omega
  · simp [NR_WTHREADS, hW, unpend, set_fproc]
  · simp [NR_PROCS, hF, unpend, set_fproc]
  · rw [get_fproc_of_set _ s3 rfp rfp _ hF]
    simp [hlt2]
  · unfold is_pending
    rw [get_fproc_of_set _ s3 rfp rfp _ hF]
    simp only [hlt2, and_self, if_true, hgu]
    exact has_flag_clear_self _ _
  · intro q hq
    rw [get_fproc_of_set _ s3 rfp q _ hF, if_neg (fun hc => hq hc.1.symm)]
    rw [get_fproc_of_set s (unpend s rfp) rfp q _ rfl, if_neg (fun hc => hq hc.1.symm)]
  · rw [get_worker_of_set _ s3 k k _ hW]
    rw [if_pos ⟨rfl, hk⟩]
  · intro j hj
    rw [get_worker_of_set _ s3 k j _ hW, if_neg (fun hc => hj hc.1.symm)]
    rfl

theorem worker_allow_loop_cons_pending (s : State) (rfp : Nat) (rest : List Nat)
    (hp : is_pending s rfp = true) (hpos : 0 < s.pending) :
    worker_allow_loop s (rfp :: rest)
      = match worker_assign (unpend s rfp) rfp with
        | Except.error e => (Except.error e : Result)
        | Except.ok s3 => if (!worker_may_do_pending s3) = true then Except.ok s3
            else worker_allow_loop s3 rest := by
  rw [worker_allow_loop]
  rw [if_pos (show has_flag (get_fproc s rfp).fp_flags FP_PENDING = true from hp)]
  simp only [set_fproc]
  rw [if_neg (by omega)]
  rfl

theorem worker_allow_loop_cons_skip (s : State) (rfp : Nat) (rest : List Nat)
    (hp : is_pending s rfp = false) :
    worker_allow_loop s (rfp :: rest) = worker_allow_loop s rest := by
  rw [worker_allow_loop]
  rw [if_neg (by unfold is_pending at hp; simp [hp])]

/-- The scan of `worker_allow`, started with workers `0..k-1` busy and the
others idle, with enough idle workers for all the pending processes of the
remaining slots `l` and one to spare: it binds the `i`-th pending process of
`l` to worker `k + i` and leaves everything else as it was. -/
theorem drain_loop (l : List Nat) (s : State) (k : Nat)
    (hnd : l.Nodup) (hlt : ∀ p ∈ l, p < NR_PROCS s) (hN : NR_WTHREADS s < 2147483648)
    (hbusy : s.busy = k)
    (hlow : ∀ j, j < k → (get_worker s j).w_fp ≠ none)
    (hhigh : ∀ j, k ≤ j → (get_worker s j).w_fp = none)
    (hpend : s.pending = (l.filter (is_pending s)).length)
    (hroom : k + s.pending + 1 ≤ NR_WTHREADS s) (hbl : s.block_all = false) :
    ∃ s1, worker_allow_loop s l = .ok s1 ∧ s1.pending = 0 ∧ s1.busy = k + s.pending ∧
      NR_WTHREADS s1 = NR_WTHREADS s ∧ NR_PROCS s1 = NR_PROCS s ∧
      (∀ (i p : Nat), (l.filter (is_pending s))[i]? = some p →
        (get_fproc s1 p).fp_worker = some (k + i) ∧ (get_worker s1 (k + i)).w_fp = some p ∧
          is_pending s1 p = false) ∧
      (∀ q, q ∉ l.filter (is_pending s) → get_fproc s1 q = get_fproc s q) ∧
      (∀ j, j < k → get_worker s1 j = get_worker s j) ∧
      (∀ j, k + s.pending ≤ j → get_worker s1 j = get_worker s j) ∧
      s1.block_all = s.block_all := by
  induction l generalizing s k with
  | nil =>
    have h0 : s.pending = 0 := by simpa using hpend
    refine ⟨s, rfl, h0, by omega, rfl, rfl, ?_, fun _ _ => rfl, fun _ _ => rfl, fun _ _ => rfl,
      rfl⟩
    intro i p hip
    simp at hip
  | cons rfp rest ih =>
    obtain ⟨hnotin, hnd2⟩ := List.nodup_cons.1 hnd
    by_cases hp : is_pending s rfp = true
    · have hfil : (rfp :: rest).filter (is_pending s) = rfp :: rest.filter (is_pending s) := by
        rw [List.filter_cons, if_pos hp]
      rw [hfil] at hpend ⊢
      simp only [List.length_cons] at hpend
      obtain ⟨s3, h3, r1, r2, r3, r4, r5, r6, r7, r8, r9, r10⟩ := drain_round s rfp k
        (hlt rfp (List.mem_cons_self _ _)) (by omega) hN hlow (hhigh k (Nat.le_refl k))
        (by omega) (by omega) hbusy
      rw [worker_allow_loop_cons_pending s rfp rest hp (by omega), h3]
      simp only
      have hfc : rest.filter (is_pending s3) = rest.filter (is_pending s) := by
        apply List.filter_congr
        intro q hq
        unfold is_pending
        rw [r8 q (fun hc => hnotin (hc ▸ hq))]
      by_cases hc : s3.pending = 0
      · have hm : worker_may_do_pending s3 = false := by
          simp [worker_may_do_pending, hc]
        rw [hm]
        simp only [Bool.not_false, if_true]
        have hnil : rest.filter (is_pending s) = [] :=
          List.eq_nil_of_length_eq_zero (by omega)
        refine ⟨s3, rfl, hc, by omega, r4, r5, ?_, ?_, ?_, ?_, r3⟩
        · intro i p hip
          rw [hnil] at hip
          cases i with
          | zero =>
            simp only [List.getElem?_cons_zero, Option.some.injEq] at hip
            subst hip
            exact ⟨r6, r9, r7⟩
          | succ n => simp at hip
        · intro q hq
          exact r8 q (fun hc2 => hq (by rw [hc2]; exact List.mem_cons_self _ _))
        · intro j hj
          exact r10 j (by omega)
        · intro j hj
          exact r10 j (by omega)
      · have hav : worker_available s3 = (NR_WTHREADS s3 : Int) - (s3.busy : Int) :=
          worker_available_eq s3 (by rw [r4]; exact hN) (by rw [r4, r2]; omega)
        have hm : worker_may_do_pending s3 = true := by
          rw [worker_may_do_pending_iff, hav, r4, r2, r3]
          refine ⟨by omega, by omega, hbl⟩
        rw [hm]
        simp only [Bool.not_true, Bool.false_eq_true, if_false]
        obtain ⟨s1, i1, i2, i3, i4, i5, i6, i7, i8, i9, i10⟩ := ih s3 (k + 1) hnd2
          (fun q hq => by rw [r5]; exact hlt q (List.mem_cons_of_mem _ hq))
          (by rw [r4]; exact hN) r2
          (fun j hj => by
            by_cases hjk : j = k
            · rw [hjk, r9]; simp
            · rw [r10 j hjk]; exact hlow j (by omega))
          (fun j hj => by rw [r10 j (by omega)]; exact hhigh j (by omega))
          (by rw [hfc]; omega)
          (by rw [r4]; omega)
          (by rw [r3]; exact hbl)
        rw [hfc] at i6 i7
        refine ⟨s1, i1, i2, by omega, by rw [i4, r4], by rw [i5, r5], ?_, ?_, ?_, ?_,
          by rw [i10, r3]⟩
        · intro i p hip
          cases i with
          | zero =>
            simp only [List.getElem?_cons_zero, Option.some.injEq] at hip
            subst hip
            have hni : rfp ∉ rest.filter (is_pending s) := fun hc2 =>
              hnotin (List.mem_of_mem_filter hc2)
            have hg := i7 rfp hni
            have hgw := i8 k (by omega)
            refine ⟨by rw [hg]; exact r6, by rw [Nat.add_zero, hgw]; exact r9, ?_⟩
            unfold is_pending at r7 ⊢
            rw [hg]; exact r7
          | succ n =>
            simp only [List.getElem?_cons_succ] at hip
            have := i6 n p hip
            have he : k + 1 + n = k + (n + 1) := by omega
            rw [he] at this
            exact this
        · intro q hq
          simp only [List.mem_cons, not_or] at hq
          rw [i7 q hq.2, r8 q hq.1]
        · intro j hj
          rw [i8 j (by omega), r10 j (by omega)]
        · intro j hj
          rw [i9 j (by omega), r10 j (by omega)]
    · have hp2 : is_pending s rfp = false := by simpa using hp
      have hfil : (rfp :: rest).filter (is_pending s) = rest.filter (is_pending s) := by
        rw [List.filter_cons, if_neg hp]
      rw [hfil] at hpend ⊢
      rw [worker_allow_loop_cons_skip s rfp rest hp2]
      exact ih s k hnd2 (fun q hq => hlt q (List.mem_cons_of_mem _ hq)) hN hbusy hlow hhigh
        hpend hroom hbl

theorem countP_eq_filter_range {α : Type} (q : α → Bool) (l : List α) (d : α) :
    l.countP q = ((List.range l.length).filter (fun i => q (l.getD i d))).length := by
  induction l with
  | nil => rfl
  | cons x xs ih =>
    rw [List.length_cons, List.range_succ_eq_map, List.filter_cons, List.filter_map,
      List.countP_cons, ih]
    have hf : ((fun i => q ((x :: xs).getD i d)) ∘ Nat.succ) = fun i => q (xs.getD i d) := by
      funext i
      simp
    rw [hf]
    simp only [List.getD_cons_zero]
    by_cases hx : q x = true
    · simp [hx]
    · simp [hx]

theorem count_pending_eq_length (s : State) : count_pending s = (pending_procs s).length := by
  unfold count_pending pending_procs
  rw [countP_eq_filter_range (fun rfp => has_flag rfp.fp_flags FP_PENDING) s.fproc default]
  rfl

theorem mem_pending_procs (s : State) (p : Nat) :
    p ∈ pending_procs s ↔ is_pending s p = true := by
  unfold pending_procs
  rw [List.mem_filter, List.mem_range]
  constructor
  · exact fun h => h.2
  · exact fun h => ⟨lt_of_pending s p h, h⟩

/-- C6. Drain on re-enable: in a state where every worker is idle (`busy = 0`)
and exactly `K = pending` processes are flagged FP_PENDING, with
`K <= NR_WTHREADS - 1`, `worker_allow(TRUE)` returns normally, clears
FP_PENDING on all of them, binds the `i`-th pending process in table order
to `workers[i]` (both ways), and ends with `pending = 0` and `busy = K`;
no other process and no worker from index `K` on is changed. It holds
whether or not admission was disabled before the call. -/
theorem drain_on_reenable (s : State) (hN : NR_WTHREADS s < 2147483648)
    (hidle : ∀ w, (get_worker s w).w_fp = none) (hbusy : s.busy = 0)
    (hK : s.pending = count_pending s) (hKN : s.pending + 1 ≤ NR_WTHREADS s) :
    ∃ s1, worker_allow s true = .ok s1 ∧ s1.pending = 0 ∧ s1.busy = s.pending ∧
      s1.block_all = false ∧
      (∀ p, is_pending s1 p = false) ∧
      (∀ (i p : Nat), (pending_procs s)[i]? = some p →
        (get_fproc s1 p).fp_worker = some i ∧ (get_worker s1 i).w_fp = some p) ∧
      (∀ q, is_pending s q = false → get_fproc s1 q = get_fproc s q) ∧
      (∀ j, s.pending ≤ j → get_worker s1 j = get_worker s j) := by
  have hlen := count_pending_eq_length s
  unfold worker_allow
  simp only [Bool.not_true]
  by_cases h0 : s.pending = 0
  · have hm : worker_may_do_pending { s with block_all := false } = false := by
      simp [worker_may_do_pending, h0]
    rw [hm]
    simp only [Bool.not_false, if_true]
    have hnil : pending_procs s = [] := List.eq_nil_of_length_eq_zero (by omega)
    refine ⟨_, rfl, h0, by rw [h0]; exact hbusy, rfl, ?_, ?_, fun _ _ => rfl, fun _ _ => rfl⟩
    · intro p
      by_contra hp
      have : p ∈ pending_procs s := (mem_pending_procs s p).2 (by simpa using hp)
      rw [hnil] at this
      simp at this
    · intro i p hip
      rw [hnil] at hip
      simp at hip
  · have hav : worker_available { s with block_all := false }
        = (NR_WTHREADS s : Int) - (s.busy : Int) :=
      worker_available_eq { s with block_all := false } hN (by rw [hbusy]; exact Nat.zero_le _)
    have hm : worker_may_do_pending { s with block_all := false } = true := by
      rw [worker_may_do_pending_iff, hav, hbusy]
      refine ⟨Nat.pos_of_ne_zero h0, ?_, rfl⟩
      simp only [CharP.cast_eq_zero, sub_zero]
      omega
    rw [hm]
    simp only [Bool.not_true, Bool.false_eq_true, if_false]
    obtain ⟨s1, d1, d2, d3, d4, d5, d6, d7, d8, d9, hbl⟩ :=
      drain_loop (List.range (NR_PROCS s)) { s with block_all := false } 0
        (List.nodup_range _) (fun p hp => List.mem_range.1 hp) hN hbusy
        (fun j hj => absurd hj (Nat.not_lt_zero j)) (fun j _ => hidle j)
        (by rw [hK, hlen]; rfl) (by simpa using hKN) rfl
    simp only [Nat.zero_add] at d3 d6 d9
    refine ⟨s1, d1, d2, d3, hbl, ?_, ?_, ?_, d9⟩
    · intro p
      by_cases hp : is_pending s p = true
      · obtain ⟨i, hi⟩ := List.mem_iff_getElem?.1 ((mem_pending_procs s p).2 hp)
        exact (d6 i p hi).2.2
      · have hnot : p ∉ pending_procs s := fun hc => hp ((mem_pending_procs s p).1 hc)
        unfold is_pending
        rw [d7 p hnot]
        simpa using hp
    · intro i p hip
      exact ⟨(d6 i p hip).1, (d6 i p hip).2.1⟩
    · intro q hq
      exact d7 q (fun hc => by
        have := (mem_pending_procs s q).1 hc
        rw [hq] at this
        cases this)

theorem idle_of_forall_lt (s : State)
    (h : ∀ w, w < NR_WTHREADS s → (get_worker s w).w_fp = none) :
    ∀ w, (get_worker s w).w_fp = none := by
  intro w
  by_cases hw : w < NR_WTHREADS s
  · exact h w hw
  · rw [get_worker_of_ge s w (by omega)]
    rfl

theorem drain_on_reenable_witness :
    NR_WTHREADS gated_queue < 2147483648 ∧ gated_queue.busy = 0 ∧
    gated_queue.pending = count_pending gated_queue ∧
    gated_queue.pending + 1 ≤ NR_WTHREADS gated_queue ∧
    pending_procs gated_queue = [1, 3] ∧
    ∃ s1, worker_allow gated_queue true = .ok s1 ∧ s1.pending = 0 ∧ s1.busy = 2 ∧
      ((get_fproc s1 1).fp_worker = some 0 ∧ (get_worker s1 0).w_fp = some 1) ∧
      ((get_fproc s1 3).fp_worker = some 1 ∧ (get_worker s1 1).w_fp = some 3) := by
  obtain ⟨s1, h1, h2, h3, -, -, h5, -⟩ := drain_on_reenable gated_queue (by decide)
    (idle_of_forall_lt gated_queue (by decide)) (by decide) (by decide) (by decide)
  exact ⟨by decide, by decide, by decide, by decide, by decide, s1, h1, h2, h3,
    h5 0 1 (by decide), h5 1 3 (by decide)⟩

/-! ## Submissions on a process that is pending or active -/

/-- C7. Duplicate-work rejection: on a process that is pending or active,
`worker_start` with a non-NULL handler panics when a normal call is already
stored (`fp_func != NULL`), and `worker_start` with a NULL handler panics when
FP_PM_WORK is already set. The panic is the one for two calls (from the
process or from PM), or the one for "both pending and active" when the
process is in that state; in every case it is raised in the state of the
call, before any field is modified. -/
theorem duplicate_work_rejection (s : State) (rfp : Nat) (m : message) (use_spare : Bool)
    (hpa : is_pending s rfp = true ∨ (get_fproc s rfp).fp_worker ≠ none) :
    (∀ f, (get_fproc s rfp).fp_func ≠ none →
      worker_start s rfp (some f) m use_spare
        = .error (if is_pending s rfp = true ∧ (get_fproc s rfp).fp_worker ≠ none
            then Fatal.both_pending_and_active else Fatal.two_calls, s)) ∧
    (has_flag (get_fproc s rfp).fp_flags FP_PM_WORK = true →
      worker_start s rfp none m use_spare
        = .error (if is_pending s rfp = true ∧ (get_fproc s rfp).fp_worker ≠ none
            then Fatal.both_pending_and_active else Fatal.two_pm_calls, s)) := by
  unfold is_pending at hpa ⊢
  constructor
  · intro f hf
    cases hfn : (get_fproc s rfp).fp_func with
    | none => exact absurd hfn hf
    | some g =>
      cases hw : (get_fproc s rfp).fp_worker with
      | none =>
        rw [hw] at hpa
        have hp : has_flag (get_fproc s rfp).fp_flags FP_PENDING = true := by
          rcases hpa with h | h
          · exact h
          · exact absurd rfl h
        simp [worker_start, worker_start_checks, hfn, hw, hp]
      | some w =>
        cases hp : has_flag (get_fproc s rfp).fp_flags FP_PENDING <;>
          simp [worker_start, worker_start_checks, hfn, hw, hp]
  · intro hpm
    cases hw : (get_fproc s rfp).fp_worker with
    | none =>
      rw [hw] at hpa
      have hp : has_flag (get_fproc s rfp).fp_flags FP_PENDING = true := by
        rcases hpa with h | h
        · exact h
        · exact absurd rfl h
      simp [worker_start, worker_start_checks, hw, hp, hpm]
    | some w =>
      cases hp : has_flag (get_fproc s rfp).fp_flags FP_PENDING <;>
        simp [worker_start, worker_start_checks, hw, hp, hpm]

theorem duplicate_work_rejection_witness :
    (is_pending gated_queue 3 = true ∨ (get_fproc gated_queue 3).fp_worker ≠ none) ∧
    (get_fproc gated_queue 3).fp_func ≠ none ∧
    worker_start gated_queue 3 (some 8) msg0 false = .error (Fatal.two_calls, gated_queue) ∧
    (is_pending gated_queue 1 = true ∨ (get_fproc gated_queue 1).fp_worker ≠ none) ∧
    has_flag (get_fproc gated_queue 1).fp_flags FP_PM_WORK = true ∧
    worker_start gated_queue 1 none msg0 true = .error (Fatal.two_pm_calls, gated_queue) :=
  ⟨by decide, by decide,
    (duplicate_work_rejection gated_queue 3 msg0 false (by decide)).1 8 (by decide),
    by decide, by decide,
    (duplicate_work_rejection gated_queue 1 msg0 true (by decide)).2 (by decide)⟩

/-- C8. Adding the other kind of work: on a process of the table that is
either pending or active, not both, and has no normal call stored,
`worker_start` with a non-NULL handler returns normally; it stores the
handler in `fp_func` and the message in `fp_msg` and changes nothing else:
`pending`, `busy`, the flags (FP_PENDING, FP_PM_WORK), `fp_pm_msg`,
`fp_worker`, every other process, every worker and the trace (no worker is
woken) are as before. Symmetrically, when FP_PM_WORK is clear, `worker_start`
with a NULL handler stores the message in `fp_pm_msg`, sets FP_PM_WORK and
leaves FP_PENDING, `fp_func`, `fp_msg`, `fp_worker`, the counters, the other
processes, the workers and the trace as before. -/
theorem adding_other_kind (s : State) (rfp : Nat) (m : message) (use_spare : Bool)
    (hlt : rfp < NR_PROCS s)
    (hpa : is_pending s rfp = true ∨ (get_fproc s rfp).fp_worker ≠ none)
    (hnb : ¬ (is_pending s rfp = true ∧ (get_fproc s rfp).fp_worker ≠ none)) :
    (∀ f, (get_fproc s rfp).fp_func = none →
      ∃ s1, worker_start s rfp (some f) m use_spare = .ok s1 ∧
        (get_fproc s1 rfp).fp_func = some f ∧ (get_fproc s1 rfp).fp_msg = m ∧
        (get_fproc s1 rfp).fp_flags = (get_fproc s rfp).fp_flags ∧
        (get_fproc s1 rfp).fp_pm_msg = (get_fproc s rfp).fp_pm_msg ∧
        (get_fproc s1 rfp).fp_worker = (get_fproc s rfp).fp_worker ∧
        (∀ q, q ≠ rfp → get_fproc s1 q = get_fproc s q) ∧
        s1.workers = s.workers ∧ s1.pending = s.pending ∧ s1.busy = s.busy ∧
        s1.block_all = s.block_all ∧ s1.trace = s.trace) ∧
    (has_flag (get_fproc s rfp).fp_flags FP_PM_WORK = false →
      ∃ s1, worker_start s rfp none m use_spare = .ok s1 ∧
        (get_fproc s1 rfp).fp_pm_msg = m ∧
        has_flag (get_fproc s1 rfp).fp_flags FP_PM_WORK = true ∧
        is_pending s1 rfp = is_pending s rfp ∧
        (get_fproc s1 rfp).fp_func = (get_fproc s rfp).fp_func ∧
        (get_fproc s1 rfp).fp_msg = (get_fproc s rfp).fp_msg ∧
        (get_fproc s1 rfp).fp_worker = (get_fproc s rfp).fp_worker ∧
        (∀ q, q ≠ rfp → get_fproc s1 q = get_fproc s q) ∧
        s1.workers = s.workers ∧ s1.pending = s.pending ∧ s1.busy = s.busy ∧
        s1.block_all = s.block_all ∧ s1.trace = s.trace) := by
  unfold is_pending at hpa hnb
  have hsame : ∀ v, get_fproc (set_fproc s rfp v) rfp = v := by
    intro v
    rw [get_fproc_of_set s _ rfp rfp v rfl]
    simp [hlt]
  have hoth : ∀ v q, q ≠ rfp → get_fproc (set_fproc s rfp v) q = get_fproc s q := by
    intro v q hq
    rw [get_fproc_of_set s _ rfp q v rfl, if_neg (fun hc => hq hc.1.symm)]
  constructor
  · intro f hf
    have hst : worker_start s rfp (some f) m use_spare = .ok (store_normal s rfp f m) := by
      cases hw : (get_fproc s rfp).fp_worker with
      | none =>
        rw [hw] at hpa
        have hp : has_flag (get_fproc s rfp).fp_flags FP_PENDING = true := by
          rcases hpa with h | h
          · exact h
          · exact absurd rfl h
        simp [worker_start, worker_start_checks, worker_start_save, store_normal, hf, hw, hp]
      | some w =>
        have hp : has_flag (get_fproc s rfp).fp_flags FP_PENDING = false := by
          cases hpp : has_flag (get_fproc s rfp).fp_flags FP_PENDING with
          | false => rfl
          | true => exact absurd ⟨hpp, by rw [hw]; simp⟩ hnb
        simp [worker_start, worker_start_checks, worker_start_save, store_normal, hf, hw, hp]
    refine ⟨_, hst, ?_, ?_, ?_, ?_, ?_, ?_, rfl, rfl, rfl, rfl, rfl⟩
    · unfold store_normal; rw [hsame]
    · unfold store_normal; rw [hsame]
    · unfold store_normal; rw [hsame]
    · unfold store_normal; rw [hsame]
    · unfold store_normal; rw [hsame]
    · intro q hq; exact hoth _ q hq
  · intro hpm
    have hst : worker_start s rfp none m use_spare = .ok (store_pm s rfp m) := by
      cases hw : (get_fproc s rfp).fp_worker with
      | none =>
        rw [hw] at hpa
        have hp : has_flag (get_fproc s rfp).fp_flags FP_PENDING = true := by
          rcases hpa with h | h
          · exact h
          · exact absurd rfl h
        simp [worker_start, worker_start_checks, worker_start_save, store_pm, hpm, hw, hp]
      | some w =>
        have hp : has_flag (get_fproc s rfp).fp_flags FP_PENDING = false := by
          cases hpp : has_flag (get_fproc s rfp).fp_flags FP_PENDING with
          | false => rfl
          | true => exact absurd ⟨hpp, by rw [hw]; simp⟩ hnb
        simp [worker_start, worker_start_checks, worker_start_save, store_pm, hpm, hw, hp]
    refine ⟨_, hst, ?_, ?_, ?_, ?_, ?_, ?_, ?_, rfl, rfl, rfl, rfl, rfl⟩
    · unfold store_pm; rw [hsame]
    · unfold store_pm; rw [hsame]
      exact has_flag_set_self _ _ pm_work_ne_zero
    · unfold store_pm is_pending; rw [hsame]
      exact has_flag_set_other _ _ _ pm_work_and_pending
    · unfold store_pm; rw [hsame]
    · unfold store_pm; rw [hsame]
    · unfold store_pm; rw [hsame]
    · intro q hq; exact hoth _ q hq

theorem adding_other_kind_witness :
    (1 < NR_PROCS gated_queue ∧
      (is_pending gated_queue 1 = true ∨ (get_fproc gated_queue 1).fp_worker ≠ none) ∧
      ¬ (is_pending gated_queue 1 = true ∧ (get_fproc gated_queue 1).fp_worker ≠ none) ∧
      has_flag (get_fproc gated_queue 1).fp_flags FP_PM_WORK = true ∧
      (get_fproc gated_queue 1).fp_func = none ∧
      ∃ s1, worker_start gated_queue 1 (some 4) ⟨1, 2, [3]⟩ false = .ok s1 ∧
        (get_fproc s1 1).fp_func = some 4 ∧ (get_fproc s1 1).fp_msg = ⟨1, 2, [3]⟩ ∧
        s1.pending = gated_queue.pending ∧ s1.busy = gated_queue.busy ∧
        s1.workers = gated_queue.workers) ∧
    (3 < NR_PROCS gated_queue ∧
      (is_pending gated_queue 3 = true ∨ (get_fproc gated_queue 3).fp_worker ≠ none) ∧
      ¬ (is_pending gated_queue 3 = true ∧ (get_fproc gated_queue 3).fp_worker ≠ none) ∧
      has_flag (get_fproc gated_queue 3).fp_flags FP_PM_WORK = false ∧
      (get_fproc gated_queue 3).fp_func ≠ none ∧
      ∃ s1, worker_start gated_queue 3 none ⟨1, 2, [3]⟩ false = .ok s1 ∧
        (get_fproc s1 3).fp_pm_msg = ⟨1, 2, [3]⟩ ∧
        has_flag (get_fproc s1 3).fp_flags FP_PM_WORK = true ∧
        s1.pending = gated_queue.pending ∧ s1.busy = gated_queue.busy ∧
        s1.workers = gated_queue.workers) := by
  obtain ⟨s1, a1, a2, a3, -, -, -, -, a4, a5, a6, -⟩ :=
    (adding_other_kind gated_queue 1 ⟨1, 2, [3]⟩ false (by decide) (by decide) (by decide)).1 4
      (by decide)
  obtain ⟨s2, b1, b2, b3, -, -, -, -, -, b4, b5, b6, -⟩ :=
    (adding_other_kind gated_queue 3 ⟨1, 2, [3]⟩ false (by decide) (by decide) (by decide)).2
      (by decide)
  exact ⟨⟨by decide, by decide, by decide, by decide, by decide, s1, a1, a2, a3, a5, a6, a4⟩,
    ⟨by decide, by decide, by decide, by decide, by decide, s2, b1, b2, b3, b5, b6, b4⟩⟩

/-! ## Forced abort -/

/-- The fields of the state after `worker_stop` has injected `EIO` in the
reply buffer `r` and left `v` in the worker's entry. -/
theorem worker_stop_inject (s : State) (worker r : Nat) (v : worker_thread)
    (hw : worker < NR_WTHREADS s) (hr : r < s.replies.length) :
    (((worker_wake (set_worker
        { s with replies := s.replies.set r { s.replies.getD r default with m_type := EIO } }
        worker v) worker).replies.getD r default).m_type = EIO) ∧
    (((worker_wake (set_worker
        { s with replies := s.replies.set r { s.replies.getD r default with m_type := EIO } }
        worker v) worker).replies.getD r default).m_source
      = (s.replies.getD r default).m_source) ∧
    (((worker_wake (set_worker
        { s with replies := s.replies.set r { s.replies.getD r default with m_type := EIO } }
        worker v) worker).replies.getD r default).m_payload
      = (s.replies.getD r default).m_payload) ∧
    (∀ q, q ≠ r → (worker_wake (set_worker
        { s with replies := s.replies.set r { s.replies.getD r default with m_type := EIO } }
        worker v) worker).replies.getD q default = s.replies.getD q default) ∧
    get_worker (worker_wake (set_worker
        { s with replies := s.replies.set r { s.replies.getD r default with m_type := EIO } }
        worker v) worker) worker = v ∧
    (∀ j, j ≠ worker → get_worker (worker_wake (set_worker
        { s with replies := s.replies.set r { s.replies.getD r default with m_type := EIO } }
        worker v) worker) j = get_worker s j) := by
  have hw2 : worker < s.workers.length := hw
  refine ⟨?_, ?_, ?_, ?_, ?_, ?_⟩
  · simp [worker_wake, emit, set_worker, getD_set, hr]
  · simp [worker_wake, emit, set_worker, getD_set, hr]
  · simp [worker_wake, emit, set_worker, getD_set, hr]
  · intro q hq
    simp [worker_wake, emit, set_worker, getD_set, Ne.symm hq]
  · simp [worker_wake, emit, set_worker, get_worker, getD_set, hw2]
  · intro j hj
    simp [worker_wake, emit, set_worker, get_worker, getD_set, Ne.symm hj]

/-- C9. Forced abort: for a worker of the table with `w_task != NONE` that
holds an outstanding reply slot pointing to a reply buffer `r` (the
driver-style slot `w_drv_sendrec` if it is set, otherwise the
peer-server-style slot `w_sendrec`), `worker_stop` returns normally; it sets
`m_type` of the buffer `r` to EIO and changes no other reply buffer and no
other field of that message, sets that slot pointer to NULL, and wakes the
worker (that single event is added to the trace). The other slot, `w_task`,
`w_fp` and the other fields of the worker, every other worker, the process
table (so the binding), `pending`, `busy` and `block_all` are unchanged. -/
theorem forced_abort (s : State) (worker r : Nat) (hw : worker < NR_WTHREADS s)
    (ht : (get_worker s worker).w_task ≠ NONE) (hr : r < s.replies.length)
    (hslot : (get_worker s worker).w_drv_sendrec = some r ∨
      ((get_worker s worker).w_drv_sendrec = none ∧ (get_worker s worker).w_sendrec = some r)) :
    ∃ s1, worker_stop s worker = .ok s1 ∧
      (s1.replies.getD r default).m_type = EIO ∧
      (s1.replies.getD r default).m_source = (s.replies.getD r default).m_source ∧
      (s1.replies.getD r default).m_payload = (s.replies.getD r default).m_payload ∧
      (∀ q, q ≠ r → s1.replies.getD q default = s.replies.getD q default) ∧
      get_worker s1 worker
        = (if (get_worker s worker).w_drv_sendrec = some r
            then { get_worker s worker with w_drv_sendrec := none }
            else { get_worker s worker with w_sendrec := none }) ∧
      (∀ j, j ≠ worker → get_worker s1 j = get_worker s j) ∧
      s1.trace = s.trace ++ [Event.wake worker] ∧
      s1.fproc = s.fproc ∧ s1.pending = s.pending ∧ s1.busy = s.busy ∧
      s1.block_all = s.block_all := by
  rcases hslot with hd | ⟨hd, hs⟩
  · obtain ⟨i1, i2, i3, i4, i5, i6⟩ := worker_stop_inject s worker r
      { get_worker s worker with w_drv_sendrec := none } hw hr
    refine ⟨_, ?_, i1, i2, i3, i4, ?_, i6, rfl, rfl, rfl, rfl, rfl⟩
    · unfold worker_stop
      rw [if_neg (by simpa using hw), if_pos ht, hd]
      rfl
    · rw [i5, if_pos hd]
  · obtain ⟨i1, i2, i3, i4, i5, i6⟩ := worker_stop_inject s worker r
      { get_worker s worker with w_sendrec := none } hw hr
    refine ⟨_, ?_, i1, i2, i3, i4, ?_, i6, rfl, rfl, rfl, rfl, rfl⟩
    · unfold worker_stop
      rw [if_neg (by simpa using hw), if_pos ht, hd]
      simp only [hs]
      rfl
    · rw [i5, if_neg (by rw [hd]; simp)]

theorem forced_abort_witness :
    0 < NR_WTHREADS blocked_pool ∧ (get_worker blocked_pool 0).w_task ≠ NONE ∧
    1 < blocked_pool.replies.length ∧ (get_worker blocked_pool 0).w_drv_sendrec = some 1 ∧
    ∃ s1, worker_stop blocked_pool 0 = .ok s1 ∧
      (s1.replies.getD 1 default).m_type = EIO ∧
      (∀ q, q ≠ 1 → s1.replies.getD q default = blocked_pool.replies.getD q default) ∧
      get_worker s1 0 = { blocked_worker with w_drv_sendrec := none } ∧
      s1.trace = blocked_pool.trace ++ [Event.wake 0] ∧
      s1.pending = blocked_pool.pending ∧ s1.busy = blocked_pool.busy := by
  obtain ⟨s1, h1, h2, -, -, h3, h4, -, h5, -, h6, h7, -⟩ := forced_abort blocked_pool 0 1
    (by decide) (by decide) (by decide) (Or.inl (by decide))
  exact ⟨by decide, by decide, by decide, by decide, s1, h1, h2, h3, h4, h5, h6, h7⟩

/-- C10 as amended. For a worker of the table, `worker_stop` takes no fatal
path when the worker has no recorded task (`w_task == NONE`): it reports a
diagnostic, wakes the worker and returns normally, and the tables (every
field of every worker, the bindings), the reply buffers and the counters are
unchanged. When the worker is marked as waiting on a task
(`w_task != NONE`) but `w_drv_sendrec` and `w_sendrec` are both NULL,
`worker_stop` panics ("reply storage consistency error") in the state of the
call: nothing is modified and the worker is not woken. -/
theorem stop_without_reply (s : State) (worker : Nat) (hw : worker < NR_WTHREADS s) :
    ((get_worker s worker).w_task = NONE →
      ∃ s1, worker_stop s worker = .ok s1 ∧
        s1.trace = s.trace ++ [Event.stacktrace, Event.wake worker] ∧
        s1.workers = s.workers ∧ s1.fproc = s.fproc ∧ s1.replies = s.replies ∧
        s1.pending = s.pending ∧ s1.busy = s.busy ∧ s1.block_all = s.block_all) ∧
    ((get_worker s worker).w_task ≠ NONE → (get_worker s worker).w_drv_sendrec = none →
      (get_worker s worker).w_sendrec = none →
      worker_stop s worker = .error (Fatal.reply_storage, s)) := by
  constructor
  · intro ht
    refine ⟨worker_wake (emit s Event.stacktrace) worker, ?_, ?_, rfl, rfl, rfl, rfl, rfl, rfl⟩
    · unfold worker_stop
      rw [if_neg (by simpa using hw), if_neg (by simpa using ht)]
    · simp [worker_wake, emit]
  · intro ht hd hs
    unfold worker_stop
    rw [if_neg (by simpa using hw), if_pos ht, hd]
    simp only [hs]

theorem stop_without_reply_witness :
    (0 < NR_WTHREADS (pool 2 2) ∧ (get_worker (pool 2 2) 0).w_task = NONE ∧
      ∃ s1, worker_stop (pool 2 2) 0 = .ok s1 ∧
        s1.trace = (pool 2 2).trace ++ [Event.stacktrace, Event.wake 0] ∧
        s1.workers = (pool 2 2).workers ∧ s1.fproc = (pool 2 2).fproc ∧
        s1.replies = (pool 2 2).replies ∧ s1.pending = (pool 2 2).pending ∧
        s1.busy = (pool 2 2).busy ∧ s1.block_all = (pool 2 2).block_all) ∧
    (1 < NR_WTHREADS blocked_pool ∧ (get_worker blocked_pool 1).w_task ≠ NONE ∧
      (get_worker blocked_pool 1).w_drv_sendrec = none ∧
      (get_worker blocked_pool 1).w_sendrec = none ∧
      worker_stop blocked_pool 1 = .error (Fatal.reply_storage, blocked_pool)) :=
  ⟨⟨by decide, by decide, (stop_without_reply (pool 2 2) 0 (by decide)).1 (by decide)⟩,
    ⟨by decide, by decide, by decide, by decide,
      (stop_without_reply blocked_pool 1 (by decide)).2 (by decide) (by decide) (by decide)⟩⟩

/-- C10, the claim as stated fails: worker 1 of `blocked_pool` is marked as
waiting on a task (`w_task = 42`, not NONE) with `w_drv_sendrec` and
`w_sendrec` both NULL, and `worker_stop` on it does not return normally: it
panics with "reply storage consistency error". -/
theorem stop_without_reply_counterexample :
    (get_worker blocked_pool 1).w_task ≠ NONE ∧
    (get_worker blocked_pool 1).w_drv_sendrec = none ∧
    (get_worker blocked_pool 1).w_sendrec = none ∧
    worker_stop blocked_pool 1 = .error (Fatal.reply_storage, blocked_pool) ∧
    ¬ ∃ s1, worker_stop blocked_pool 1 = .ok s1 :=
  ⟨by decide, by decide, by decide, by rfl, by
    intro ⟨s1, h⟩
    have h2 : worker_stop blocked_pool 1 = .error (Fatal.reply_storage, blocked_pool) := by rfl
    rw [h2] at h
    cases h⟩


/-! ## Stopping the workers that wait on an endpoint -/

/-- What a successful `worker_stop` on a worker blocked on a task leaves:
the worker loses the reply slot that was picked, gets `EIO` in that buffer
and is woken; nothing else changes. -/
theorem worker_stop_blocked (s : State) (w : Nat) (hw : w < NR_WTHREADS s)
    (ht : (get_worker s w).w_task ≠ NONE) (hr : reply_slot s w ≠ none) :
    ∃ s1, worker_stop s w = .ok s1 ∧
      (get_worker s1 w).w_fp = (get_worker s w).w_fp ∧
      (get_worker s1 w).w_task = (get_worker s w).w_task ∧
      (∀ j, j ≠ w → get_worker s1 j = get_worker s j) ∧
      (∀ q, reply_slot s w ≠ some q → s1.replies.getD q default = s.replies.getD q default) ∧
      NR_WTHREADS s1 = NR_WTHREADS s ∧ s1.fproc = s.fproc ∧ s1.pending = s.pending ∧
      s1.busy = s.busy ∧ s1.block_all = s.block_all ∧
      s1.trace = s.trace ++ [Event.wake w] := by
  have hw2 : w < s.workers.length := hw
  unfold reply_slot at hr ⊢
  unfold worker_stop
  rw [if_neg (by simpa using hw), if_pos ht]
  cases hd : (get_worker s w).w_drv_sendrec with
  | some r =>
    refine ⟨_, rfl, ?_, ?_, ?_, ?_, ?_, rfl, rfl, rfl, rfl, rfl⟩
    · simp [worker_wake, emit, set_worker, get_worker, getD_set, hw2]
    · simp [worker_wake, emit, set_worker, get_worker, getD_set, hw2]
    · intro j hj
      simp [worker_wake, emit, set_worker, get_worker, getD_set, Ne.symm hj]
    · intro q hq
      have hq2 : r ≠ q := fun hc => hq (by rw [hc])
      simp [worker_wake, emit, set_worker, getD_set, hq2]
    · simp [NR_WTHREADS, worker_wake, emit, set_worker]
  | none =>
    rw [hd] at hr
    cases hs : (get_worker s w).w_sendrec with
    | none => exact absurd hs hr
    | some r =>
      refine ⟨_, rfl, ?_, ?_, ?_, ?_, ?_, rfl, rfl, rfl, rfl, rfl⟩
      · simp [worker_wake, emit, set_worker, get_worker, getD_set, hw2]
      · simp [worker_wake, emit, set_worker, get_worker, getD_set, hw2]
      · intro j hj
        simp [worker_wake, emit, set_worker, get_worker, getD_set, Ne.symm hj]
      · intro q hq
        have hq2 : r ≠ q := fun hc => hq (by rw [hc])
        simp [worker_wake, emit, set_worker, getD_set, hq2]
      · simp [NR_WTHREADS, worker_wake, emit, set_worker]

/-- A successful `worker_stop` changes neither `w_fp` nor `w_task` of any
worker, nor the number of workers. -/
theorem worker_stop_keeps (s s1 : State) (w : Nat) (h : worker_stop s w = .ok s1) :
    NR_WTHREADS s1 = NR_WTHREADS s ∧
    ∀ j, (get_worker s1 j).w_fp = (get_worker s j).w_fp ∧
      (get_worker s1 j).w_task = (get_worker s j).w_task := by
  unfold worker_stop at h
  split at h
  · cases h
  · rename_i hw
    have hw2 : w < s.workers.length := by simpa [NR_WTHREADS] using hw
    split at h
    · split at h
      · injection h with h
        subst h
        refine ⟨by simp [NR_WTHREADS, worker_wake, emit, set_worker], ?_⟩
        intro j
        by_cases hj : w = j
        · subst hj
          simp [worker_wake, emit, set_worker, get_worker, getD_set, hw2]
        · simp [worker_wake, emit, set_worker, get_worker, getD_set, hj]
      · split at h
        · injection h with h
          subst h
          refine ⟨by simp [NR_WTHREADS, worker_wake, emit, set_worker], ?_⟩
          intro j
          by_cases hj : w = j
          · subst hj
            simp [worker_wake, emit, set_worker, get_worker, getD_set, hw2]
          · simp [worker_wake, emit, set_worker, get_worker, getD_set, hj]
        · cases h
    · injection h with h
      subst h
      exact ⟨rfl, fun j => ⟨rfl, rfl⟩⟩

theorem waits_on_of_keeps (s s1 : State) (proc_e : Int)
    (h : ∀ j, (get_worker s1 j).w_fp = (get_worker s j).w_fp ∧
      (get_worker s1 j).w_task = (get_worker s j).w_task) :
    waits_on s1 proc_e = waits_on s proc_e := by
  funext j
  unfold waits_on
  rw [(h j).1, (h j).2]

/-- The loop of `worker_stop_by_endpt` stops exactly the workers of its list
that wait on the endpoint when it starts. -/
theorem worker_stop_by_endpt_loop_eq (l : List Nat) (s : State) (proc_e : Int) :
    worker_stop_by_endpt_loop s proc_e l = stop_each s (l.filter (waits_on s proc_e)) := by
  induction l generalizing s with
  | nil => rfl
  | cons i rest ih =>
    rw [worker_stop_by_endpt_loop, List.filter_cons]
    by_cases hm : waits_on s proc_e i = true
    · have hc : (get_worker s i).w_fp ≠ none ∧ (get_worker s i).w_task = proc_e := by
        unfold waits_on at hm
        simp only [Bool.and_eq_true, decide_eq_true_eq] at hm
        refine ⟨?_, hm.2⟩
        intro hn
        rw [hn] at hm
        simp at hm
      rw [if_pos hc, if_pos hm, stop_each]
      cases hs : worker_stop s i with
      | error e => rfl
      | ok s1 =>
        simp only
        rw [ih s1, waits_on_of_keeps s s1 proc_e (worker_stop_keeps s s1 i hs).2]
    · have hc : ¬ ((get_worker s i).w_fp ≠ none ∧ (get_worker s i).w_task = proc_e) := by
        intro hc
        apply hm
        unfold waits_on
        simp only [Bool.and_eq_true, decide_eq_true_eq]
        refine ⟨?_, hc.2⟩
        cases hx : (get_worker s i).w_fp with
        | none => exact absurd hx hc.1
        | some v => rfl
      rw [if_neg hc, if_neg hm]
      exact ih s


theorem reply_slot_congr (s s1 : State) (w : Nat) (h : get_worker s1 w = get_worker s w) :
    reply_slot s1 w = reply_slot s w := by
  unfold reply_slot
  rw [h]

/-- Stopping in turn distinct workers that are each blocked on a task with a
reply slot set returns normally, wakes them in that order, and leaves the
other workers and the other reply buffers as they were. -/
theorem stop_each_frame (l : List Nat) (s : State) (hnd : l.Nodup)
    (hl : ∀ w ∈ l, w < NR_WTHREADS s ∧ (get_worker s w).w_task ≠ NONE ∧ reply_slot s w ≠ none) :
    ∃ s1, stop_each s l = .ok s1 ∧
      (∀ j, j ∉ l → get_worker s1 j = get_worker s j) ∧
      (∀ q, (∀ w ∈ l, reply_slot s w ≠ some q) →
        s1.replies.getD q default = s.replies.getD q default) ∧
      NR_WTHREADS s1 = NR_WTHREADS s ∧ s1.fproc = s.fproc ∧ s1.pending = s.pending ∧
      s1.busy = s.busy ∧ s1.block_all = s.block_all ∧
      s1.trace = s.trace ++ l.map Event.wake := by
  induction l generalizing s with
  | nil => exact ⟨s, rfl, fun _ _ => rfl, fun _ _ => rfl, rfl, rfl, rfl, rfl, rfl, by simp⟩
  | cons w rest ih =>
    obtain ⟨hnotin, hnd2⟩ := List.nodup_cons.1 hnd
    obtain ⟨hw, ht, hr⟩ := hl w (List.mem_cons_self _ _)
    obtain ⟨s1, h1, -, -, k3, k4, k5, k6, k7, k8, k9, k10⟩ := worker_stop_blocked s w hw ht hr
    have hne : ∀ x ∈ rest, x ≠ w := fun x hx hc => hnotin (hc ▸ hx)
    obtain ⟨s2, i1, i2, i3, i4, i5, i6, i7, i8, i9⟩ := ih s1 hnd2 (fun x hx => by
      obtain ⟨a, b, c⟩ := hl x (List.mem_cons_of_mem _ hx)
      have hg := k3 x (hne x hx)
      refine ⟨by rw [k5]; exact a, by rw [hg]; exact b, ?_⟩
      rw [reply_slot_congr s s1 x hg]; exact c)
    refine ⟨s2, ?_, ?_, ?_, by rw [i4, k5], by rw [i5, k6], by rw [i6, k7], by rw [i7, k8],
      by rw [i8, k9], ?_⟩
    · rw [stop_each, h1]
      exact i1
    · intro j hj
      simp only [List.mem_cons, not_or] at hj
      rw [i2 j hj.2, k3 j hj.1]
    · intro q hq
      rw [i3 q (fun x hx => by
        rw [reply_slot_congr s s1 x (k3 x (hne x hx))]
        exact hq x (List.mem_cons_of_mem _ hx))]
      exact k4 q (hq w (List.mem_cons_self _ _))
    · rw [i9, k10]
      simp

theorem mem_waiting_workers (s : State) (proc_e : Int) (w : Nat) :
    w ∈ waiting_workers s proc_e ↔ waits_on s proc_e w = true := by
  unfold waiting_workers
  rw [List.mem_filter, List.mem_range]
  constructor
  · exact fun h => h.2
  · intro h
    refine ⟨?_, h⟩
    by_contra hn
    unfold waits_on at h
    rw [get_worker_of_ge s w (by omega)] at h
    simp [default] at h

/-- C11. For `proc_e != NONE`, `worker_stop_by_endpt(proc_e)` is the same as
applying `worker_stop` in turn, in ascending index order, to the workers with
`w_fp != NULL` and `w_task == proc_e`. When each of these workers holds a
reply slot, the call returns normally, wakes exactly these workers in that
order, and every worker that is unbound or waits on a different endpoint
keeps all its fields; every reply buffer that is not the one picked for a
stopped worker, the process table and the counters are unchanged.
`worker_stop_by_endpt(NONE)` returns the state unchanged: no worker is
stopped, idle workers with `w_task == NONE` included. -/
theorem stop_by_endpt (s : State) (proc_e : Int) :
    (proc_e ≠ NONE →
      worker_stop_by_endpt s proc_e = stop_each s (waiting_workers s proc_e)) ∧
    (proc_e ≠ NONE → (∀ w, waits_on s proc_e w = true → reply_slot s w ≠ none) →
      ∃ s1, worker_stop_by_endpt s proc_e = .ok s1 ∧
        (∀ j, waits_on s proc_e j = false → get_worker s1 j = get_worker s j) ∧
        (∀ q, (∀ w, waits_on s proc_e w = true → reply_slot s w ≠ some q) →
          s1.replies.getD q default = s.replies.getD q default) ∧
        s1.trace = s.trace ++ (waiting_workers s proc_e).map Event.wake ∧
        s1.fproc = s.fproc ∧ s1.pending = s.pending ∧ s1.busy = s.busy ∧
        s1.block_all = s.block_all) ∧
    worker_stop_by_endpt s NONE = .ok s := by
  have heq : proc_e ≠ NONE →
      worker_stop_by_endpt s proc_e = stop_each s (waiting_workers s proc_e) := by
    intro hp
    unfold worker_stop_by_endpt
    rw [if_neg hp]
    exact worker_stop_by_endpt_loop_eq _ s proc_e
  refine ⟨heq, ?_, ?_⟩
  · intro hp hslots
    obtain ⟨s1, h1, h2, h3, -, h5, h6, h7, h8, h9⟩ := stop_each_frame (waiting_workers s proc_e) s
      (List.Nodup.filter _ (List.nodup_range _)) (fun w hw => by
        have hm := (mem_waiting_workers s proc_e w).1 hw
        have hlt : w < NR_WTHREADS s := by
          have := List.mem_filter.1 hw
          exact List.mem_range.1 this.1
        refine ⟨hlt, ?_, hslots w hm⟩
        unfold waits_on at hm
        simp only [Bool.and_eq_true, decide_eq_true_eq] at hm
        rw [hm.2]; exact hp)
    refine ⟨s1, by rw [heq hp]; exact h1, ?_, ?_, h9, h5, h6, h7, h8⟩
    · intro j hj
      exact h2 j (fun hc => by
        rw [(mem_waiting_workers s proc_e j).1 hc] at hj
        cases hj)
    · intro q hq
      exact h3 q (fun w hw => hq w ((mem_waiting_workers s proc_e w).1 hw))
  · unfold worker_stop_by_endpt
    rw [if_pos rfl]

theorem stop_by_endpt_witness :
    (42 : Int) ≠ NONE ∧ waiting_workers waiting_pool 42 = [0, 2] ∧
    (∀ w, w < NR_WTHREADS waiting_pool → waits_on waiting_pool 42 w = true →
      reply_slot waiting_pool w ≠ none) ∧
    ∃ s1, worker_stop_by_endpt waiting_pool 42 = .ok s1 ∧
      get_worker s1 1 = get_worker waiting_pool 1 ∧
      get_worker s1 3 = get_worker waiting_pool 3 ∧
      s1.replies.getD 0 default = waiting_pool.replies.getD 0 default ∧
      s1.trace = waiting_pool.trace ++ [Event.wake 0, Event.wake 2] := by
  have hs : ∀ w, waits_on waiting_pool 42 w = true → reply_slot waiting_pool w ≠ none := by
    intro w hw
    have hlt : w < 4 := by
      have := List.mem_range.1 (List.mem_filter.1 ((mem_waiting_workers waiting_pool 42 w).2 hw)).1
      exact this
    revert hw
    interval_cases w <;> decide
  obtain ⟨s1, h1, h2, h3, h4, -⟩ := (stop_by_endpt waiting_pool 42).2.1 (by decide) hs
  exact ⟨by decide, by decide, fun w _ hw => hs w hw, s1, h1, h2 1 (by decide), h2 3 (by decide),
    h3 0 (fun w hw => by
      have hlt : w < 4 := by
        have := List.mem_range.1
          (List.mem_filter.1 ((mem_waiting_workers waiting_pool 42 w).2 hw)).1
        exact this
      revert hw
      interval_cases w <;> decide), h4⟩


/-! ## Idle detection and cleanup -/

theorem forall_mem_iff_getD {α : Type} (l : List α) (d : α) (P : α → Prop) (hd : P d) :
    (∀ a ∈ l, P a) ↔ ∀ i, P (l.getD i d) := by
  constructor
  · intro h i
    rw [List.getD_eq_getElem?_getD]
    by_cases hi : i < l.length
    · rw [List.getElem?_eq_getElem hi]
      exact h _ (List.getElem_mem _)
    · rw [List.getElem?_eq_none (by omega)]
      exact hd
  · intro h a ha
    obtain ⟨i, hi, rfl⟩ := List.getElem_of_mem ha
    have := h i
    rw [List.getD_eq_getElem?_getD, List.getElem?_eq_getElem hi] at this
    exact this

theorem count_pending_eq_zero (s : State) :
    count_pending s = 0 ↔ ∀ p, is_pending s p = false := by
  unfold count_pending is_pending get_fproc
  rw [List.countP_eq_zero]
  rw [forall_mem_iff_getD s.fproc default
    (fun a => ¬ has_flag a.fp_flags FP_PENDING = true) (by decide)]
  simp

theorem count_busy_eq_zero (s : State) :
    count_busy s = 0 ↔ ∀ w, (get_worker s w).w_fp = none := by
  unfold count_busy get_worker
  rw [List.countP_eq_zero]
  rw [forall_mem_iff_getD s.workers default
    (fun a => ¬ a.w_fp.isSome = true) (by simp [default])]
  simp

theorem worker_cleanup_loop_error (l : List Nat) (s : State) (e : Fatal × State)
    (h : worker_cleanup_loop s l = .error e) : e.1 = Fatal.assert_failed := by
  induction l generalizing s with
  | nil => rw [worker_cleanup_loop] at h; cases h
  | cons i rest ih =>
    rw [worker_cleanup_loop] at h
    split at h
    · injection h with h
      rw [← h]
    · exact ih _ h

theorem worker_cleanup_loop_idle (l : List Nat) (s : State)
    (hidle : ∀ w, (get_worker s w).w_fp = none) :
    worker_cleanup_loop s l = .ok { s with trace := s.trace ++ l.map Event.wake } := by
  induction l generalizing s with
  | nil => simp [worker_cleanup_loop]
  | cons i rest ih =>
    rw [worker_cleanup_loop, if_neg (by simp [hidle i])]
    rw [ih (worker_wake s i) (fun w => hidle w)]
    simp [worker_wake, emit]

/-- C12. `worker_idle()` is true exactly when `pending == 0` and
`busy == 0`; in a state satisfying the counter invariant that is exactly when
no process is flagged FP_PENDING and no worker has a process bound.
`worker_cleanup` fails on its precondition `assert(worker_idle())`, in the
state of the call, if and only if `pending` or `busy` is nonzero; in an idle
state satisfying the counter invariant no assertion fails: the call returns
normally, having woken every worker once, in index order, and zeroed the
worker table. -/
theorem idle_and_cleanup (s : State) :
    (worker_idle s = true ↔ s.pending = 0 ∧ s.busy = 0) ∧
    (counters_ok s →
      (worker_idle s = true ↔
        (∀ p, is_pending s p = false) ∧ ∀ w, (get_worker s w).w_fp = none)) ∧
    (worker_cleanup s = .error (Fatal.not_idle, s) ↔ (s.pending ≠ 0 ∨ s.busy ≠ 0)) ∧
    (counters_ok s → worker_idle s = true →
      ∃ s1, worker_cleanup s = .ok s1 ∧
        s1.trace = s.trace ++ (List.range (NR_WTHREADS s)).map Event.wake ∧
        s1.workers = List.replicate (NR_WTHREADS s) zero_worker ∧
        s1.fproc = s.fproc ∧ s1.pending = 0 ∧ s1.busy = 0) := by
  have hidle : worker_idle s = true ↔ s.pending = 0 ∧ s.busy = 0 := by
    simp [worker_idle]
  refine ⟨hidle, ?_, ?_, ?_⟩
  · intro hc
    rw [hidle, hc.1, hc.2, count_pending_eq_zero, count_busy_eq_zero]
  · constructor
    · intro h
      by_contra hn
      have hi : worker_idle s = true := hidle.2 (by omega)
      unfold worker_cleanup at h
      rw [hi] at h
      simp only [Bool.not_true, Bool.false_eq_true, if_false] at h
      cases hl : worker_cleanup_loop s (List.range (NR_WTHREADS s)) with
      | error e =>
        rw [hl] at h
        have := worker_cleanup_loop_error _ s e hl
        injection h with h
        rw [h] at this
        cases this
      | ok s1 => rw [hl] at h; cases h
    · intro h
      have hi : worker_idle s = false := by
        cases hx : worker_idle s with
        | false => rfl
        | true => have := hidle.1 hx; omega
      unfold worker_cleanup
      rw [hi]
      rfl
  · intro hc hi
    have hw : ∀ w, (get_worker s w).w_fp = none := by
      have h0 := (hidle.1 hi).2
      rw [hc.2] at h0
      exact (count_busy_eq_zero s).1 h0
    refine ⟨{ s with
        trace := s.trace ++ (List.range (NR_WTHREADS s)).map Event.wake
        self := none
        workers := s.workers.map (fun _ => zero_worker) }, ?_, ?_, ?_, ?_, ?_, ?_⟩
    · unfold worker_cleanup
      rw [hi]
      simp only [Bool.not_true, Bool.false_eq_true, if_false]
      rw [worker_cleanup_loop_idle _ s hw]
    · rfl
    · simp only [NR_WTHREADS]
      rw [List.eq_replicate_iff]
      simp
    · rfl
    · exact (hidle.1 hi).1
    · exact (hidle.1 hi).2


theorem idle_and_cleanup_witness :
    (counters_ok (pool 2 3) ∧ worker_idle (pool 2 3) = true ∧
      ∃ s1, worker_cleanup (pool 2 3) = .ok s1 ∧
        s1.trace = (pool 2 3).trace ++ [Event.wake 0, Event.wake 1] ∧
        s1.workers = [zero_worker, zero_worker] ∧
        s1.fproc = (pool 2 3).fproc ∧ s1.pending = 0 ∧ s1.busy = 0) ∧
    (gated_queue.pending ≠ 0 ∧
      worker_cleanup gated_queue = .error (Fatal.not_idle, gated_queue)) :=
  ⟨⟨by unfold counters_ok; decide, by decide,
      (idle_and_cleanup (pool 2 3)).2.2.2 (by unfold counters_ok; decide) (by decide)⟩,
    ⟨by decide, (idle_and_cleanup gated_queue).2.2.1.2 (Or.inl (by decide))⟩⟩

/-! ## Disabling admission -/

/-- C16. `worker_allow(FALSE)` returns normally, sets `block_all` to true
and changes nothing else: `pending`, `busy`, the process table (flags, stored
work and `fp_worker` of every process), the worker table, the reply
buffers, the ambient context and the trace (no worker is woken) are as
before. -/
theorem disallow_frame (s : State) :
    ∃ s1, worker_allow s false = .ok s1 ∧ s1.block_all = true ∧
      s1.pending = s.pending ∧ s1.busy = s.busy ∧ s1.fproc = s.fproc ∧
      s1.workers = s.workers ∧ s1.trace = s.trace ∧ s1.replies = s.replies ∧
      s1.self = s.self ∧ s1.fp = s.fp ∧ s1.err_code = s.err_code := by
  refine ⟨{ s with block_all := true }, ?_, rfl, rfl, rfl, rfl, rfl, rfl, rfl, rfl, rfl, rfl⟩
  unfold worker_allow
  have hm : worker_may_do_pending { s with block_all := !false } = false := by
    simp [worker_may_do_pending]
  simp only [hm]
  rfl

/-! ## Suspend and resume -/

/-- C13. Suspend/resume round trip: called in the ambient context
(`self = w`, `fp = p`, `err_code = e`) with `w->w_fp == p` and
`p->fp_worker == w`, `worker_suspend()` returns `w`, having only saved `e`
in `w->w_err_code`; and in every later state in which `w->w_fp` and
`w->w_err_code` are as it left them, whatever `self`, `fp` and `err_code`
have become, `worker_resume(w)` returns normally with the ambient context
(`self = w`, `fp = p`, `err_code = e`). Neither operation changes `busy`,
`pending`, the process table or `w_fp` of any worker. -/
theorem suspend_resume (s : State) (w p : Nat) (hself : s.self = some w) (hfp : s.fp = some p)
    (hw : w < NR_WTHREADS s) (hb1 : (get_worker s w).w_fp = some p)
    (hb2 : (get_fproc s p).fp_worker = some w) :
    ∃ s1, worker_suspend s = .ok (s1, w) ∧
      (get_worker s1 w).w_err_code = s.err_code ∧
      (∀ j, (get_worker s1 j).w_fp = (get_worker s j).w_fp) ∧
      s1.fproc = s.fproc ∧ s1.busy = s.busy ∧ s1.pending = s.pending ∧
      s1.self = s.self ∧ s1.fp = s.fp ∧ s1.err_code = s.err_code ∧
      ∀ s2, NR_WTHREADS s2 = NR_WTHREADS s1 →
        (get_worker s2 w).w_fp = (get_worker s1 w).w_fp →
        (get_worker s2 w).w_err_code = (get_worker s1 w).w_err_code →
        ∃ s3, worker_resume s2 w = .ok s3 ∧
          s3.self = some w ∧ s3.fp = some p ∧ s3.err_code = s.err_code ∧
          s3.workers = s2.workers ∧ s3.fproc = s2.fproc ∧ s3.busy = s2.busy ∧
          s3.pending = s2.pending := by
  have hw2 : w < s.workers.length := hw
  have he : (get_worker (set_worker s w { get_worker s w with w_err_code := s.err_code }) w).w_err_code
      = s.err_code := by
    simp [set_worker, get_worker, getD_set, hw2]
  have hf : ∀ j, (get_worker (set_worker s w { get_worker s w with w_err_code := s.err_code }) j).w_fp
      = (get_worker s j).w_fp := by
    intro j
    by_cases hj : w = j
    · subst hj
      simp [set_worker, get_worker, getD_set, hw2]
    · simp [set_worker, get_worker, getD_set, hj]
  refine ⟨set_worker s w { get_worker s w with w_err_code := s.err_code }, ?_, he, hf,
    rfl, rfl, rfl, rfl, rfl, rfl, ?_⟩
  · unfold worker_suspend
    simp only [hself, hfp]
    rw [if_neg (by simpa using hw), if_neg (by simpa using hb1), if_neg (by simpa using hb2)]
  · intro s2 hN h1 h2
    rw [hf w, hb1] at h1
    rw [he] at h2
    have hN2 : w < NR_WTHREADS s2 := by
      rw [hN]
      simpa [NR_WTHREADS, set_worker] using hw
    refine ⟨{ s2 with self := some w, fp := some p, err_code := s.err_code }, ?_,
      rfl, rfl, rfl, rfl, rfl, rfl, rfl⟩
    unfold worker_resume
    rw [if_neg (by simpa using hN2)]
    have hg : get_worker { s2 with self := some w } w = get_worker s2 w := rfl
    simp only [hg, h1]
    have hg2 : get_worker { s2 with self := some w, fp := some p } w = get_worker s2 w := rfl
    simp [hg2, h2]


theorem suspend_resume_witness :
    running_ctx.self = some 0 ∧ running_ctx.fp = some 0 ∧ 0 < NR_WTHREADS running_ctx ∧
    (get_worker running_ctx 0).w_fp = some 0 ∧ (get_fproc running_ctx 0).fp_worker = some 0 ∧
    ∃ s1, worker_suspend running_ctx = .ok (s1, 0) ∧
      ∃ s3, worker_resume { s1 with self := some 1, fp := none, err_code := 5 } 0 = .ok s3 ∧
        s3.self = some 0 ∧ s3.fp = some 0 ∧ s3.err_code = -11 := by
  obtain ⟨s1, h1, -, -, -, -, -, -, -, -, h2⟩ := suspend_resume running_ctx 0 0
    (by decide) (by decide) (by decide) (by decide) (by decide)
  obtain ⟨s3, h3, h4, h5, h6, -⟩ := h2 { s1 with self := some 1, fp := none, err_code := 5 }
    rfl rfl rfl
  exact ⟨by decide, by decide, by decide, by decide, by decide, s1, h1, s3, h3, h4, h5, h6⟩

/-! ## Process rebind -/

/-- C14. Process rebind: `worker_set_proc(rfp)` called by the worker `self`
bound to the process `fp`, for a process `rfp` of the table: with `rfp`
equal to `fp` it returns the state unchanged; with `rfp` different from `fp`
and `rfp->fp_worker != NULL` it panics in the state of the call; with
`rfp->fp_worker == NULL` it returns normally with the old process's
`fp_worker` NULL, `self->w_fp == rfp`, `rfp->fp_worker == self` and the
ambient `fp` equal to `rfp`, and `busy`, `pending`, every other worker and
every other process unchanged, so that a one-to-one binding stays one-to-one
and `busy` stays equal to the number of bound workers. -/
theorem set_proc_rebind (s : State) (w p rfp : Nat) (hself : s.self = some w)
    (hfp : s.fp = some p) (hw : w < NR_WTHREADS s) (hlt : rfp < NR_PROCS s)
    (hb1 : (get_worker s w).w_fp = some p) (hb2 : (get_fproc s p).fp_worker = some w) :
    (rfp = p → worker_set_proc s rfp = .ok s) ∧
    (rfp ≠ p → (get_fproc s rfp).fp_worker ≠ none →
      worker_set_proc s rfp = .error (Fatal.target_not_idle, s)) ∧
    (rfp ≠ p → (get_fproc s rfp).fp_worker = none →
      ∃ s1, worker_set_proc s rfp = .ok s1 ∧
        (get_fproc s1 p).fp_worker = none ∧ (get_worker s1 w).w_fp = some rfp ∧
        (get_fproc s1 rfp).fp_worker = some w ∧ s1.fp = some rfp ∧ s1.self = s.self ∧
        s1.busy = s.busy ∧ s1.pending = s.pending ∧
        (∀ j, j ≠ w → get_worker s1 j = get_worker s j) ∧
        (∀ q, q ≠ p → q ≠ rfp → get_fproc s1 q = get_fproc s q) ∧
        (binding_ok s → binding_ok s1) ∧
        (s.busy = count_busy s → s1.busy = count_busy s1)) := by
  have hw2 : w < s.workers.length := hw
  have hlt2 : rfp < s.fproc.length := hlt
  have hp := lt_of_fp_worker s p w hb2
  have hp2 : p < s.fproc.length := hp
  refine ⟨?_, ?_, ?_⟩
  · intro he
    unfold worker_set_proc
    rw [if_pos (by rw [hfp, he])]
  · intro hne hbusy
    unfold worker_set_proc
    rw [if_neg (by rw [hfp]; intro hc; injection hc with hc; exact hne hc.symm), if_pos hbusy]
  · intro hne hidle
    have hst : worker_set_proc s rfp = .ok
        (set_fproc (set_worker { set_fproc s p { get_fproc s p with fp_worker := none } with
            fp := some rfp } w
          { get_worker s w with w_fp := some rfp }) rfp
          { get_fproc s rfp with fp_worker := some w }) := by
      unfold worker_set_proc
      rw [if_neg (by rw [hfp]; intro hc; injection hc with hc; exact hne hc.symm),
        if_neg (by simpa using hidle)]
      simp only [hfp, hself]
      have hg : get_fproc (set_worker { set_fproc s p { get_fproc s p with fp_worker := none }
          with fp := some rfp } w
          { get_worker { set_fproc s p { get_fproc s p with fp_worker := none } with
            fp := some rfp } w with w_fp := some rfp }) rfp = get_fproc s rfp := by
        simp [set_worker, set_fproc, get_fproc, getD_set, Ne.symm hne]
      rw [hg]
      rfl
    have gF : ∀ q, get_fproc (set_fproc (set_worker { set_fproc s p
          { get_fproc s p with fp_worker := none } with fp := some rfp } w
          { get_worker s w with w_fp := some rfp }) rfp
          { get_fproc s rfp with fp_worker := some w }) q
        = if q = rfp then { get_fproc s rfp with fp_worker := some w }
          else if q = p then { get_fproc s p with fp_worker := none } else get_fproc s q := by
      intro q
      simp only [set_worker, set_fproc, get_fproc, getD_set, List.length_set]
      by_cases h1 : q = rfp
      · subst h1
        simp [hlt2]
      · by_cases h2 : q = p
        · subst h2
          simp [h1, Ne.symm h1, hp2]
        · simp [h1, h2, Ne.symm h1, Ne.symm h2]
    have gW : ∀ j, get_worker (set_fproc (set_worker { set_fproc s p
          { get_fproc s p with fp_worker := none } with fp := some rfp } w
          { get_worker s w with w_fp := some rfp }) rfp
          { get_fproc s rfp with fp_worker := some w }) j
        = if j = w then { get_worker s w with w_fp := some rfp } else get_worker s j := by
      intro j
      simp only [set_worker, set_fproc, get_worker, getD_set]
      by_cases h1 : j = w
      · subst h1
        simp [hw2]
      · simp [h1, Ne.symm h1]
    refine ⟨_, hst, ?_, ?_, ?_, rfl, rfl, rfl, rfl, ?_, ?_, ?_, ?_⟩
    · rw [gF p, if_neg (Ne.symm hne), if_pos rfl]
    · rw [gW w, if_pos rfl]
    · rw [gF rfp, if_pos rfl]
    · intro j hj
      rw [gW j, if_neg hj]
    · intro q h1 h2
      rw [gF q, if_neg h2, if_neg h1]
    · intro hbind q x
      rw [gF q, gW x]
      have hqx := hbind q x
      by_cases h1 : q = rfp
      · subst h1
        rw [if_pos rfl]
        by_cases h2 : x = w
        · subst h2
          simp
        · rw [if_neg h2]
          rw [hidle] at hqx
          simp only [Option.some.injEq]
          constructor
          · intro hc; exact absurd hc.symm h2
          · intro hc; exact absurd (hqx.2 hc) (by simp)
      · rw [if_neg h1]
        by_cases h2 : q = p
        · subst h2
          rw [if_pos rfl]
          by_cases h3 : x = w
          · subst h3
            rw [if_pos rfl]
            simp only [Option.some.injEq]
            constructor
            · intro hc; cases hc
            · intro hc; exact absurd hc.symm h1
          · rw [if_neg h3]
            rw [hb2] at hqx
            simp only [Option.some.injEq] at hqx
            constructor
            · intro hc; cases hc
            · intro hc; exact absurd (hqx.2 hc).symm h3
        · rw [if_neg h2]
          by_cases h3 : x = w
          · subst h3
            rw [if_pos rfl]
            rw [hb1] at hqx
            simp only [Option.some.injEq] at hqx ⊢
            constructor
            · intro hc; exact absurd (hqx.1 hc).symm h2
            · intro hc; exact absurd hc.symm h1
          · rw [if_neg h3]
            exact hqx
    · intro hc
      show s.busy = count_busy _
      rw [hc]
      unfold count_busy
      simp only [set_worker, set_fproc]
      symm
      exact countP_set_same (fun x => x.w_fp.isSome) s.workers w
        { get_worker s w with w_fp := some rfp } default
        (by
          have : (s.workers.getD w default).w_fp = some p := hb1
          simp only [this]
          rfl)


theorem set_proc_rebind_witness :
    running_two.self = some 0 ∧ running_two.fp = some 0 ∧ 0 < NR_WTHREADS running_two ∧
    (get_worker running_two 0).w_fp = some 0 ∧ (get_fproc running_two 0).fp_worker = some 0 ∧
    worker_set_proc running_two 0 = .ok running_two ∧
    ((get_fproc running_two 1).fp_worker ≠ none ∧
      worker_set_proc running_two 1 = .error (Fatal.target_not_idle, running_two)) ∧
    ((get_fproc running_two 2).fp_worker = none ∧ binding_ok running_two ∧
      running_two.busy = count_busy running_two ∧
      ∃ s1, worker_set_proc running_two 2 = .ok s1 ∧
        (get_fproc s1 0).fp_worker = none ∧ (get_worker s1 0).w_fp = some 2 ∧
        (get_fproc s1 2).fp_worker = some 0 ∧ s1.fp = some 2 ∧
        binding_ok s1 ∧ s1.busy = count_busy s1) := by
  have hI : Inv running_two := inv_run
    [Action.start 0 (some 7) msg0 false, Action.start 1 (some 8) msg0 false, Action.normal 0]
    _ running_two (inv_init (pool 3 4) (by unfold sizes_ok; decide) (fproc_unscheduled_pool 3 4))
    (by decide)
  have hb : running_two.busy = count_busy running_two := by decide
  obtain ⟨h1, h2, h3⟩ := set_proc_rebind running_two 0 0 0 (by decide) (by decide) (by decide)
    (by decide) (by decide) (by decide)
  obtain ⟨-, k2, -⟩ := set_proc_rebind running_two 0 0 1 (by decide) (by decide) (by decide)
    (by decide) (by decide) (by decide)
  obtain ⟨-, -, m3⟩ := set_proc_rebind running_two 0 0 2 (by decide) (by decide) (by decide)
    (by decide) (by decide) (by decide)
  obtain ⟨s1, a1, a2, a3, a4, a5, -, -, -, -, -, a6, a7⟩ := m3 (by decide) (by decide)
  exact ⟨by decide, by decide, by decide, by decide, by decide, h1 rfl,
    ⟨by decide, k2 (by decide) (by decide)⟩,
    ⟨by decide, hI.2.2.1, hb, s1, a1, a2, a3, a4, a5, a6 hI.2.2.1, a7 hb⟩⟩


/-! ## The guard `worker_can_start` -/

theorem worker_start_isOk (s : State) (rfp : Nat) (func : Option Nat) (m : message)
    (use_spare : Bool) (hN : 0 < NR_WTHREADS s)
    (hc : worker_start_checks s rfp func = none) :
    ∃ s1, worker_start s rfp func m use_spare = .ok s1 := by
  unfold worker_start
  simp only [hc]
  split
  · rcases worker_try_activate_cases (worker_start_save s rfp func m) rfp use_spare with h | h
    · rw [h]
      obtain ⟨v, -, -, -, hW, -⟩ := worker_start_save_fields s rfp func m
      exact worker_assign_isOk _ rfp (by simpa [NR_WTHREADS, hW] using hN)
    · rw [h]
      exact ⟨_, rfl⟩
  · exact ⟨_, rfl⟩

/-- C20. `worker_can_start(rfp)` returns TRUE exactly when `rfp` is neither
pending nor active, or `rfp` is pending and has no normal call stored; so it
returns FALSE for a process whose worker is active and that has no normal
call stored (postponed work only). In a state where no process is both
pending and active and no process that is neither pending nor active has
stored work, `worker_can_start(rfp) == TRUE` implies that the sanity checks
of `worker_start(rfp, func, m, use_spare)` with `func != NULL` end in none of
the panics, and, in a pool with at least one worker, that the call returns
normally. -/
theorem can_start_guard (s : State) (rfp : Nat) :
    (worker_can_start s rfp = true ↔
      (is_pending s rfp = false ∧ (get_fproc s rfp).fp_worker = none) ∨
      (is_pending s rfp = true ∧ (get_fproc s rfp).fp_func = none)) ∧
    (is_pending s rfp = false → (get_fproc s rfp).fp_worker ≠ none →
      worker_can_start s rfp = false) ∧
    ((∀ p, ¬ (is_pending s p = true ∧ (get_fproc s p).fp_worker ≠ none)) →
      (∀ p, is_pending s p = false → (get_fproc s p).fp_worker = none →
        (get_fproc s p).fp_func = none ∧ has_flag (get_fproc s p).fp_flags FP_PM_WORK = false) →
      worker_can_start s rfp = true →
      ∀ f m use_spare, worker_start_checks s rfp (some f) = none ∧
        (0 < NR_WTHREADS s → ∃ s1, worker_start s rfp (some f) m use_spare = .ok s1)) := by
  have hiff : worker_can_start s rfp = true ↔
      (is_pending s rfp = false ∧ (get_fproc s rfp).fp_worker = none) ∨
      (is_pending s rfp = true ∧ (get_fproc s rfp).fp_func = none) := by
    unfold worker_can_start is_pending
    cases hp : has_flag (get_fproc s rfp).fp_flags FP_PENDING <;>
      cases hw : (get_fproc s rfp).fp_worker <;>
      cases hf : (get_fproc s rfp).fp_func <;> simp
  refine ⟨hiff, ?_, ?_⟩
  · intro hp hw
    cases hc : worker_can_start s rfp with
    | false => rfl
    | true =>
      rcases hiff.1 hc with h | h
      · exact absurd h.2 hw
      · rw [hp] at h; cases h.1
  · intro hex hnw hc f m use_spare
    have hchk : worker_start_checks s rfp (some f) = none := by
      rcases hiff.1 hc with h | h
      · obtain ⟨h1, h2⟩ := hnw rfp h.1 h.2
        unfold is_pending at h
        simp [worker_start_checks, h.1, h.2, h1, h2]
      · have hw : (get_fproc s rfp).fp_worker = none := by
          by_contra hne
          exact hex rfp ⟨h.1, hne⟩
        unfold is_pending at h
        simp [worker_start_checks, h.1, h.2, hw]
    exact ⟨hchk, fun hN => worker_start_isOk s rfp (some f) m use_spare hN hchk⟩

theorem can_start_guard_witness :
    (∀ p, p < NR_PROCS gated_queue →
      ¬ (is_pending gated_queue p = true ∧ (get_fproc gated_queue p).fp_worker ≠ none)) ∧
    worker_can_start gated_queue 1 = true ∧ worker_can_start gated_queue 3 = false ∧
    worker_can_start gated_queue 0 = true ∧
    worker_start_checks gated_queue 1 (some 4) = none ∧
    ∃ s1, worker_start gated_queue 1 (some 4) msg0 false = .ok s1 := by
  have hI : Inv gated_queue := inv_run
    [Action.allow false, Action.start 3 (some 7) msg0 false, Action.start 1 none msg0 false]
    _ gated_queue (inv_init (pool 3 5) (by unfold sizes_ok; decide) (fproc_unscheduled_pool 3 5))
    (by decide)
  have hnw : ∀ p, is_pending gated_queue p = false → (get_fproc gated_queue p).fp_worker = none →
      (get_fproc gated_queue p).fp_func = none ∧
        has_flag (get_fproc gated_queue p).fp_flags FP_PM_WORK = false := by
    intro p
    by_cases hp : p < 5
    · interval_cases p <;> decide
    · rw [get_fproc_of_ge gated_queue p (by simp only [NR_PROCS]; exact Nat.le_of_not_lt hp)]
      intro _ _
      exact ⟨rfl, rfl⟩
  obtain ⟨h1, h2⟩ := (can_start_guard gated_queue 1).2.2 hI.2.2.2 hnw (by decide) 4 msg0 false
  exact ⟨fun p _ => hI.2.2.2 p, by decide, by decide, by decide, h1, h2 (by decide)⟩


/-! ## An idle worker taking pending work -/

/-- The scan of `worker_get_work` claims the first pending process of its
list. -/
theorem worker_get_work_loop_first (l : List Nat) (s : State) (self p : Nat) (rest : List Nat)
    (hpos : 0 < s.pending) (hf : l.filter (is_pending s) = p :: rest) :
    worker_get_work_loop s self l = .ok (GetWork.claimed (claimed_state s self p)) := by
  induction l with
  | nil => simp at hf
  | cons x xs ih =>
    rw [worker_get_work_loop]
    rw [List.filter_cons] at hf
    by_cases hx : is_pending s x = true
    · rw [if_pos hx] at hf
      injection hf with h1 h2
      subst h1
      rw [if_pos (show has_flag (get_fproc s x).fp_flags FP_PENDING = true from hx)]
      simp only [set_fproc, set_worker]
      rw [if_neg (by omega)]
      rfl
    · rw [if_neg hx] at hf
      rw [if_neg (show ¬ has_flag (get_fproc s x).fp_flags FP_PENDING = true from hx)]
      exact ih hf

/-- The entries of the two tables in the state after a claim. -/
theorem claimed_state_entries (s : State) (self p : Nat) (hw : self < NR_WTHREADS s)
    (hp : p < NR_PROCS s) :
    get_worker (claimed_state s self p) self = { get_worker s self with w_fp := some p } ∧
    (∀ j, j ≠ self → get_worker (claimed_state s self p) j = get_worker s j) ∧
    get_fproc (claimed_state s self p) p
      = { get_fproc s p with
          fp_worker := some self
          fp_flags := clear_flag (get_fproc s p).fp_flags FP_PENDING } ∧
    (∀ q, q ≠ p → get_fproc (claimed_state s self p) q = get_fproc s q) := by
  have hw2 : self < s.workers.length := hw
  have hp2 : p < s.fproc.length := hp
  refine ⟨?_, ?_, ?_, ?_⟩
  · simp [claimed_state, set_worker, set_fproc, get_worker, getD_set, hw2]
  · intro j hj
    simp [claimed_state, set_worker, set_fproc, get_worker, getD_set, Ne.symm hj]
  · simp [claimed_state, set_worker, set_fproc, get_fproc, getD_set, hp2]
  · intro q hq
    simp [claimed_state, set_worker, set_fproc, get_fproc, getD_set, Ne.symm hq]

/-- C19. When an idle worker `w` (`w_fp == NULL`) calls `worker_get_work` in
a state satisfying the counter invariant: if `pending > 0`,
`NR_WTHREADS - busy > 1` and `block_all` is false, it returns TRUE without
sleeping (no event is added to the trace), bound both ways to the
lowest-indexed process flagged FP_PENDING, with that flag cleared, `pending`
decremented and `busy` incremented, and every other worker and process
unchanged; the "Pending work inconsistency" panic is not reached. If one of
the three conditions fails it claims nothing and parks in the state of the
call; the value it returns after wake-up is TRUE if a process is then
assigned to it and FALSE if none is. -/
theorem get_work_claim (s : State) (w : Nat) (hself : s.self = some w)
    (hw : w < NR_WTHREADS s) (hidle : (get_worker s w).w_fp = none) (hs : sizes_ok s)
    (hc : counters_ok s) :
    (0 < s.pending → 1 < (NR_WTHREADS s : Int) - (s.busy : Int) → s.block_all = false →
      ∃ p s1, (pending_procs s).head? = some p ∧
        worker_get_work s = .ok (GetWork.claimed s1) ∧
        (get_worker s1 w).w_fp = some p ∧ (get_fproc s1 p).fp_worker = some w ∧
        is_pending s1 p = false ∧ s1.pending + 1 = s.pending ∧ s1.busy = s.busy + 1 ∧
        (∀ j, j ≠ w → get_worker s1 j = get_worker s j) ∧
        (∀ q, q ≠ p → get_fproc s1 q = get_fproc s q) ∧ s1.trace = s.trace) ∧
    (¬ (0 < s.pending ∧ 1 < (NR_WTHREADS s : Int) - (s.busy : Int) ∧ s.block_all = false) →
      worker_get_work s = .ok (GetWork.parked s)) ∧
    (∀ s2, (worker_get_work_wakeup s2 w = true ↔ (get_worker s2 w).w_fp ≠ none) ∧
      (worker_get_work_wakeup s2 w = false ↔ (get_worker s2 w).w_fp = none)) := by
  have hble : s.busy ≤ NR_WTHREADS s := by rw [hc.2]; exact count_busy_le s
  have hav := worker_available_eq s hs.1 hble
  have hple : s.pending ≤ NR_PROCS s := by rw [hc.1]; exact count_pending_le s
  refine ⟨?_, ?_, ?_⟩
  · intro hpos hroom hbl
    have hlen := count_pending_eq_length s
    cases hpp : pending_procs s with
    | nil =>
      rw [hpp] at hlen
      simp only [List.length_nil] at hlen
      rw [hc.1] at hpos
      omega
    | cons p rest =>
      have hpm : p ∈ pending_procs s := by rw [hpp]; exact List.mem_cons_self _ _
      have hpl : p < NR_PROCS s := by
        unfold pending_procs at hpm
        exact List.mem_range.1 (List.mem_filter.1 hpm).1
      obtain ⟨e1, e2, e3, e4⟩ := claimed_state_entries s w p hw hpl
      refine ⟨p, claimed_state s w p, rfl, ?_, ?_, ?_, ?_, ?_, ?_, e2, e4, rfl⟩
      · unfold worker_get_work
        simp only [hself]
        rw [if_neg (by simpa using hidle)]
        have hm : worker_may_do_pending s = true := by
          rw [worker_may_do_pending_iff, hav]
          exact ⟨hpos, hroom, hbl⟩
        rw [if_pos hm]
        exact worker_get_work_loop_first _ s w p rest hpos hpp
      · rw [e1]
      · rw [e3]
      · unfold is_pending
        rw [e3]
        exact has_flag_clear_self _ _
      · show uint_dec s.pending + 1 = s.pending
        have := hs.2
        unfold uint_dec
        omega
      · show uint_inc s.busy = s.busy + 1
        have := hs.1
        unfold uint_inc
        omega
  · intro hn
    unfold worker_get_work
    simp only [hself]
    rw [if_neg (by simpa using hidle)]
    have hm : ¬ worker_may_do_pending s = true := by
      rw [worker_may_do_pending_iff, hav]
      exact hn
    rw [if_neg hm]
  · intro s2
    unfold worker_get_work_wakeup
    cases (get_worker s2 w).w_fp <;> simp

theorem get_work_claim_witness :
    ({ gated_queue with self := some 2, block_all := false } : State).self = some 2 ∧
    2 < NR_WTHREADS { gated_queue with self := some 2, block_all := false } ∧
    (get_worker { gated_queue with self := some 2, block_all := false } 2).w_fp = none ∧
    sizes_ok { gated_queue with self := some 2, block_all := false } ∧
    counters_ok { gated_queue with self := some 2, block_all := false } ∧
    (∃ p s1, (pending_procs { gated_queue with self := some 2, block_all := false }).head?
          = some p ∧ p = 1 ∧
        worker_get_work { gated_queue with self := some 2, block_all := false }
          = .ok (GetWork.claimed s1) ∧
        (get_worker s1 2).w_fp = some p ∧ (get_fproc s1 p).fp_worker = some 2 ∧
        s1.pending + 1 = 2 ∧ s1.busy = 1) ∧
    worker_get_work { gated_queue with self := some 2 }
      = .ok (GetWork.parked { gated_queue with self := some 2 }) := by
  have hs : sizes_ok { gated_queue with self := some 2, block_all := false } := by
    unfold sizes_ok; decide
  have hc : counters_ok { gated_queue with self := some 2, block_all := false } := by
    unfold counters_ok; decide
  obtain ⟨p, s1, h1, h2, h3, h4, -, h5, h6, -⟩ :=
    (get_work_claim { gated_queue with self := some 2, block_all := false } 2 rfl (by decide)
      (by decide) hs hc).1 (by decide) (by decide) rfl
  have hp : p = 1 := by
    have : (pending_procs { gated_queue with self := some 2, block_all := false }).head?
        = some 1 := by decide
    rw [this] at h1
    injection h1 with h1
    exact h1.symm
  refine ⟨rfl, by decide, by decide, hs, hc, ⟨p, s1, h1, hp, h2, h3, h4, h5, h6⟩, ?_⟩
  exact (get_work_claim { gated_queue with self := some 2 } 2 rfl (by decide) (by decide)
    (by unfold sizes_ok; decide) (by unfold counters_ok; decide)).2.1 (by decide)


/-! ## The worker cycle -/

theorem clear_flag_of_not (f m : Nat) (h : has_flag f m = false) : clear_flag f m = f := by
  unfold has_flag at h
  have h0 : f &&& m = 0 := by simpa using h
  unfold clear_flag
  rw [h0]
  simp

/-- The first block of the loop body: what it leaves in the tables. -/
theorem worker_main_normal_fields (s : State) (self fp : Nat) (hw : self < NR_WTHREADS s)
    (hp : fp < NR_PROCS s) :
    get_fproc (worker_main_normal s self fp) fp = { get_fproc s fp with fp_func := none } ∧
    (∀ q, q ≠ fp → get_fproc (worker_main_normal s self fp) q = get_fproc s q) ∧
    (∀ j, (get_worker (worker_main_normal s self fp) j).w_fp = (get_worker s j).w_fp) ∧
    (∀ j, j ≠ self → get_worker (worker_main_normal s self fp) j = get_worker s j) ∧
    (worker_main_normal s self fp).trace = s.trace ++
      (match (get_fproc s fp).fp_func with
        | some f => [Event.call_func f self]
        | none => []) ∧
    (worker_main_normal s self fp).busy = s.busy ∧
    (worker_main_normal s self fp).pending = s.pending ∧
    NR_WTHREADS (worker_main_normal s self fp) = NR_WTHREADS s ∧
    NR_PROCS (worker_main_normal s self fp) = NR_PROCS s := by
  have hp2 : fp < s.fproc.length := hp
  have hw2 : self < s.workers.length := hw
  unfold worker_main_normal
  cases hf : (get_fproc s fp).fp_func with
  | none =>
    refine ⟨?_, fun _ _ => rfl, fun _ => rfl, fun _ _ => rfl, by simp, rfl, rfl, rfl, rfl⟩
    show get_fproc s fp = { get_fproc s fp with fp_func := none }
    cases hg : get_fproc s fp with
    | mk a b c d e =>
      rw [hg] at hf
      simp only at hf
      rw [hf]
  | some f =>
    refine ⟨?_, ?_, ?_, ?_, rfl, rfl, rfl, ?_, ?_⟩
    · simp only [set_fproc, set_worker, emit, get_fproc, getD_set]
      simp [hp2]
    · intro q hq
      simp [set_fproc, set_worker, emit, get_fproc, getD_set, Ne.symm hq]
    · intro j
      by_cases hj : self = j
      · subst hj
        simp [set_fproc, set_worker, emit, get_worker, getD_set, hw2]
      · simp [set_fproc, set_worker, emit, get_worker, getD_set, hj]
    · intro j hj
      simp [set_fproc, set_worker, emit, get_worker, getD_set, Ne.symm hj]
    · simp [NR_WTHREADS, set_fproc, set_worker, emit]
    · simp [NR_PROCS, set_fproc, set_worker, emit]

/-- The second block of the loop body: what it leaves in the tables. -/
theorem worker_main_postponed_fields (s : State) (self fp : Nat) (hw : self < NR_WTHREADS s)
    (hp : fp < NR_PROCS s) :
    get_fproc (worker_main_postponed s self fp) fp
      = { get_fproc s fp with fp_flags := clear_flag (get_fproc s fp).fp_flags FP_PM_WORK } ∧
    (∀ q, q ≠ fp → get_fproc (worker_main_postponed s self fp) q = get_fproc s q) ∧
    (∀ j, (get_worker (worker_main_postponed s self fp) j).w_fp = (get_worker s j).w_fp) ∧
    (∀ j, j ≠ self → get_worker (worker_main_postponed s self fp) j = get_worker s j) ∧
    (worker_main_postponed s self fp).trace = s.trace ++
      (if has_flag (get_fproc s fp).fp_flags FP_PM_WORK then [Event.call_pm_postponed self]
        else []) ∧
    (worker_main_postponed s self fp).busy = s.busy ∧
    (worker_main_postponed s self fp).pending = s.pending ∧
    NR_WTHREADS (worker_main_postponed s self fp) = NR_WTHREADS s ∧
    NR_PROCS (worker_main_postponed s self fp) = NR_PROCS s := by
  have hp2 : fp < s.fproc.length := hp
  have hw2 : self < s.workers.length := hw
  unfold worker_main_postponed
  by_cases hf : has_flag (get_fproc s fp).fp_flags FP_PM_WORK = true
  · rw [if_pos hf, if_pos hf]
    refine ⟨?_, ?_, ?_, ?_, rfl, rfl, rfl, ?_, ?_⟩
    · simp only [set_fproc, set_worker, emit, get_fproc, getD_set]
      simp [hp2]
    · intro q hq
      simp [set_fproc, set_worker, emit, get_fproc, getD_set, Ne.symm hq]
    · intro j
      by_cases hj : self = j
      · subst hj
        simp [set_fproc, set_worker, emit, get_worker, getD_set, hw2]
      · simp [set_fproc, set_worker, emit, get_worker, getD_set, hj]
    · intro j hj
      simp [set_fproc, set_worker, emit, get_worker, getD_set, Ne.symm hj]
    · simp [NR_WTHREADS, set_fproc, set_worker, emit]
    · simp [NR_PROCS, set_fproc, set_worker, emit]
  · rw [if_neg hf, if_neg hf]
    refine ⟨?_, fun _ _ => rfl, fun _ => rfl, fun _ _ => rfl, by simp, rfl, rfl, rfl, rfl⟩
    rw [clear_flag_of_not _ _ (by simpa using hf)]

/-- The end of the loop body: what it leaves in the tables. -/
theorem worker_main_unbind_fields (s : State) (self fp : Nat) (hw : self < NR_WTHREADS s)
    (hp : fp < NR_PROCS s) (hbz : 0 < s.busy) (hbl : s.busy < 4294967296) :
    ∃ s1, worker_main_unbind s self fp = .ok s1 ∧
      get_fproc s1 fp = { get_fproc s fp with fp_worker := none } ∧
      (∀ q, q ≠ fp → get_fproc s1 q = get_fproc s q) ∧
      get_worker s1 self = { get_worker s self with w_fp := none } ∧
      (∀ j, j ≠ self → get_worker s1 j = get_worker s j) ∧
      s1.trace = s.trace ++ [Event.thread_cleanup self, Event.unlock_proc fp] ∧
      s1.busy + 1 = s.busy ∧ s1.pending = s.pending := by
  have hp2 : fp < s.fproc.length := hp
  have hw2 : self < s.workers.length := hw
  unfold worker_main_unbind
  simp only
  rw [if_neg (by simp only [set_worker, set_fproc, emit]; omega)]
  refine ⟨_, rfl, ?_, ?_, ?_, ?_, ?_, ?_, rfl⟩
  · simp [set_fproc, set_worker, emit, get_fproc, getD_set, hp2]
  · intro q hq
    simp [set_fproc, set_worker, emit, get_fproc, getD_set, Ne.symm hq]
  · simp [set_fproc, set_worker, emit, get_worker, getD_set, hw2]
  · intro j hj
    simp [set_fproc, set_worker, emit, get_worker, getD_set, Ne.symm hj]
  · simp [set_fproc, set_worker, emit]
  · simp only [set_fproc, set_worker, emit, uint_dec]
    omega


theorem worker_main_body_eq (s : State) (w p : Nat)
    (hb1 : (get_worker s w).w_fp = some p) (hb2 : (get_fproc s p).fp_worker = some w) :
    worker_main_body s w
      = worker_main_unbind (worker_main_postponed (worker_main_normal (after_lock s w p) w p) w p)
          w p := by
  unfold worker_main_body
  rw [hb1]
  simp only
  have hg : get_fproc { s with self := some w, fp := some p } p = get_fproc s p := rfl
  rw [if_neg (by rw [hg, hb2]; simp)]
  rfl

theorem filter_range_cons (n k : Nat) (P Q : Nat → Bool) (hk : k < n) (hPk : P k = true)
    (hlow : ∀ j, j < k → P j = false) (hQk : Q k = false) (hoth : ∀ j, j ≠ k → Q j = P j) :
    (List.range n).filter P = k :: (List.range n).filter Q := by
  induction n with
  | zero => omega
  | succ m ih =>
    rw [List.range_succ, List.filter_append, List.filter_append]
    by_cases hkm : k = m
    · subst hkm
      have h1 : (List.range k).filter P = [] := by
        rw [List.filter_eq_nil_iff]
        intro a ha
        rw [hlow a (List.mem_range.1 ha)]
        simp
      have h2 : (List.range k).filter Q = [] := by
        rw [List.filter_eq_nil_iff]
        intro a ha
        have hak := List.mem_range.1 ha
        rw [hoth a (by omega), hlow a hak]
        simp
      rw [h1, h2]
      simp [hPk, hQk]
    · rw [ih (by omega)]
      have : [m].filter Q = [m].filter P := by
        simp only [List.filter_cons, List.filter_nil, hoth m (fun hc => hkm hc.symm)]
      rw [this]
      rfl

/-- One round of the scan of `worker_allow` on a pending process in a state
satisfying the busy-counter invariant with a free worker: the process is
unflagged and uncounted and bound to the lowest free worker; nothing else
changes. -/
theorem drain_round_gen (s : State) (rfp : Nat) (hlt : rfp < NR_PROCS s)
    (hN : NR_WTHREADS s < 2147483648) (hbusy : s.busy = count_busy s)
    (hfree : s.busy < NR_WTHREADS s) (hpos : 0 < s.pending) (hpb : s.pending < 4294967296) :
    ∃ s3 k, worker_assign (unpend s rfp) rfp = .ok s3 ∧
      free_workers s = k :: free_workers s3 ∧
      s3.pending + 1 = s.pending ∧ s3.busy = s.busy + 1 ∧ s3.busy = count_busy s3 ∧
      s3.block_all = s.block_all ∧ NR_WTHREADS s3 = NR_WTHREADS s ∧
      NR_PROCS s3 = NR_PROCS s ∧
      (get_fproc s3 rfp).fp_worker = some k ∧ is_pending s3 rfp = false ∧
      (∀ q, q ≠ rfp → get_fproc s3 q = get_fproc s q) ∧
      (get_worker s3 k).w_fp = some rfp ∧
      (∀ j, j ≠ k → get_worker s3 j = get_worker s j) := by
  obtain ⟨f1, f2, f3⟩ := find_free_worker_spec s (by rw [← hbusy]; exact hfree)
  have hk2 : find_free_worker (unpend s rfp) = find_free_worker s := rfl
  obtain ⟨s3, h3⟩ := worker_assign_isOk (unpend s rfp) rfp
    (show 0 < NR_WTHREADS s by omega)
  obtain ⟨hF, hW, hbz, hp, hbl, -⟩ := worker_assign_fields _ s3 rfp h3
  rw [hk2] at hF hW
  have hlt2 : rfp < NR_PROCS (unpend s rfp) := by simpa [NR_PROCS, unpend, set_fproc] using hlt
  have hgu := get_fproc_unpend s rfp hlt
  have hWk : (get_worker s3 (find_free_worker s)).w_fp = some rfp := by
    rw [get_worker_of_set _ s3 _ _ _ hW]
    rw [if_pos ⟨rfl, f1⟩]
  have hWo : ∀ j, j ≠ find_free_worker s → get_worker s3 j = get_worker s j := by
    intro j hj
    rw [get_worker_of_set _ s3 _ j _ hW, if_neg (fun hc => hj hc.1.symm)]
    rfl
  have hNW : NR_WTHREADS s3 = NR_WTHREADS s := by simp [NR_WTHREADS, hW, unpend, set_fproc]
  have hb3 : s3.busy = s.busy + 1 := by
    rw [hbz]
    show uint_inc s.busy = s.busy + 1
    unfold uint_inc
    omega
  refine ⟨s3, find_free_worker s, h3, ?_, ?_, hb3, ?_, hbl, hNW, ?_, ?_, ?_, ?_, hWk, hWo⟩
  · unfold free_workers
    rw [hNW]
    exact filter_range_cons _ _ (is_free s) (is_free s3) f1
      (by unfold is_free; rw [f2]; rfl)
      (fun j hj => by
        unfold is_free
        cases hx : (get_worker s j).w_fp with
        | none => exact absurd hx (f3 j hj)
        | some v => rfl)
      (by unfold is_free; rw [hWk]; rfl)
      (fun j hj => by unfold is_free; rw [hWo j hj])
  · rw [hp]
    show uint_dec s.pending + 1 = s.pending
    unfold uint_dec
    omega
  · rw [hb3, hbusy]
    have h := countP_set (fun x => x.w_fp.isSome) s.workers (find_free_worker s)
      { get_worker s (find_free_worker s) with w_fp := some rfp } default f1
    have hf2 : (s.workers.getD (find_free_worker s) default).w_fp = none := f2
    simp only [hf2] at h
    simp only [count_busy, hW]
    have hu : (unpend s rfp).workers = s.workers := rfl
    have hgw : get_worker (unpend s rfp) (find_free_worker s) = get_worker s (find_free_worker s) :=
      rfl
    rw [hu, hgw]
    simp at h
    omega
  · simp [NR_PROCS, hF, unpend, set_fproc]
  · rw [get_fproc_of_set _ s3 rfp rfp _ hF]
    simp [hlt2]
  · unfold is_pending
    rw [get_fproc_of_set _ s3 rfp rfp _ hF]
    simp only [hlt2, and_self, if_true, hgu]
    exact has_flag_clear_self _ _
  · intro q hq
    rw [get_fproc_of_set _ s3 rfp q _ hF, if_neg (fun hc => hq hc.1.symm)]
    rw [get_fproc_of_set s (unpend s rfp) rfp q _ rfl, if_neg (fun hc => hq hc.1.symm)]


/-- The scan of `worker_allow`, entered with `worker_may_do_pending()` true
in a state satisfying the busy-counter invariant: it moves the first
`drain_count` pending processes of the remaining slots to the first free
workers, in order, and changes nothing else. -/
theorem bounded_drain_loop (l : List Nat) (s : State) (hnd : l.Nodup)
    (hlt : ∀ p ∈ l, p < NR_PROCS s) (hN : NR_WTHREADS s < 2147483648)
    (hbusy : s.busy = count_busy s)
    (hpend : s.pending = (l.filter (is_pending s)).length) (hpb : s.pending < 4294967296)
    (hm : worker_may_do_pending s = true) :
    ∃ s1, worker_allow_loop s l = .ok s1 ∧
      s1.pending + drain_count s = s.pending ∧ s1.busy = s.busy + drain_count s ∧
      NR_WTHREADS s1 = NR_WTHREADS s ∧ NR_PROCS s1 = NR_PROCS s ∧
      s1.block_all = s.block_all ∧
      (∀ (i p : Nat), i < drain_count s → (l.filter (is_pending s))[i]? = some p →
        is_pending s1 p = false ∧
        ∃ w, (free_workers s)[i]? = some w ∧ (get_fproc s1 p).fp_worker = some w ∧
          (get_worker s1 w).w_fp = some p) ∧
      (∀ q, q ∉ (l.filter (is_pending s)).take (drain_count s) →
        get_fproc s1 q = get_fproc s q) ∧
      (∀ j, j ∉ (free_workers s).take (drain_count s) → get_worker s1 j = get_worker s j) := by
  induction l generalizing s with
  | nil =>
    have h0 : s.pending = 0 := by simpa using hpend
    have := ((worker_may_do_pending_iff s).1 hm).1
    omega
  | cons rfp rest ih =>
    obtain ⟨hnotin, hnd2⟩ := List.nodup_cons.1 hnd
    obtain ⟨hpos, hav1, hbl⟩ := (worker_may_do_pending_iff s).1 hm
    have hble : s.busy ≤ NR_WTHREADS s := by rw [hbusy]; exact count_busy_le s
    rw [worker_available_eq s hN hble] at hav1
    by_cases hp : is_pending s rfp = true
    · have hfil : (rfp :: rest).filter (is_pending s) = rfp :: rest.filter (is_pending s) := by
        rw [List.filter_cons, if_pos hp]
      rw [hfil] at hpend ⊢
      simp only [List.length_cons] at hpend
      obtain ⟨s3, k, h3, r0, r1, r2, r2c, r3, r4, r5, r6, r7, r8, r9, r10⟩ :=
        drain_round_gen s rfp (hlt rfp (List.mem_cons_self _ _)) hN hbusy (by omega) hpos hpb
      rw [worker_allow_loop_cons_pending s rfp rest hp hpos, h3]
      simp only
      have hfc : rest.filter (is_pending s3) = rest.filter (is_pending s) := by
        apply List.filter_congr
        intro q hq
        unfold is_pending
        rw [r8 q (fun hc => hnotin (hc ▸ hq))]
      have hav3 : worker_available s3 = (NR_WTHREADS s3 : Int) - (s3.busy : Int) :=
        worker_available_eq s3 (by rw [r4]; exact hN) (by rw [r4, r2]; omega)
      have hknot : k ∉ free_workers s3 := by
        intro hc
        unfold free_workers at hc
        have := (List.mem_filter.1 hc).2
        unfold is_free at this
        rw [r9] at this
        cases this
      by_cases hm3 : worker_may_do_pending s3 = true
      · obtain ⟨hpos3, hav3b, -⟩ := (worker_may_do_pending_iff s3).1 hm3
        rw [hav3, r4, r2] at hav3b
        rw [hm3]
        simp only [Bool.not_true, Bool.false_eq_true, if_false]
        obtain ⟨s1, i1, i2, i3, i4, i5, i6, i7, i8, i9⟩ := ih s3 hnd2
          (fun q hq => by rw [r5]; exact hlt q (List.mem_cons_of_mem _ hq))
          (by rw [r4]; exact hN) r2c (by rw [hfc]; omega) (by omega) hm3
        have hdc : drain_count s = drain_count s3 + 1 := by
          unfold drain_count
          rw [r4, r2]
          omega
        rw [hfc] at i7 i8
        rw [hdc, r0]
        refine ⟨s1, i1, by omega, by omega, by rw [i4, r4], by rw [i5, r5], by rw [i6, r3],
          ?_, ?_, ?_⟩
        · intro i p hi hip
          cases i with
          | zero =>
            simp only [List.getElem?_cons_zero, Option.some.injEq] at hip
            subst hip
            have hni : rfp ∉ (rest.filter (is_pending s)).take (drain_count s3) := fun hc2 =>
              hnotin (List.mem_of_mem_filter (List.mem_of_mem_take hc2))
            have hg := i8 rfp hni
            have hgw := i9 k (fun hc2 => hknot (List.mem_of_mem_take hc2))
            refine ⟨?_, k, List.getElem?_cons_zero, by rw [hg]; exact r6, by rw [hgw]; exact r9⟩
            unfold is_pending at r7 ⊢
            rw [hg]; exact r7
          | succ n =>
            simp only [List.getElem?_cons_succ] at hip ⊢
            exact i7 n p (by omega) hip
        · intro q hq
          simp only [List.take_succ_cons, List.mem_cons, not_or] at hq
          rw [i8 q hq.2, r8 q hq.1]
        · intro j hj
          simp only [List.take_succ_cons, List.mem_cons, not_or] at hj
          rw [i9 j hj.2, r10 j hj.1]
      · have hm2 : worker_may_do_pending s3 = false := by simpa using hm3
        rw [hm2]
        simp only [Bool.not_false, if_true]
        have hdc : drain_count s = 1 := by
          unfold drain_count
          have hnm : ¬ (0 < s3.pending ∧ 1 < worker_available s3 ∧ s3.block_all = false) :=
            fun hc => hm3 ((worker_may_do_pending_iff s3).2 hc)
          rw [hav3, r4, r2, r3] at hnm
          by_cases h0 : s3.pending = 0
          · omega
          · have : ¬ (1 : Int) < (NR_WTHREADS s : Int) - ((s.busy + 1 : Nat) : Int) :=
              fun hc => hnm ⟨Nat.pos_of_ne_zero h0, hc, hbl⟩
            omega
        rw [hdc, r0]
        refine ⟨s3, rfl, r1, r2, r4, r5, r3, ?_, ?_, ?_⟩
        · intro i p hi hip
          have hi0 : i = 0 := by omega
          subst hi0
          simp only [List.getElem?_cons_zero, Option.some.injEq] at hip
          subst hip
          exact ⟨r7, k, List.getElem?_cons_zero, r6, r9⟩
        · intro q hq
          simp only [List.take_succ_cons, List.take_zero, List.mem_cons, List.not_mem_nil,
            or_false] at hq
          exact r8 q hq
        · intro j hj
          simp only [List.take_succ_cons, List.take_zero, List.mem_cons, List.not_mem_nil,
            or_false] at hj
          exact r10 j hj
    · have hp2 : is_pending s rfp = false := by simpa using hp
      have hfil : (rfp :: rest).filter (is_pending s) = rest.filter (is_pending s) := by
        rw [List.filter_cons, if_neg hp]
      rw [hfil] at hpend ⊢
      rw [worker_allow_loop_cons_skip s rfp rest hp2]
      exact ih s hnd2 (fun q hq => hlt q (List.mem_cons_of_mem _ hq)) hN hbusy hpend hpb hm


/-- C15. Bounded drain: in a state satisfying the counter invariant, with
`p = pending` and `a = NR_WTHREADS - busy`, `worker_allow(TRUE)` returns
normally and moves exactly `min(p, max(a - 1, 0))` processes from pending to
active: the `i`-th process flagged FP_PENDING in table order, for `i` below
that number, has its flag cleared and is bound both ways to the `i`-th free
worker; every other process and every other worker is unchanged; `pending`
decreases and `busy` increases by that number. At the end `pending` is 0 or
at most one worker is idle, and if a worker was idle before the call one
still is: the last idle worker is never assigned. -/
theorem bounded_drain (s : State) (hs : sizes_ok s) (hc : counters_ok s) :
    ∃ s1, worker_allow s true = .ok s1 ∧
      drain_count s = min s.pending (NR_WTHREADS s - s.busy - 1) ∧
      s1.pending + drain_count s = s.pending ∧ s1.busy = s.busy + drain_count s ∧
      (∀ (i p : Nat), i < drain_count s → (pending_procs s)[i]? = some p →
        is_pending s1 p = false ∧
        ∃ w, (free_workers s)[i]? = some w ∧ (get_fproc s1 p).fp_worker = some w ∧
          (get_worker s1 w).w_fp = some p) ∧
      (∀ q, q ∉ (pending_procs s).take (drain_count s) → get_fproc s1 q = get_fproc s q) ∧
      (∀ j, j ∉ (free_workers s).take (drain_count s) → get_worker s1 j = get_worker s j) ∧
      (s1.pending = 0 ∨ NR_WTHREADS s1 - s1.busy ≤ 1) ∧
      (s.busy < NR_WTHREADS s → s1.busy < NR_WTHREADS s1) ∧ s1.block_all = false := by
  have hble : s.busy ≤ NR_WTHREADS s := by rw [hc.2]; exact count_busy_le s
  have hple : s.pending ≤ NR_PROCS s := by rw [hc.1]; exact count_pending_le s
  have hlen := count_pending_eq_length s
  have hav : worker_available { s with block_all := false }
      = (NR_WTHREADS s : Int) - (s.busy : Int) :=
    worker_available_eq { s with block_all := false } hs.1 hble
  unfold worker_allow
  simp only [Bool.not_true]
  by_cases hm : worker_may_do_pending { s with block_all := false } = true
  · rw [hm]
    simp only [Bool.not_true, Bool.false_eq_true, if_false]
    obtain ⟨s1, d1, d2, d3, d4, d5, d6, d7, d8, d9⟩ :=
      bounded_drain_loop (List.range (NR_PROCS s)) { s with block_all := false }
        (List.nodup_range _) (fun p hp => List.mem_range.1 hp) hs.1 hc.2
        (by
          show s.pending = (pending_procs s).length
          rw [hc.1, hlen])
        (by
          have := hs.2
          show s.pending < 4294967296
          omega) hm
    have hdc : drain_count { s with block_all := false } = drain_count s := rfl
    have hfw : free_workers { s with block_all := false } = free_workers s := rfl
    rw [hdc] at d2 d3 d7 d8 d9
    rw [hfw] at d7 d9
    have hb1 : s1.busy = s.busy + drain_count s := d3
    have hp1 : s1.pending + drain_count s = s.pending := d2
    have hN1 : NR_WTHREADS s1 = NR_WTHREADS s := d4
    refine ⟨s1, d1, rfl, hp1, hb1, d7, d8, d9, ?_, ?_, d6⟩
    · rw [hN1, hb1]
      unfold drain_count at hp1 ⊢
      omega
    · intro hlt
      rw [hN1, hb1]
      unfold drain_count
      omega
  · have hm2 : worker_may_do_pending { s with block_all := false } = false := by simpa using hm
    rw [hm2]
    simp only [Bool.not_false, if_true]
    have hnm : ¬ (0 < s.pending ∧ 1 < (NR_WTHREADS s : Int) - (s.busy : Int)) := by
      intro h
      apply hm
      rw [worker_may_do_pending_iff, hav]
      exact ⟨h.1, h.2, rfl⟩
    have hdc : drain_count s = 0 := by
      unfold drain_count
      by_cases h0 : s.pending = 0
      · omega
      · have : ¬ (1 : Int) < (NR_WTHREADS s : Int) - (s.busy : Int) :=
          fun hc2 => hnm ⟨Nat.pos_of_ne_zero h0, hc2⟩
        omega
    rw [hdc]
    refine ⟨{ s with block_all := false }, rfl, ?_, rfl, rfl, ?_, fun _ _ => rfl, fun _ _ => rfl,
      ?_, fun h => h, rfl⟩
    · unfold drain_count at hdc
      exact hdc.symm
    · intro i p hi
      omega
    · show s.pending = 0 ∨ NR_WTHREADS s - s.busy ≤ 1
      by_cases h0 : s.pending = 0
      · exact Or.inl h0
      · have : ¬ (1 : Int) < (NR_WTHREADS s : Int) - (s.busy : Int) :=
          fun hc2 => hnm ⟨Nat.pos_of_ne_zero h0, hc2⟩
        right
        omega

theorem bounded_drain_witness :
    sizes_ok crowded_queue ∧ counters_ok crowded_queue ∧
    crowded_queue.pending = 3 ∧ crowded_queue.busy = 2 ∧ NR_WTHREADS crowded_queue = 4 ∧
    pending_procs crowded_queue = [1, 4, 5] ∧ free_workers crowded_queue = [1, 3] ∧
    ∃ s1, worker_allow crowded_queue true = .ok s1 ∧ s1.pending = 2 ∧ s1.busy = 3 ∧
      is_pending s1 1 = false ∧ (get_fproc s1 1).fp_worker = some 1 ∧
      (get_worker s1 1).w_fp = some 1 ∧
      get_fproc s1 4 = get_fproc crowded_queue 4 ∧ get_fproc s1 5 = get_fproc crowded_queue 5 ∧
      get_worker s1 3 = get_worker crowded_queue 3 := by
  have hs : sizes_ok crowded_queue := by unfold sizes_ok; decide
  have hc : counters_ok crowded_queue := by unfold counters_ok; decide
  obtain ⟨s1, h1, h2, h3, h4, h5, h6, h7, -⟩ := bounded_drain crowded_queue hs hc
  have hd : drain_count crowded_queue = 1 := by decide
  rw [hd] at h3 h4 h5 h6 h7
  obtain ⟨a1, w, a2, a3, a4⟩ := h5 0 1 (by decide) (by decide)
  have hw : w = 1 := by
    have : (free_workers crowded_queue)[0]? = some 1 := by decide
    rw [this] at a2
    injection a2 with a2
    exact a2.symm
  subst hw
  have hp : crowded_queue.pending = 3 := by decide
  have hb : crowded_queue.busy = 2 := by decide
  exact ⟨hs, hc, hp, hb, by decide, by decide, by decide, s1, h1, by omega, by omega,
    a1, a3, a4, h6 4 (by decide), h6 5 (by decide), h7 3 (by decide)⟩


/-! ## No orphaned work -/

/-- C18, the claim as stated fails. In program order, with a `worker_start`
accepted by its sanity checks arriving between two steps of a worker cycle:
a normal call that arrives for process 0 after its worker has completed the
normal-work block (while it serves postponed work) is still stored when
the worker releases the process, which is then neither flagged FP_PENDING
nor assigned a worker, and the next `worker_start` on that process ends in
the "worker administration error" panic. Postponed work that arrives after
the postponed-work block has completed is orphaned in the same way. -/
theorem no_orphaned_call_counterexample :
    ((crun false (Sched.init (pool 2 2)) late_normal).isSome = true ∧
      (get_fproc (crun_end false (Sched.init (pool 2 2)) late_normal) 0).fp_func = some 7 ∧
      is_pending (crun_end false (Sched.init (pool 2 2)) late_normal) 0 = false ∧
      (get_fproc (crun_end false (Sched.init (pool 2 2)) late_normal) 0).fp_worker = none ∧
      worker_start (crun_end false (Sched.init (pool 2 2)) late_normal) 0 (some 8) msg0 false
        = .error (Fatal.administration_error,
            crun_end false (Sched.init (pool 2 2)) late_normal)) ∧
    ((crun false (Sched.init (pool 2 2)) late_pm).isSome = true ∧
      has_flag (get_fproc (crun_end false (Sched.init (pool 2 2)) late_pm) 0).fp_flags
        FP_PM_WORK = true ∧
      is_pending (crun_end false (Sched.init (pool 2 2)) late_pm) 0 = false ∧
      (get_fproc (crun_end false (Sched.init (pool 2 2)) late_pm) 0).fp_worker = none ∧
      worker_start (crun_end false (Sched.init (pool 2 2)) late_pm) 0 (some 8) msg0 false
        = .error (Fatal.administration_error,
            crun_end false (Sched.init (pool 2 2)) late_pm)) :=
  ⟨⟨by decide, by decide, by decide, by decide, by rfl⟩,
    ⟨by decide, by decide, by decide, by decide, by rfl⟩⟩


/-- A step that leaves every worker at its place keeps `Served` when it keeps
the pool invariant, binds only idle workers, leaves alone the stored work of
the processes whose worker is past the block that serves it, and leaves no
process idle that was not idle and unchanged. -/
theorem served_of_grow (c : Sched) (s1 : State) (hK : Served c) (hI : Inv s1)
    (g1 : ∀ j, (get_worker s1 j).w_fp = (get_worker c.st j).w_fp ∨
      (get_worker c.st j).w_fp = none)
    (g3 : ∀ w p, (get_worker c.st w).w_fp = some p → 1 ≤ c.pc w →
      (get_fproc s1 p).fp_func = (get_fproc c.st p).fp_func)
    (g4 : ∀ w p, (get_worker c.st w).w_fp = some p → 2 ≤ c.pc w →
      has_pm_work s1 p = has_pm_work c.st p)
    (g5 : ∀ p, is_pending s1 p = false → (get_fproc s1 p).fp_worker = none →
      is_pending c.st p = false ∧ (get_fproc c.st p).fp_worker = none ∧
      (get_fproc s1 p).fp_func = (get_fproc c.st p).fp_func ∧
      has_pm_work s1 p = has_pm_work c.st p) :
    Served ⟨s1, c.pc⟩ := by
  obtain ⟨k1, k2, k3, k4, k5⟩ := hK
  have hsame : ∀ w p, (get_worker s1 w).w_fp = some p → 1 ≤ c.pc w →
      (get_worker c.st w).w_fp = some p := by
    intro w p hwp hpc
    rcases g1 w with h | h
    · rw [← h]; exact hwp
    · have := k2 w h
      omega
  refine ⟨hI, ?_, ?_, ?_, ?_⟩
  · intro w hw
    rcases g1 w with h | h
    · exact k2 w (by rw [← h]; exact hw)
    · exact k2 w h
  · intro w p hwp hpc
    have hpc1 : 1 ≤ c.pc w := hpc
    have h := hsame w p hwp hpc1
    show (get_fproc s1 p).fp_func = none
    rw [g3 w p h hpc1]
    exact k3 w p h hpc1
  · intro w p hwp hpc
    have hpc2 : 2 ≤ c.pc w := hpc
    have h := hsame w p hwp (by omega)
    show has_pm_work s1 p = false
    rw [g4 w p h hpc2]
    exact k4 w p h hpc2
  · intro p hp hw
    obtain ⟨a1, a2, a3, a4⟩ := g5 p hp hw
    show (get_fproc s1 p).fp_func = none ∧ has_pm_work s1 p = false
    rw [a3, a4]
    exact k5 p a1 a2

theorem served_of_binds (c : Sched) (s1 : State) (hK : Served c) (hI : Inv s1)
    (hb : binds c.st s1) : Served ⟨s1, c.pc⟩ := by
  obtain ⟨b1, b2, b3⟩ := hb
  exact served_of_grow c s1 hK hI b1 (fun _ p _ _ => (b2 p).1) (fun _ p _ _ => (b2 p).2)
    (fun p hp hw => ⟨(b3 p hp hw).1, (b3 p hp hw).2, (b2 p).1, (b2 p).2⟩)

theorem binds_refl (s : State) : binds s s :=
  ⟨fun _ => Or.inl rfl, fun _ => ⟨rfl, rfl⟩, fun _ h1 h2 => ⟨h1, h2⟩⟩

theorem binds_trans (s s1 s2 : State) (h1 : binds s s1) (h2 : binds s1 s2) : binds s s2 := by
  obtain ⟨a1, a2, a3⟩ := h1
  obtain ⟨b1, b2, b3⟩ := h2
  refine ⟨?_, ?_, ?_⟩
  · intro j
    rcases b1 j with h | h
    · rcases a1 j with h' | h'
      · exact Or.inl (by rw [h, h'])
      · exact Or.inr h'
    · rcases a1 j with h' | h'
      · exact Or.inr (by rw [← h', h])
      · exact Or.inr h'
  · intro q
    exact ⟨by rw [(b2 q).1, (a2 q).1], by rw [(b2 q).2, (a2 q).2]⟩
  · intro q hp hw
    obtain ⟨c1, c2⟩ := b3 q hp hw
    exact a3 q c1 c2

/-- Binding a pending process to an idle worker, with its flag cleared, is
such a change, whatever happens to the other fields of the state. -/
theorem binds_of_entries (s s1 : State) (k rfp : Nat)
    (hfree : (get_worker s k).w_fp = none)
    (hpend : is_pending s rfp = true)
    (hW : ∀ j, j ≠ k → get_worker s1 j = get_worker s j)
    (hF : ∀ q, q ≠ rfp → get_fproc s1 q = get_fproc s q)
    (hw : (get_fproc s1 rfp).fp_worker = some k)
    (hfunc : (get_fproc s1 rfp).fp_func = (get_fproc s rfp).fp_func)
    (hpm : has_pm_work s1 rfp = has_pm_work s rfp) : binds s s1 := by
  refine ⟨?_, ?_, ?_⟩
  · intro j
    by_cases hj : j = k
    · subst hj; exact Or.inr hfree
    · exact Or.inl (by rw [hW j hj])
  · intro q
    by_cases hq : q = rfp
    · subst hq; exact ⟨hfunc, hpm⟩
    · unfold has_pm_work
      rw [hF q hq]
      exact ⟨rfl, rfl⟩
  · intro q hp hw2
    by_cases hq : q = rfp
    · subst hq
      rw [hw] at hw2
      cases hw2
    · unfold is_pending at hp ⊢
      rw [hF q hq] at hp hw2
      exact ⟨hp, hw2⟩


/-- What the saved work leaves of the other kind of work of the process. -/
theorem worker_start_save_stored (s : State) (rfp : Nat) (func : Option Nat) (m : message)
    (hlt : rfp < NR_PROCS s) :
    (func.isSome = true →
      (get_fproc (worker_start_save s rfp func m) rfp).fp_flags = (get_fproc s rfp).fp_flags) ∧
    (func = none →
      (get_fproc (worker_start_save s rfp func m) rfp).fp_func = (get_fproc s rfp).fp_func) := by
  have hlt2 : rfp < s.fproc.length := hlt
  constructor
  · intro hf
    cases func with
    | none => cases hf
    | some f => simp [worker_start_save, set_fproc, get_fproc, getD_set, hlt2]
  · intro hf
    subst hf
    simp [worker_start_save, set_fproc, get_fproc, getD_set, hlt2]

/-- The change of state of a successful `worker_start` under the pool
invariant: only idle workers are bound, only the entry of the process
changes, the process is pending or active afterwards, and the work of the
other kind is as before. -/
theorem worker_start_grow (s s1 : State) (rfp : Nat) (func : Option Nat) (m : message)
    (use_spare : Bool) (hI : Inv s) (hlt : rfp < NR_PROCS s)
    (h : worker_start s rfp func m use_spare = .ok s1) :
    (∀ j, (get_worker s1 j).w_fp = (get_worker s j).w_fp ∨ (get_worker s j).w_fp = none) ∧
    (∀ q, q ≠ rfp → get_fproc s1 q = get_fproc s q) ∧
    (is_pending s1 rfp = true ∨ (get_fproc s1 rfp).fp_worker ≠ none) ∧
    (func.isSome = true → has_pm_work s1 rfp = has_pm_work s rfp) ∧
    (func = none → (get_fproc s1 rfp).fp_func = (get_fproc s rfp).fp_func) := by
  have hfr := worker_start_frame s s1 rfp func m use_spare h
  have hframe : ∀ q, q ≠ rfp → get_fproc s1 q = get_fproc s q :=
    fun q hq => get_fproc_frame s s1 rfp q hq hfr.1
  obtain ⟨v, hF0, -, -, hW0, hp0, hb0, hbl0, -⟩ := worker_start_save_fields s rfp func m
  obtain ⟨g1, g2⟩ := get_fproc_save s rfp func m
  obtain ⟨st1, st2⟩ := worker_start_save_stored s rfp func m hlt
  have hlt1 : rfp < NR_PROCS (worker_start_save s rfp func m) := by rw [NR_PROCS_save]; exact hlt
  unfold worker_start at h
  simp only at h
  split at h
  · cases h
  · split at h
    · rename_i hidle
      simp only [Bool.and_eq_true, Bool.not_eq_true'] at hidle
      by_cases hc : (if use_spare = true then (1 : Int) else 2)
          ≤ worker_available (worker_start_save s rfp func m) ∧
          ((worker_start_save s rfp func m).block_all = false ∨ use_spare = true)
      · rw [worker_try_activate_assign _ rfp use_spare hc] at h
        obtain ⟨hF, hW, -⟩ := worker_assign_fields _ s1 rfp h
        rw [find_free_worker_save] at hF hW
        have hble := inv_busy_le s hI
        have hfree : s.busy < NR_WTHREADS s := by
          have := hc.1
          rw [worker_available_save, worker_available_eq s hI.1.1 hble] at this
          cases use_spare <;> simp at this <;> omega
        obtain ⟨f1, f2, -⟩ := find_free_worker_spec s (by rw [← hI.2.1.2]; exact hfree)
        have hg : get_fproc s1 rfp = { get_fproc (worker_start_save s rfp func m) rfp with
            fp_worker := some (find_free_worker s) } := by
          rw [get_fproc_of_set _ s1 rfp rfp _ hF]
          simp [hlt1]
        refine ⟨?_, hframe, ?_, ?_, ?_⟩
        · intro j
          by_cases hj : j = find_free_worker s
          · subst hj; exact Or.inr f2
          · left
            rw [get_worker_of_set _ s1 _ j _ hW, if_neg (fun hc2 => hj hc2.1.symm),
              get_worker_save]
        · right
          rw [hg]
          simp
        · intro hf
          unfold has_pm_work
          rw [hg]
          simp only
          rw [st1 hf]
        · intro hf
          rw [hg]
          simp only
          exact st2 hf
      · rw [worker_try_activate_pend _ rfp use_spare hc] at h
        injection h with h
        subst h
        have hg : get_fproc { set_fproc (worker_start_save s rfp func m) rfp
              { get_fproc (worker_start_save s rfp func m) rfp with
                fp_flags := set_flag (get_fproc (worker_start_save s rfp func m) rfp).fp_flags
                  FP_PENDING } with
              pending := uint_inc (worker_start_save s rfp func m).pending } rfp
            = { get_fproc (worker_start_save s rfp func m) rfp with
                fp_flags := set_flag (get_fproc (worker_start_save s rfp func m) rfp).fp_flags
                  FP_PENDING } := by
          rw [get_fproc_of_set (worker_start_save s rfp func m) _ rfp rfp _ rfl]
          simp [hlt1]
        refine ⟨?_, hframe, ?_, ?_, ?_⟩
        · intro j
          left
          simp only [get_worker, set_fproc, hW0]
        · left
          unfold is_pending
          rw [hg]
          exact has_flag_set_self _ _ pending_ne_zero
        · intro hf
          unfold has_pm_work
          rw [hg]
          simp only
          rw [has_flag_set_other _ _ _ pending_and_pm_work, st1 hf]
        · intro hf
          rw [hg]
          simp only
          exact st2 hf
    · rename_i hidle
      injection h with h
      subst h
      refine ⟨?_, hframe, ?_, ?_, ?_⟩
      · intro j
        left
        simp only [get_worker, hW0]
      · unfold is_pending
        rw [g1, g2]
        cases hp : has_flag (get_fproc s rfp).fp_flags FP_PENDING with
        | true => exact Or.inl rfl
        | false =>
          right
          intro hw
          apply hidle
          rw [hp, hw]
          rfl
      · intro hf
        unfold has_pm_work
        rw [st1 hf]
      · intro hf
        exact st2 hf


/-- A round of the scan of `worker_allow` keeps the pool invariant. -/
theorem round_inv (s s3 : State) (rfp : Nat) (hI : Inv s) (hp : is_pending s rfp = true)
    (hfree : s.busy < NR_WTHREADS s) (h : worker_assign (unpend s rfp) rfp = .ok s3) :
    Inv s3 := by
  have hlt := lt_of_pending s rfp hp
  have hw : (get_fproc s rfp).fp_worker = none := by
    by_contra hne
    exact hI.2.2.2 rfp ⟨hp, hne⟩
  have hg := get_fproc_unpend s rfp hlt
  exact inv_worker_assign (unpend s rfp) s3 rfp (inv_unpend_state s rfp hI hp)
    (by simpa [NR_PROCS, unpend, set_fproc] using hlt)
    (by rw [hg]; exact has_flag_clear_self _ _) (by rw [hg]; exact hw) hfree h

/-- A round of the scan of `worker_allow` leaves the stored work of the
process as it was. -/
theorem round_stored (s s3 : State) (rfp : Nat) (hlt : rfp < NR_PROCS s)
    (h : worker_assign (unpend s rfp) rfp = .ok s3) :
    (get_fproc s3 rfp).fp_func = (get_fproc s rfp).fp_func ∧
    has_pm_work s3 rfp = has_pm_work s rfp := by
  obtain ⟨hF, -⟩ := worker_assign_fields _ s3 rfp h
  have hlt2 : rfp < NR_PROCS (unpend s rfp) := by simpa [NR_PROCS, unpend, set_fproc] using hlt
  have hg : get_fproc s3 rfp = { get_fproc (unpend s rfp) rfp with
      fp_worker := some (find_free_worker (unpend s rfp)) } := by
    rw [get_fproc_of_set _ s3 rfp rfp _ hF]
    simp [hlt2]
  unfold has_pm_work
  rw [hg, get_fproc_unpend s rfp hlt]
  exact ⟨rfl, has_flag_clear_other _ _ _ pending_and_pm_work⟩

theorem binds_allow_loop (l : List Nat) (s s1 : State) (hI : Inv s)
    (hav : 1 < worker_available s) (h : worker_allow_loop s l = .ok s1) : binds s s1 := by
  induction l generalizing s with
  | nil =>
    rw [worker_allow_loop] at h
    injection h with h
    subst h
    exact binds_refl s
  | cons rfp rest ih =>
    by_cases hp : is_pending s rfp = true
    · have hlt := lt_of_pending s rfp hp
      have hpos := pending_pos_of_flag s rfp hI hp
      have hble := inv_busy_le s hI
      have hple : s.pending ≤ NR_PROCS s := by rw [hI.2.1.1]; exact count_pending_le s
      have hfree : s.busy < NR_WTHREADS s := by
        rw [worker_available_eq s hI.1.1 hble] at hav
        omega
      obtain ⟨s3, k, h3, r0, -, -, -, -, -, -, r6, -, r8, -, r10⟩ :=
        drain_round_gen s rfp hlt hI.1.1 hI.2.1.2 hfree hpos
          (by have := hI.1.2; omega)
      have hkfree : (get_worker s k).w_fp = none := by
        have hk : k ∈ free_workers s := by rw [r0]; exact List.mem_cons_self _ _
        unfold free_workers at hk
        have := (List.mem_filter.1 hk).2
        unfold is_free at this
        cases hx : (get_worker s k).w_fp with
        | none => rfl
        | some v => rw [hx] at this; cases this
      obtain ⟨q1, q2⟩ := round_stored s s3 rfp hlt h3
      have hb3 : binds s s3 := binds_of_entries s s3 k rfp hkfree hp r10 r8 r6 q1 q2
      have hI3 := round_inv s s3 rfp hI hp hfree h3
      rw [worker_allow_loop_cons_pending s rfp rest hp hpos, h3] at h
      simp only at h
      by_cases hm : worker_may_do_pending s3 = true
      · rw [hm] at h
        simp only [Bool.not_true, Bool.false_eq_true, if_false] at h
        exact binds_trans s s3 s1 hb3 (ih s3 hI3 ((worker_may_do_pending_iff s3).1 hm).2.1 h)
      · have hm2 : worker_may_do_pending s3 = false := by simpa using hm
        rw [hm2] at h
        simp only [Bool.not_false, if_true] at h
        injection h with h
        subst h
        exact hb3
    · have hp2 : is_pending s rfp = false := by simpa using hp
      rw [worker_allow_loop_cons_skip s rfp rest hp2] at h
      exact ih s hI hav h

theorem binds_worker_allow (s s1 : State) (allow : Bool) (hI : Inv s)
    (h : worker_allow s allow = .ok s1) : binds s s1 := by
  unfold worker_allow at h
  simp only at h
  have hI1 : Inv { s with block_all := !allow } := inv_congr s _ hI rfl rfl rfl rfl
  by_cases hm : worker_may_do_pending { s with block_all := !allow } = true
  · rw [hm] at h
    simp only [Bool.not_true, Bool.false_eq_true, if_false] at h
    have hb : binds { s with block_all := !allow } s1 :=
      binds_allow_loop _ { s with block_all := !allow } s1 hI1
        ((worker_may_do_pending_iff _).1 hm).2.1 h
    exact hb
  · have hm2 : worker_may_do_pending { s with block_all := !allow } = false := by simpa using hm
    rw [hm2] at h
    simp only [Bool.not_false, if_true] at h
    injection h with h
    subst h
    exact binds_refl s

theorem worker_get_work_loop_claimed (l : List Nat) (s s1 : State) (self : Nat)
    (h : worker_get_work_loop s self l = .ok (GetWork.claimed s1)) :
    ∃ p, is_pending s p = true ∧ s1 = claimed_state s self p := by
  induction l with
  | nil => rw [worker_get_work_loop] at h; cases h
  | cons x xs ih =>
    rw [worker_get_work_loop] at h
    by_cases hx : is_pending s x = true
    · rw [if_pos (show has_flag (get_fproc s x).fp_flags FP_PENDING = true from hx)] at h
      simp only at h
      split at h
      · cases h
      · injection h with h
        injection h with h
        exact ⟨x, hx, h.symm⟩
    · rw [if_neg (show ¬ has_flag (get_fproc s x).fp_flags FP_PENDING = true from hx)] at h
      exact ih h

theorem binds_claim (s s1 : State) (w : Nat) (hw : w < NR_WTHREADS s)
    (h : worker_get_work { s with self := some w } = .ok (GetWork.claimed s1)) :
    binds s s1 := by
  unfold worker_get_work at h
  simp only at h
  by_cases hidle : (get_worker { s with self := some w } w).w_fp = none
  · rw [if_neg (by simpa using hidle)] at h
    by_cases hm : worker_may_do_pending { s with self := some w } = true
    · rw [if_pos hm] at h
      obtain ⟨p, hp, rfl⟩ := worker_get_work_loop_claimed _ _ s1 w h
      have hlt : p < NR_PROCS { s with self := some w } := lt_of_pending _ p hp
      obtain ⟨e1, e2, e3, e4⟩ := claimed_state_entries { s with self := some w } w p hw hlt
      have hb : binds { s with self := some w } (claimed_state { s with self := some w } w p) := by
        refine binds_of_entries _ _ w p hidle hp e2 e4 ?_ ?_ ?_
        · rw [e3]
        · rw [e3]
        · unfold has_pm_work
          rw [e3]
          exact has_flag_clear_other _ _ _ pending_and_pm_work
      exact hb
    · rw [if_neg hm] at h
      cases h
  · rw [if_pos (by simpa using hidle)] at h
    cases h



/-- A block of the loop body run by the worker `w` for its process `fp`,
which takes `w` to the place `v` of its cycle, keeps `Served` when it changes
no binding and no pending bit, stores no work, and leaves the process
without the work that the blocks completed so far serve. -/
theorem served_goto (c : Sched) (s1 : State) (w fp v : Nat) (hK : Served c) (hI : Inv s1)
    (hb : (get_worker c.st w).w_fp = some fp)
    (hWfp : ∀ j, (get_worker s1 j).w_fp = (get_worker c.st j).w_fp)
    (hpend : ∀ q, is_pending s1 q = is_pending c.st q)
    (hwork : ∀ q, (get_fproc s1 q).fp_worker = (get_fproc c.st q).fp_worker)
    (hfunc : ∀ q, (get_fproc c.st q).fp_func = none → (get_fproc s1 q).fp_func = none)
    (hpm : ∀ q, has_pm_work c.st q = false → has_pm_work s1 q = false)
    (hv1 : (get_fproc s1 fp).fp_func = none) (hv2 : 2 ≤ v → has_pm_work s1 fp = false) :
    Served (c.goto s1 w v) := by
  obtain ⟨k1, k2, k3, k4, k5⟩ := hK
  have hpc : ∀ j, (c.goto s1 w v).pc j = if j = w then v else c.pc j := fun _ => rfl
  have hst : (c.goto s1 w v).st = s1 := rfl
  refine ⟨by rw [hst]; exact hI, ?_, ?_, ?_, ?_⟩
  · intro j hj
    rw [hst, hWfp j] at hj
    have hne : j ≠ w := fun hc => by rw [hc, hb] at hj; cases hj
    rw [hpc, if_neg hne]
    exact k2 j hj
  · intro j p hjp hpc1
    rw [hst, hWfp j] at hjp
    rw [hst]
    rw [hpc] at hpc1
    by_cases hj : j = w
    · subst hj
      rw [hb] at hjp
      injection hjp with hjp
      subst hjp
      exact hv1
    · rw [if_neg hj] at hpc1
      exact hfunc p (k3 j p hjp hpc1)
  · intro j p hjp hpc1
    rw [hst, hWfp j] at hjp
    rw [hst]
    rw [hpc] at hpc1
    by_cases hj : j = w
    · subst hj
      rw [hb] at hjp
      injection hjp with hjp
      subst hjp
      rw [if_pos rfl] at hpc1
      exact hv2 hpc1
    · rw [if_neg hj] at hpc1
      exact hpm p (k4 j p hjp hpc1)
  · intro q hp hwq
    rw [hst] at hp hwq ⊢
    rw [hpend q] at hp
    rw [hwork q] at hwq
    obtain ⟨a1, a2⟩ := k5 q hp hwq
    exact ⟨hfunc q a1, hpm q a2⟩

theorem served_normal (c : Sched) (s0 : State) (w fp : Nat) (hK : Served c)
    (hs0 : s0 = { c.st with self := some w, fp := some fp }) (hw : w < NR_WTHREADS c.st)
    (hb : (get_worker c.st w).w_fp = some fp) :
    Served (c.goto (worker_main_normal s0 w fp) w 1) := by
  have k1 := hK.1
  have hI0 : Inv s0 := inv_congr c.st _ k1 (by rw [hs0]) (by rw [hs0]) (by rw [hs0]) (by rw [hs0])
  have hfw : (get_fproc c.st fp).fp_worker = some w := (k1.2.2.1 fp w).2 hb
  have hlt : fp < NR_PROCS c.st := lt_of_fp_worker c.st fp w hfw
  have hF0 : ∀ q, get_fproc s0 q = get_fproc c.st q := by intro q; rw [hs0]; rfl
  have hW0 : ∀ j, get_worker s0 j = get_worker c.st j := by intro j; rw [hs0]; rfl
  obtain ⟨n1, n2, n3, -⟩ := worker_main_normal_fields s0 w fp (by rw [hs0]; exact hw)
    (by rw [hs0]; exact hlt)
  have hflags : ∀ q, (get_fproc (worker_main_normal s0 w fp) q).fp_flags
      = (get_fproc c.st q).fp_flags := by
    intro q
    by_cases hq : q = fp
    · subst hq; rw [n1, hF0]
    · rw [n2 q hq, hF0]
  refine served_goto c _ w fp 1 hK (inv_main_normal s0 w fp hI0).1 hb
    (fun j => by rw [n3 j, hW0]) ?_ ?_ ?_ ?_ (by rw [n1]) (fun h => by omega)
  · intro q
    unfold is_pending
    rw [hflags q]
  · intro q
    by_cases hq : q = fp
    · subst hq; rw [n1, hF0]
    · rw [n2 q hq, hF0]
  · intro q h
    by_cases hq : q = fp
    · subst hq; rw [n1]
    · rw [n2 q hq, hF0]; exact h
  · intro q h
    unfold has_pm_work at h ⊢
    rw [hflags q]; exact h

theorem served_postponed (c : Sched) (s0 : State) (w fp : Nat) (hK : Served c)
    (hs0 : s0 = { c.st with self := some w, fp := some fp }) (hw : w < NR_WTHREADS c.st)
    (hb : (get_worker c.st w).w_fp = some fp) (hpc : c.pc w = 1) :
    Served (c.goto (worker_main_postponed s0 w fp) w 2) := by
  have k1 := hK.1
  have hI0 : Inv s0 := inv_congr c.st _ k1 (by rw [hs0]) (by rw [hs0]) (by rw [hs0]) (by rw [hs0])
  have hfw : (get_fproc c.st fp).fp_worker = some w := (k1.2.2.1 fp w).2 hb
  have hlt : fp < NR_PROCS c.st := lt_of_fp_worker c.st fp w hfw
  have hF0 : ∀ q, get_fproc s0 q = get_fproc c.st q := by intro q; rw [hs0]; rfl
  have hW0 : ∀ j, get_worker s0 j = get_worker c.st j := by intro j; rw [hs0]; rfl
  obtain ⟨n1, n2, n3, -⟩ := worker_main_postponed_fields s0 w fp (by rw [hs0]; exact hw)
    (by rw [hs0]; exact hlt)
  have hfunc : ∀ q, (get_fproc (worker_main_postponed s0 w fp) q).fp_func
      = (get_fproc c.st q).fp_func := by
    intro q
    by_cases hq : q = fp
    · subst hq; rw [n1, hF0]
    · rw [n2 q hq, hF0]
  have hpmfp : has_pm_work (worker_main_postponed s0 w fp) fp = false := by
    unfold has_pm_work
    rw [n1]
    exact has_flag_clear_self _ _
  refine served_goto c _ w fp 2 hK (inv_main_postponed s0 w fp hI0).1 hb
    (fun j => by rw [n3 j, hW0]) ?_ ?_ ?_ ?_ ?_ (fun _ => hpmfp)
  · intro q
    unfold is_pending
    by_cases hq : q = fp
    · subst hq
      rw [n1, hF0]
      exact has_flag_clear_other _ _ _ pm_work_and_pending
    · rw [n2 q hq, hF0]
  · intro q
    by_cases hq : q = fp
    · subst hq; rw [n1, hF0]
    · rw [n2 q hq, hF0]
  · intro q h
    rw [hfunc q]; exact h
  · intro q h
    by_cases hq : q = fp
    · subst hq; exact hpmfp
    · unfold has_pm_work at h ⊢
      rw [n2 q hq, hF0]; exact h
  · rw [hfunc fp]
    exact hK.2.2.1 w fp hb (by omega)


/-- A step after which the worker `w` and its process `fp` are released,
with no work left stored for `fp`, keeps `Served`. -/
theorem served_release (c : Sched) (s1 : State) (w fp : Nat) (hK : Served c) (hI : Inv s1)
    (hWw : (get_worker s1 w).w_fp = none)
    (hWo : ∀ j, j ≠ w → (get_worker s1 j).w_fp = (get_worker c.st j).w_fp)
    (hFo : ∀ q, q ≠ fp → get_fproc s1 q = get_fproc c.st q)
    (hfp1 : (get_fproc s1 fp).fp_func = none) (hfp2 : has_pm_work s1 fp = false) :
    Served (c.goto s1 w 0) := by
  obtain ⟨k1, k2, k3, k4, k5⟩ := hK
  have hpc : ∀ j, (c.goto s1 w 0).pc j = if j = w then 0 else c.pc j := fun _ => rfl
  have hst : (c.goto s1 w 0).st = s1 := rfl
  refine ⟨by rw [hst]; exact hI, ?_, ?_, ?_, ?_⟩
  · intro j hj
    rw [hst] at hj
    rw [hpc]
    by_cases hjw : j = w
    · rw [if_pos hjw]
    · rw [if_neg hjw]
      rw [hWo j hjw] at hj
      exact k2 j hj
  · intro j p hjp hpc1
    rw [hst] at hjp ⊢
    rw [hpc] at hpc1
    have hjw : j ≠ w := fun hc => by rw [hc, hWw] at hjp; cases hjp
    rw [if_neg hjw] at hpc1
    rw [hWo j hjw] at hjp
    by_cases hq : p = fp
    · rw [hq]; exact hfp1
    · rw [hFo p hq]
      exact k3 j p hjp hpc1
  · intro j p hjp hpc1
    rw [hst] at hjp ⊢
    rw [hpc] at hpc1
    have hjw : j ≠ w := fun hc => by rw [hc, hWw] at hjp; cases hjp
    rw [if_neg hjw] at hpc1
    rw [hWo j hjw] at hjp
    by_cases hq : p = fp
    · rw [hq]; exact hfp2
    · unfold has_pm_work
      rw [hFo p hq]
      exact k4 j p hjp hpc1
  · intro q hp hwq
    rw [hst] at hp hwq ⊢
    by_cases hq : q = fp
    · rw [hq]; exact ⟨hfp1, hfp2⟩
    · unfold is_pending at hp
      unfold has_pm_work
      rw [hFo q hq] at hp hwq ⊢
      exact k5 q hp hwq

theorem goto_same (c : Sched) (s1 : State) (w : Nat) (h : c.pc w = 0) :
    c.goto s1 w 0 = ⟨s1, c.pc⟩ := by
  unfold Sched.goto
  congr
  funext j
  by_cases hj : j = w
  · rw [if_pos hj, hj, h]
  · rw [if_neg hj]

theorem served_unbind (c : Sched) (s0 s1 : State) (w fp : Nat) (hK : Served c)
    (hs0 : s0 = { c.st with self := some w, fp := some fp }) (hw : w < NR_WTHREADS c.st)
    (hb : (get_worker c.st w).w_fp = some fp) (hpc : c.pc w = 2)
    (h : worker_main_unbind s0 w fp = .ok s1) : Served (c.goto s1 w 0) := by
  have k1 := hK.1
  have hI0 : Inv s0 := inv_congr c.st _ k1 (by rw [hs0]) (by rw [hs0]) (by rw [hs0]) (by rw [hs0])
  have hfw : (get_fproc c.st fp).fp_worker = some w := (k1.2.2.1 fp w).2 hb
  have hlt : fp < NR_PROCS c.st := lt_of_fp_worker c.st fp w hfw
  have hF0 : ∀ q, get_fproc s0 q = get_fproc c.st q := by intro q; rw [hs0]; rfl
  have hW0 : ∀ j, get_worker s0 j = get_worker c.st j := by intro j; rw [hs0]; rfl
  have hb0 : (get_worker s0 w).w_fp = some fp := by rw [hW0]; exact hb
  obtain ⟨hI1, hlt1, -⟩ := inv_main_unbind s0 s1 w fp hI0 hb0 h
  have hble := inv_busy_le s0 hI0
  have hN := hI0.1.1
  obtain ⟨s1', u0, u1, u2, u3, u4, -⟩ := worker_main_unbind_fields s0 w fp
    (by rw [hs0]; exact hw) (by rw [hs0]; exact hlt) (by omega) (by omega)
  rw [h] at u0
  injection u0 with u0
  subst u0
  refine served_release c s1 w fp hK hI1 (by rw [u3]) (fun j hj => by rw [u4 j hj, hW0])
    (fun q hq => by rw [u2 q hq, hF0]) ?_ ?_
  · rw [u1, hF0]
    exact hK.2.2.1 w fp hb (by omega)
  · unfold has_pm_work
    rw [u1, hF0]
    exact hK.2.2.2.1 w fp hb (by omega)

theorem served_cycle (c : Sched) (s1 : State) (w : Nat) (hK : Served c)
    (hw : w < NR_WTHREADS c.st) (hpc : c.pc w = 0) (h : worker_main_body c.st w = .ok s1) :
    Served ⟨s1, c.pc⟩ := by
  have k1 := hK.1
  cases hb : (get_worker c.st w).w_fp with
  | none =>
    unfold worker_main_body at h
    rw [hb] at h
    cases h
  | some fp =>
    have hfw : (get_fproc c.st fp).fp_worker = some w := (k1.2.2.1 fp w).2 hb
    have hlt : fp < NR_PROCS c.st := lt_of_fp_worker c.st fp w hfw
    obtain ⟨hI1, hlt1, -⟩ := inv_cycle c.st s1 w k1 h
    have hble := inv_busy_le c.st k1
    have hN := k1.1.1
    rw [worker_main_body_eq c.st w fp hb hfw] at h
    have hw0 : w < NR_WTHREADS (after_lock c.st w fp) := hw
    have hp0 : fp < NR_PROCS (after_lock c.st w fp) := hlt
    have hF0 : ∀ q, get_fproc (after_lock c.st w fp) q = get_fproc c.st q := fun _ => rfl
    have hW0 : ∀ j, get_worker (after_lock c.st w fp) j = get_worker c.st j := fun _ => rfl
    have hbusy0 : (after_lock c.st w fp).busy = c.st.busy := rfl
    obtain ⟨n1, n2, n3, n4, -, n6, -, n8, n9⟩ :=
      worker_main_normal_fields (after_lock c.st w fp) w fp hw0 hp0
    obtain ⟨m1, m2, m3, m4, -, m6, -, m8, m9⟩ :=
      worker_main_postponed_fields (worker_main_normal (after_lock c.st w fp) w fp) w fp
        (by rw [n8]; exact hw0) (by rw [n9]; exact hp0)
    obtain ⟨s1', u0, u1, u2, u3, u4, -⟩ :=
      worker_main_unbind_fields
        (worker_main_postponed (worker_main_normal (after_lock c.st w fp) w fp) w fp) w fp
        (by rw [m8, n8]; exact hw0) (by rw [m9, n9]; exact hp0)
        (by rw [m6, n6, hbusy0]; omega) (by rw [m6, n6, hbusy0]; omega)
    rw [h] at u0
    injection u0 with u0
    subst u0
    rw [← goto_same c s1 w hpc]
    refine served_release c s1 w fp hK hI1 (by rw [u3])
      (fun j hj => by rw [u4 j hj, m3 j, n3 j, hW0])
      (fun q hq => by rw [u2 q hq, m2 q hq, n2 q hq, hF0]) ?_ ?_
    · rw [u1, m1, n1]
    · unfold has_pm_work
      rw [u1, m1]
      exact has_flag_clear_self _ _


theorem served_start (c : Sched) (s1 : State) (rfp : Nat) (func : Option Nat) (m : message)
    (use_spare : Bool) (hK : Served c) (hlt : rfp < NR_PROCS c.st)
    (ht : timely c rfp func = true)
    (h : worker_start c.st rfp func m use_spare = .ok s1) : Served ⟨s1, c.pc⟩ := by
  have k1 := hK.1
  have hI1 : Inv s1 := by
    refine inv_step c.st s1 (.start rfp func m use_spare) k1 ?_
    show (if rfp < NR_PROCS c.st then
      (match worker_start c.st rfp func m use_spare with
        | .ok s1 => some s1
        | .error _ => none) else none) = some s1
    rw [if_pos hlt, h]
  obtain ⟨g1, g2, g3, g4, g5⟩ := worker_start_grow c.st s1 rfp func m use_spare k1 hlt h
  have hpc : ∀ w, (get_worker c.st w).w_fp = some rfp →
      (if func.isSome then decide (c.pc w = 0) else decide (c.pc w ≤ 1)) = true := by
    intro w hw
    have hfw : (get_fproc c.st rfp).fp_worker = some w := (k1.2.2.1 rfp w).2 hw
    unfold timely at ht
    rw [hfw] at ht
    exact ht
  refine served_of_grow c s1 hK hI1 g1 ?_ ?_ ?_
  · intro w p hwp hpc1
    by_cases hq : p = rfp
    · subst hq
      have ht1 := hpc w hwp
      cases func with
      | none => exact g5 rfl
      | some f =>
        simp at ht1
        omega
    · rw [g2 p hq]
  · intro w p hwp hpc1
    by_cases hq : p = rfp
    · subst hq
      have ht1 := hpc w hwp
      cases func with
      | none =>
        simp at ht1
        omega
      | some f =>
        simp at ht1
        omega
    · unfold has_pm_work
      rw [g2 p hq]
  · intro p hp hwk
    have hq : p ≠ rfp := by
      intro hc
      subst hc
      cases g3 with
      | inl g => rw [g] at hp; cases hp
      | inr g => exact g hwk
    unfold is_pending has_pm_work at *
    rw [g2 p hq] at hp hwk ⊢
    exact ⟨hp, hwk, rfl, rfl⟩

/-- Every step of a timely program-order execution keeps `Served`. -/
theorem served_cstep (c c1 : Sched) (a : Action) (hK : Served c)
    (h : cstep true c a = some c1) : Served c1 := by
  have k1 := hK.1
  cases a with
  | start rfp func m use_spare =>
    replace h : (if true = true ∧ timely c rfp func = false then none
      else (step c.st (.start rfp func m use_spare)).map (fun s1 => (⟨s1, c.pc⟩ : Sched))) =
      some c1 := h
    by_cases ht : timely c rfp func = true
    · rw [if_neg (by rw [ht]; simp)] at h
      cases hs : step c.st (.start rfp func m use_spare) with
      | none => rw [hs] at h; cases h
      | some s1 =>
        rw [hs] at h
        injection h with h
        rw [← h]
        simp only [step] at hs
        by_cases hlt : rfp < NR_PROCS c.st
        · rw [if_pos hlt] at hs
          cases hw : worker_start c.st rfp func m use_spare with
          | error e => rw [hw] at hs; cases hs
          | ok s2 =>
            rw [hw] at hs
            injection hs with hs
            subst hs
            exact served_start c s2 rfp func m use_spare hK hlt ht hw
        · rw [if_neg hlt] at hs; cases hs
    · rw [if_pos ⟨rfl, by simpa using ht⟩] at h; cases h
  | allow allow =>
    replace h : (step c.st (.allow allow)).map (fun s1 => (⟨s1, c.pc⟩ : Sched)) = some c1 := h
    cases hs : step c.st (.allow allow) with
    | none => rw [hs] at h; cases h
    | some s1 =>
      rw [hs] at h
      injection h with h
      rw [← h]
      have hI1 := inv_step c.st s1 (.allow allow) k1 hs
      simp only [step] at hs
      cases hw : worker_allow c.st allow with
      | error e => rw [hw] at hs; cases hs
      | ok s2 =>
        rw [hw] at hs
        injection hs with hs
        subst hs
        exact served_of_binds c s2 hK hI1 (binds_worker_allow c.st s2 allow k1 hw)
  | claim w =>
    replace h : (step c.st (.claim w)).map (fun s1 => (⟨s1, c.pc⟩ : Sched)) = some c1 := h
    cases hs : step c.st (.claim w) with
    | none => rw [hs] at h; cases h
    | some s1 =>
      rw [hs] at h
      injection h with h
      rw [← h]
      have hI1 := inv_step c.st s1 (.claim w) k1 hs
      simp only [step] at hs
      split at hs
      · rename_i hw
        split at hs
        · rename_i s2 hg
          injection hs with hs
          subst hs
          exact served_of_binds c s2 hK hI1 (binds_claim c.st s2 w hw hg)
        · cases hs
      · cases hs
  | cycle w =>
    replace h : (if c.pc w = 0 then
      (step c.st (.cycle w)).map (fun s1 => (⟨s1, c.pc⟩ : Sched)) else none) = some c1 := h
    by_cases hpc : c.pc w = 0
    · rw [if_pos hpc] at h
      cases hs : step c.st (.cycle w) with
      | none => rw [hs] at h; cases h
      | some s1 =>
        rw [hs] at h
        injection h with h
        rw [← h]
        simp only [step] at hs
        by_cases hw : w < NR_WTHREADS c.st
        · rw [if_pos hw] at hs
          cases hb : worker_main_body c.st w with
          | error e => rw [hb] at hs; cases hs
          | ok s2 =>
            rw [hb] at hs
            injection hs with hs
            subst hs
            exact served_cycle c s2 w hK hw hpc hb
        · rw [if_neg hw] at hs; cases hs
    · rw [if_neg hpc] at h; cases h
  | normal w =>
    replace h : (if c.pc w = 0 then
      (step c.st (.normal w)).map (fun s1 => c.goto s1 w 1) else none) = some c1 := h
    by_cases hpc : c.pc w = 0
    · rw [if_pos hpc] at h
      cases hs : step c.st (.normal w) with
      | none => rw [hs] at h; cases h
      | some s1 =>
        rw [hs] at h
        injection h with h
        rw [← h]
        simp only [step] at hs
        by_cases hw : w < NR_WTHREADS c.st
        · rw [if_pos hw] at hs
          cases hb : (get_worker c.st w).w_fp with
          | none => rw [hb] at hs; cases hs
          | some fp =>
            rw [hb] at hs
            injection hs with hs
            subst hs
            exact served_normal c _ w fp hK rfl hw hb
        · rw [if_neg hw] at hs; cases hs
    · rw [if_neg hpc] at h; cases h
  | postponed w =>
    replace h : (if c.pc w = 1 then
      (step c.st (.postponed w)).map (fun s1 => c.goto s1 w 2) else none) = some c1 := h
    by_cases hpc : c.pc w = 1
    · rw [if_pos hpc] at h
      cases hs : step c.st (.postponed w) with
      | none => rw [hs] at h; cases h
      | some s1 =>
        rw [hs] at h
        injection h with h
        rw [← h]
        simp only [step] at hs
        by_cases hw : w < NR_WTHREADS c.st
        · rw [if_pos hw] at hs
          cases hb : (get_worker c.st w).w_fp with
          | none => rw [hb] at hs; cases hs
          | some fp =>
            rw [hb] at hs
            injection hs with hs
            subst hs
            exact served_postponed c _ w fp hK rfl hw hb hpc
        · rw [if_neg hw] at hs; cases hs
    · rw [if_neg hpc] at h; cases h
  | unbind w =>
    replace h : (if c.pc w = 2 then
      (step c.st (.unbind w)).map (fun s1 => c.goto s1 w 0) else none) = some c1 := h
    by_cases hpc : c.pc w = 2
    · rw [if_pos hpc] at h
      cases hs : step c.st (.unbind w) with
      | none => rw [hs] at h; cases h
      | some s1 =>
        rw [hs] at h
        injection h with h
        rw [← h]
        simp only [step] at hs
        by_cases hw : w < NR_WTHREADS c.st
        · rw [if_pos hw] at hs
          cases hb : (get_worker c.st w).w_fp with
          | none => rw [hb] at hs; cases hs
          | some fp =>
            rw [hb] at hs
            dsimp only at hs
            split at hs
            · rename_i s2 hu
              injection hs with hs
              subst hs
              exact served_unbind c _ s2 w fp hK rfl hw hb hpc hu
            · cases hs
        · rw [if_neg hw] at hs; cases hs
    · rw [if_neg hpc] at h; cases h

theorem served_crun (acts : List Action) (c c1 : Sched) (hK : Served c)
    (h : crun true c acts = some c1) : Served c1 := by
  induction acts generalizing c with
  | nil =>
    unfold crun at h
    injection h with h
    rw [← h]; exact hK
  | cons a rest ih =>
    unfold crun at h
    cases hs : cstep true c a with
    | none => rw [hs] at h; cases h
    | some c2 =>
      rw [hs] at h
      exact ih c2 (served_cstep c c2 a hK hs) h

theorem get_worker_init (s0 : State) (w : Nat) : (get_worker (worker_init s0) w).w_fp = none := by
  unfold get_worker worker_init
  simp only [List.getD_eq_getElem?_getD, List.getElem?_map]
  cases s0.workers[w]? with
  | none => rfl
  | some x => rfl

theorem served_init (s0 : State) (hs : sizes_ok s0) (h0 : ∀ p, no_work s0 p) :
    Served (Sched.init s0) := by
  have hI : Inv (worker_init s0) := inv_init s0 hs (fun p => ⟨(h0 p).1, (h0 p).2.1⟩)
  have hF : ∀ p, get_fproc (worker_init s0) p = get_fproc s0 p := fun _ => rfl
  refine ⟨hI, fun _ _ => rfl, ?_, ?_, ?_⟩
  · intro w p hwp
    have := get_worker_init s0 w
    rw [show (Sched.init s0).st = worker_init s0 from rfl] at hwp
    rw [this] at hwp; cases hwp
  · intro w p hwp
    have := get_worker_init s0 w
    rw [show (Sched.init s0).st = worker_init s0 from rfl] at hwp
    rw [this] at hwp; cases hwp
  · intro p _ _
    exact ⟨(h0 p).2.2.1, (h0 p).2.2.2⟩


/-- C18 as amended: in every state reached from the initial state by a
program-order execution (worker_start calls, worker_allow calls, idle-worker
pending claims, and the worker cycle taken whole or as its normal-handler,
postponed-handler and unbind steps in that order) in which every accepted
`worker_start` is timely, that is, a normal call for an active process
arrives before its worker has completed the normal-work block and postponed
PM work before its worker has completed the postponed-work block, every
process with a stored normal call (fp_func != NULL) and every process with
FP_PM_WORK set is flagged FP_PENDING or has a worker assigned, so the
"worker administration error" check of `worker_start` is not triggered. -/
theorem no_orphaned_call (s0 : State) (acts : List Action) (c : Sched) (hs : sizes_ok s0)
    (h0 : ∀ p, no_work s0 p) (h : crun true (Sched.init s0) acts = some c) :
    (∀ p, (get_fproc c.st p).fp_func ≠ none →
      is_pending c.st p = true ∨ (get_fproc c.st p).fp_worker ≠ none) ∧
    (∀ p, has_pm_work c.st p = true →
      is_pending c.st p = true ∨ (get_fproc c.st p).fp_worker ≠ none) ∧
    (∀ rfp func, worker_start_checks c.st rfp func ≠ some Fatal.administration_error) := by
  have hK := served_crun acts (Sched.init s0) c (served_init s0 hs h0) h
  have k5 := hK.2.2.2.2
  refine ⟨?_, ?_, ?_⟩
  · intro p hf
    by_cases hp : is_pending c.st p = true
    · exact Or.inl hp
    · refine Or.inr (fun hw => hf (k5 p ?_ hw).1)
      cases hq : is_pending c.st p with
      | true => exact absurd hq hp
      | false => rfl
  · intro p hf
    by_cases hp : is_pending c.st p = true
    · exact Or.inl hp
    · refine Or.inr (fun hw => ?_)
      have hq : is_pending c.st p = false := by
        cases hq : is_pending c.st p with
        | true => exact absurd hq hp
        | false => rfl
      rw [(k5 p hq hw).2] at hf
      cases hf
  · intro rfp func
    unfold worker_start_checks
    cases hp : has_flag (get_fproc c.st rfp).fp_flags FP_PENDING with
    | true =>
      cases hw : (get_fproc c.st rfp).fp_worker with
      | none =>
        cases func <;> cases (get_fproc c.st rfp).fp_func <;>
          cases has_flag (get_fproc c.st rfp).fp_flags FP_PM_WORK <;> simp
      | some w =>
        cases func <;> cases (get_fproc c.st rfp).fp_func <;>
          cases has_flag (get_fproc c.st rfp).fp_flags FP_PM_WORK <;> simp
    | false =>
      cases hw : (get_fproc c.st rfp).fp_worker with
      | none =>
        have h5 := k5 rfp hp hw
        unfold has_pm_work at h5
        rw [h5.1, h5.2]
        simp
      | some w =>
        cases func <;> cases (get_fproc c.st rfp).fp_func <;>
          cases has_flag (get_fproc c.st rfp).fp_flags FP_PM_WORK <;> simp

theorem no_orphaned_call_witness :
    sizes_ok (pool 2 3) ∧ (∀ p, no_work (pool 2 3) p) ∧
    (crun true (Sched.init (pool 2 3)) timely_both).isSome = true ∧
    (get_fproc (crun_end true (Sched.init (pool 2 3)) timely_both) 0).fp_func = some 8 ∧
    ((∀ p, (get_fproc (crun_end true (Sched.init (pool 2 3)) timely_both) p).fp_func ≠ none →
      is_pending (crun_end true (Sched.init (pool 2 3)) timely_both) p = true ∨
        (get_fproc (crun_end true (Sched.init (pool 2 3)) timely_both) p).fp_worker ≠ none) ∧
    (∀ p, has_pm_work (crun_end true (Sched.init (pool 2 3)) timely_both) p = true →
      is_pending (crun_end true (Sched.init (pool 2 3)) timely_both) p = true ∨
        (get_fproc (crun_end true (Sched.init (pool 2 3)) timely_both) p).fp_worker ≠ none) ∧
    (∀ rfp func, worker_start_checks (crun_end true (Sched.init (pool 2 3)) timely_both) rfp func ≠
      some Fatal.administration_error)) := by
  have hsome : (crun true (Sched.init (pool 2 3)) timely_both).isSome = true := by decide
  have hfunc : (get_fproc (crun_end true (Sched.init (pool 2 3)) timely_both) 0).fp_func =
      some 8 := by decide
  refine ⟨by unfold sizes_ok; decide, no_work_pool 2 3, hsome, hfunc, ?_⟩
  cases hc : crun true (Sched.init (pool 2 3)) timely_both with
  | none => rw [hc] at hsome; cases hsome
  | some c =>
    have hend : crun_end true (Sched.init (pool 2 3)) timely_both = c.st := by
      unfold crun_end; rw [hc]
    rw [hend]
    exact no_orphaned_call (pool 2 3) timely_both c (by unfold sizes_ok; decide)
      (no_work_pool 2 3) hc

end VfsWorker
